import Mathlib

/-!
# FIRE record transcoding (package `irs`): a shallow embedding

Go strings and byte slices are lists of bytes, each byte a natural number below 256.
A Go `error` result is an `Option Err` (`none` is `nil`).  A method that mutates its
receiver returns the new receiver next to its result.  The `config` package (layout
tables, record lengths, code tables) is not part of the sources read here, so its
values are parameters of the definitions below; so is the range table that
`unicode.IsUpper` consults above Latin-1.  The byte slice handed to `paymentPerson.Parse`
comes with the bytes of its array between its length and its capacity.
-/

namespace Irs

/-- A Go string or byte slice. -/
abbrev Bytes := List Nat

/-- The bytes of an ASCII literal. -/
def lit (s : String) : Bytes := s.data.map Char.toNat

/-! ## Library functions the sources call -/

namespace utf8

/-- Width in bytes of the encoding that starts a non-empty string, as `unicode/utf8`
decodes it: an invalid or truncated encoding has width 1. -/
def runeSize : Bytes → Nat
  | [] => 0
  | c :: rest =>
    if c < 0x80 then 1
    else if c < 0xC2 then 1
    else if c ≤ 0xDF then
      match rest with
      | c1 :: _ => if 0x80 ≤ c1 ∧ c1 ≤ 0xBF then 2 else 1
      | _ => 1
    else if c ≤ 0xEF then
      let lo := if c = 0xE0 then 0xA0 else 0x80
      let hi := if c = 0xED then 0x9F else 0xBF
      match rest with
      | c1 :: c2 :: _ =>
        if c1 < lo ∨ hi < c1 then 1
        else if c2 < 0x80 ∨ 0xBF < c2 then 1
        else 3
      | _ => 1
    else if c ≤ 0xF4 then
      let lo := if c = 0xF0 then 0x90 else 0x80
      let hi := if c = 0xF4 then 0x8F else 0xBF
      match rest with
      | c1 :: c2 :: c3 :: _ =>
        if c1 < lo ∨ hi < c1 then 1
        else if c2 < 0x80 ∨ 0xBF < c2 then 1
        else if c3 < 0x80 ∨ 0xBF < c3 then 1
        else 4
      | _ => 1
    else 1

/-- Loop of `utf8.RuneCountInString`: `skip` bytes still belong to the rune counted last. -/
def runeCountFrom : Nat → Bytes → Nat
  | _, [] => 0
  | 0, c :: rest => 1 + runeCountFrom (runeSize (c :: rest) - 1) rest
  | skip + 1, _ :: rest => runeCountFrom skip rest

/-- Model of `utf8.RuneCountInString`. -/
def RuneCountInString (s : Bytes) : Nat := runeCountFrom 0 s

end utf8

namespace unicode

/-- The constant `unicode.MaxLatin1`. -/
def MaxLatin1 : Nat := 255

/-- Model of `unicode.IsUpper`. Up to `MaxLatin1` the answer is read from the property
table of the package, in which the upper case letters are `A-Z`, `À-Ö` and `Ø-Þ`; above
it the answer is that of the range table `unicode.Upper` of the Go release, which is not
part of the sources and is the parameter `upper`, a test on code points. -/
def IsUpper (upper : Nat → Bool) (r : Char) : Bool :=
  if r.toNat ≤ MaxLatin1 then
    (decide (65 ≤ r.toNat) && decide (r.toNat ≤ 90))
      || (decide (192 ≤ r.toNat) && decide (r.toNat ≤ 214))
      || (decide (216 ≤ r.toNat) && decide (r.toNat ≤ 222))
  else upper r.toNat

end unicode

namespace strings

/-- Model of `strings.TrimRight(data, " ")`. -/
def TrimRight (data : Bytes) : Bytes := data.rdropWhile (fun c => c == 32)

/-- Model of `strings.Count(data, " ")`. -/
def Count (data : Bytes) : Nat := data.count 32

/-- Model of `strings.Repeat` of a one-byte string. -/
def Repeat (c : Nat) (n : Nat) : Bytes := List.replicate n c

end strings

/-- Modelled from the spec: the error values of package `utils` are not in the sources.
One constructor stands for each error the sources name, for the two errors of
`strconv.ParseInt`, for the `fmt.Errorf` of an unexpected payer, for an error of
`encoding/json`, and `custom` for any other error a record returns. -/
inductive Err where
  | ErrValidField
  | ErrShortRecord
  | ErrRecordLength
  | ErrNumeric
  | ErrNonAlphanumeric
  | ErrValidDate
  | ErrEmail
  | ErrInvalidAscii
  | ErrInvalidFile
  | FieldRequired (name : String)
  | ValidValue (name : String)
  | strconvBadDigits
  | strconvOutOfRange
  | unexpectedPayer
  | jsonUnmarshal
  | custom (code : Nat)
  deriving DecidableEq, Repr

deriving instance DecidableEq for Except

namespace strconv

/-- Decimal digit test. -/
def isDigit (c : Nat) : Bool := decide (48 ≤ c) && decide (c ≤ 57)

/-- Loop of `strconv.ParseUint(s, 10, 64)` over the remaining bytes. -/
def parseUintFrom : Nat → Bytes → Except Err Nat
  | n, [] => .ok n
  | n, c :: rest =>
    if !isDigit c then .error Err.strconvBadDigits
    else if n ≥ (2 ^ 64 - 1) / 10 + 1 then .error Err.strconvOutOfRange
    else
      let n1 := n * 10 + (c - 48)
      if n1 > 2 ^ 64 - 1 then .error Err.strconvOutOfRange
      else parseUintFrom n1 rest

/-- Model of `strconv.ParseUint(s, 10, 64)`. -/
def ParseUint (s : Bytes) : Except Err Nat :=
  match s with
  | [] => .error Err.strconvBadDigits
  | _ => parseUintFrom 0 s

/-- Model of `strconv.ParseInt(s, 10, 64)`. -/
def ParseInt (s : Bytes) : Except Err Int :=
  match s with
  | [] => .error Err.strconvBadDigits
  | c :: rest =>
    let neg := c == 45
    let body := if c == 43 ∨ c == 45 then rest else s
    match ParseUint body with
    | .error e => .error e
    | .ok un =>
      if !neg ∧ un ≥ 2 ^ 63 then .error Err.strconvOutOfRange
      else if neg ∧ un > 2 ^ 63 then .error Err.strconvOutOfRange
      else .ok (if neg then - (un : Int) else (un : Int))

/-- Loop of the decimal formatting: the last digit is put in front of `acc` until the
quotient is zero. -/
def itoaLoop : Nat → Nat → Bytes → Bytes
  | 0, _, acc => acc
  | fuel + 1, n, acc =>
    if n / 10 = 0 then (n % 10 + 48) :: acc
    else itoaLoop fuel (n / 10) ((n % 10 + 48) :: acc)

/-- Model of `strconv.Itoa` on a natural number; the loop runs once per digit. -/
def itoa (n : Nat) : Bytes := itoaLoop (n + 1) n []

end strconv

/-- A stored field of a record (`reflect.Value` of kind string or int). -/
inductive Value where
  | str (s : Bytes)
  | int (n : Int)
  deriving DecidableEq, Repr

/-- Model of `reflect.Value.IsZero` on a string or int field. -/
def Value.IsZero : Value → Bool
  | .str s => s.isEmpty
  | .int n => n == 0

namespace fmt

/-- Padding of `fmt`: the width counts runes; blanks (or zeros) go left, or blanks right. -/
def pad (width : Nat) (zero minus : Bool) (s : Bytes) : Bytes :=
  let n := width - utf8.RuneCountInString s
  if minus then s ++ List.replicate n 32
  else List.replicate n (if zero then 48 else 32) ++ s

/-- Model of `fmt`'s decimal integer formatting under a width with the `0` or `-` flag. -/
def fmtInteger (n : Int) (width : Nat) (zero minus : Bool) : Bytes :=
  let digits := strconv.itoa n.natAbs
  let prec := if zero then (if n < 0 then width - 1 else width) else 0
  let body := List.replicate (prec - digits.length) 48 ++ digits
  let signed := if n < 0 then 45 :: body else body
  pad width false minus signed

/-- The value printed with `%v` and no flags. -/
def plain : Value → Bytes
  | .str s => s
  | .int n => fmtInteger n 0 false false

/-- Whether `fmt` reads the decimal width: it gives up once the digits read so far
exceed 1e6 with a digit still to come. -/
def widthParses (width : Nat) : Bool := decide (width / 10 ≤ 1000000)

/-- Output of `Sprintf` when the width does not parse: no verb is found and the
argument is reported as extra. -/
def noVerb (v : Value) : Bytes :=
  lit "%!(NOVERB)%!(EXTRA reflect.Value=" ++ plain v ++ lit ")"

/-- Model of `fmt.Sprintf("%-Ns", v)` (`minus`) and `fmt.Sprintf("%Ns", v)`. -/
def sprintfS (width : Nat) (minus : Bool) (v : Value) : Bytes :=
  if !widthParses width then noVerb v
  else
    match v with
    | .str s => pad width false minus s
    | .int n => lit "%!s(int=" ++ fmtInteger n width false minus ++ lit ")"

/-- Model of `fmt.Sprintf("%0Nd", v)` (`zero`) and `fmt.Sprintf("%-Nd", v)` (`minus`). -/
def sprintfD (width : Nat) (zero minus : Bool) (v : Value) : Bytes :=
  if !widthParses width then noVerb v
  else
    match v with
    | .int n => fmtInteger n width zero minus
    | .str s => lit "%!d(string=" ++ pad width zero minus s ++ lit ")"

end fmt

/-! ## Package `config` (parameters) -/

namespace config

/-- Modelled from the spec: the field types of package `config` are not in the sources.
The constructors are the values the sources name (`config.Alphanumeric`, ...), which the
spec lists as left-justified text, right-justified text, number, zero-padded number,
phone, email and year; `other` stands for any further value of the type. -/
inductive FieldType where
  | Alphanumeric
  | AlphanumericRightAlign
  | Numeric
  | ZeroNumeric
  | TelephoneNumber
  | Email
  | DateYear
  | other (code : Nat)
  deriving DecidableEq, Repr

/-- Modelled from the spec: the values of the `Required` column of a layout entry are not
in the sources, which test the column against `config.Required` and `config.Expandable`
only; `other` stands for any further value. -/
inductive Requirement where
  | Required
  | Expandable
  | other (code : Nat)
  deriving DecidableEq, Repr

/-- Modelled from the spec: `config.SpecField` is not in the sources. One layout entry,
with the fields the sources read: start offset, length, field type and required flag. -/
structure SpecField where
  Start : Nat
  Length : Nat
  Typ : FieldType
  Required : Requirement
  deriving DecidableEq, Repr

/-- Modelled from the spec: `config.Specification` is not in the sources. A layout entry
with its name, with the fields the sources read. -/
structure Specification where
  Name : String
  Field : SpecField
  deriving DecidableEq, Repr

/-- A layout table (`map[string]config.SpecField`), kept as the ordered table of its
entries; a key is looked up with `lookup`. -/
abbrev Layout := List (String × SpecField)

/-- Modelled from the spec: `config.ToSpecifications` is not in the sources. The spec
describes a layout as an ordered table of field descriptors which Encode walks in
declared order; the entries are returned in the order of the table. -/
def ToSpecifications (layout : Layout) : List Specification :=
  layout.map (fun e => { Name := e.1, Field := e.2 })

/-- Modelled from the spec: `config.BlankString` is not in the sources; the blank fill
byte is the ASCII space. -/
def BlankString : Nat := 32

/-- Modelled from the spec: `config.ZeroString` is not in the sources; the numeric fill
byte is the ASCII `0`. -/
def ZeroString : Nat := 48

end config

open config

/-! ## Package `utils` (src/pkg/utils/fields.go) -/

namespace utils

/-- Member of the class negated by `upperAlphanumericRegex`:
blank, `A-Z`, `0-9` and the listed punctuation, where `,-.` is a range. -/
def upperAlphanumericClass (c : Nat) : Bool :=
  c == 32 || (decide (65 ≤ c) && decide (c ≤ 90)) || (decide (48 ≤ c) && decide (c ≤ 57))
    || c == 33 || c == 34 || c == 35 || c == 36 || c == 37 || c == 38 || c == 39
    || c == 40 || c == 41 || c == 42 || c == 43 || (decide (44 ≤ c) && decide (c ≤ 46))
    || c == 92 || c == 47 || c == 58 || c == 59 || c == 60 || c == 62 || c == 61
    || c == 63 || c == 64 || c == 91 || c == 93 || c == 94 || c == 95 || c == 123
    || c == 125 || c == 124 || c == 126

/-- Whether `upperAlphanumericRegex` matches: some character lies outside the class.
Every byte of a non-ASCII or invalid encoding lies outside it. -/
def upperAlphanumericRegexMatch (data : Bytes) : Bool :=
  data.any (fun c => !upperAlphanumericClass c)

/-- Whether `numericRegex` (one or more digits, anchored at both ends) matches. -/
def numericRegexMatch (data : Bytes) : Bool :=
  !data.isEmpty && data.all strconv.isDigit

/-- Whether the text starts with `19` or `20` and two more digits. -/
def yearAtHead : Bytes → Bool
  | a :: b :: c :: d :: _ =>
    ((a == 49 && b == 57) || (a == 50 && b == 48)) && strconv.isDigit c && strconv.isDigit d
  | _ => false

/-- Whether `yearRegex` (not anchored) matches somewhere in the text. -/
def yearRegexMatch (data : Bytes) : Bool := data.tails.any yearAtHead

/-- ASCII letter or digit. -/
def isAlnum (c : Nat) : Bool :=
  (decide (97 ≤ c) && decide (c ≤ 122)) || (decide (65 ≤ c) && decide (c ≤ 90))
    || (decide (48 ≤ c) && decide (c ≤ 57))

/-- Member of the class of the local part in `emailRegex`. -/
def emailLocalClass (c : Nat) : Bool :=
  isAlnum c || c == 46 || c == 33 || c == 35 || c == 36 || c == 37 || c == 38 || c == 39
    || c == 42 || c == 43 || c == 47 || c == 61 || c == 63 || c == 94 || c == 95 || c == 96
    || c == 123 || c == 124 || c == 125 || c == 126 || c == 45

/-- One domain label of `emailRegex`: a letter or digit, then optionally up to 61
letters, digits or hyphens followed by a letter or digit. -/
def emailLabelMatch (label : Bytes) : Bool :=
  match label with
  | [] => false
  | [c] => isAlnum c
  | c :: d :: rest =>
    isAlnum c && decide (rest.length ≤ 61) && isAlnum ((d :: rest).getLast (by simp))
      && (d :: rest).dropLast.all (fun x => isAlnum x || x == 45)

/-- Whether `emailRegex` (anchored at both ends) matches: a non-empty local part, `@`,
and labels separated by dots. -/
def emailRegexMatch (data : Bytes) : Bool :=
  match data.dropWhile (fun c => c != 64) with
  | [] => false
  | _ :: domain =>
    let loc := data.takeWhile (fun c => c != 64)
    !loc.isEmpty && loc.all emailLocalClass && (domain.splitOn 46).all emailLabelMatch

/-- The constant `minPhoneNumberLength`. -/
def minPhoneNumberLength : Nat := 10

/-- Go `isBlank`. -/
def isBlank (data : Bytes) : Bool :=
  if data.length = 0 then true
  else strings.Count data == data.length

/-- Go `isNumeric`. -/
def isNumeric (data : Bytes) : Option Err :=
  let data := strings.TrimRight data
  if !numericRegexMatch data then some Err.ErrNumeric else none

/-- Go `isAlphanumeric`. -/
def isAlphanumeric (data : Bytes) : Option Err :=
  if upperAlphanumericRegexMatch data then some Err.ErrNonAlphanumeric else none

/-- Go `isDateYear`. -/
def isDateYear (data : Bytes) : Option Err :=
  if !yearRegexMatch data then some Err.ErrValidDate else none

/-- Go `isEmail`. -/
def isEmail (data : Bytes) : Option Err :=
  let data := strings.TrimRight data
  if !emailRegexMatch data then some Err.ErrEmail else none

/-- Go `isValidType`. A short telephone field leaves the switch by `break` and reaches
the final return. -/
def isValidType (fieldName : String) (elm : SpecField) (data : Bytes) : Option Err :=
  if elm.Required = Requirement.Required ∧ isBlank data then
    some (Err.FieldRequired fieldName)
  else if isBlank data then none
  else
    match elm.Typ with
    | .Alphanumeric | .AlphanumericRightAlign => isAlphanumeric data
    | .Numeric | .ZeroNumeric => isNumeric data
    | .TelephoneNumber =>
      if data.length < minPhoneNumberLength then some (Err.ValidValue fieldName)
      else isNumeric data
    | .Email => isEmail data
    | .DateYear => isDateYear data
    | .other _ => some (Err.ValidValue fieldName)

/-- Go `fillString`. -/
def fillString (elm : SpecField) : Bytes :=
  if elm.Typ = FieldType.ZeroNumeric then strings.Repeat config.ZeroString elm.Length
  else strings.Repeat config.BlankString elm.Length

/-- Outcome of a call that may panic. -/
inductive Outcome (α : Type) where
  | done (a : α)
  | panic
  deriving DecidableEq, Repr

/-- Go `parseValue`: the new value of the field and the error. `SetString` on an int
field and `SetInt` on a string field panic. -/
def parseValue (elm : SpecField) (field : Value) (data : Bytes) :
    Outcome (Value × Option Err) :=
  match elm.Typ with
  | .Alphanumeric | .AlphanumericRightAlign | .Email | .Numeric | .TelephoneNumber =>
    let data := strings.TrimRight data
    match field with
    | .str _ => .done (.str data, none)
    | .int _ => .panic
  | .ZeroNumeric | .DateYear =>
    match strconv.ParseInt data with
    | .error e => .done (field, some e)
    | .ok value =>
      match field with
      | .int _ => .done (.int value, none)
      | .str _ => .panic
  | .other _ => .done (field, some Err.ErrValidField)

/-- The fields of a struct in declaration order (`reflect.Value` of the struct). -/
abbrev Fields := List (String × Value)

/-- The test `unicode.IsUpper([]rune(fieldName)[0])` of `ParseValue`: whether the first
letter of a field name is upper case. A struct field has a non-empty name. -/
def isExported (upper : Nat → Bool) (fieldName : String) : Bool :=
  match fieldName.data with
  | [] => false
  | c :: _ => unicode.IsUpper upper c

/-- Go `ParseValue`: walks the struct fields in declaration order and returns the
struct as it stands when the walk ends, with the error. -/
def ParseValue (upper : Nat → Bool) (fields : Fields) (spec : Layout) (record : Bytes) :
    Outcome (Fields × Option Err) :=
  match fields with
  | [] => .done ([], none)
  | (fieldName, field) :: rest =>
    if !isExported upper fieldName then
      match ParseValue upper rest spec record with
      | .done (rest1, err) => .done ((fieldName, field) :: rest1, err)
      | .panic => .panic
    else
      match spec.lookup fieldName with
      | none => .done ((fieldName, field) :: rest, some Err.ErrValidField)
      | some elm =>
        if record.length < elm.Start + elm.Length then
          .done ((fieldName, field) :: rest, some Err.ErrShortRecord)
        else
          let data := (record.drop elm.Start).take elm.Length
          match isValidType fieldName elm data with
          | some err => .done ((fieldName, field) :: rest, some err)
          | none =>
            match parseValue elm field data with
            | .panic => .panic
            | .done (field1, some err) => .done ((fieldName, field1) :: rest, some err)
            | .done (field1, none) =>
              match ParseValue upper rest spec record with
              | .done (rest1, err) => .done ((fieldName, field1) :: rest1, err)
              | .panic => .panic

/-- Go `ToString`; `data` is `none` when the struct has no field of the entry's name. -/
def ToString (elm : SpecField) (data : Option Value) : Bytes :=
  if elm.Required = Requirement.Expandable then []
  else
    match data with
    | none => fillString elm
    | some v =>
      match elm.Typ with
      | .Alphanumeric | .Email | .Numeric | .TelephoneNumber => fmt.sprintfS elm.Length true v
      | .AlphanumericRightAlign => fmt.sprintfS elm.Length false v
      | .ZeroNumeric => fmt.sprintfD elm.Length true false v
      | .DateYear => fmt.sprintfD elm.Length false true v
      | .other _ => fillString elm

/-- Go `validateFuncName`. -/
def validateFuncName (name : String) : String := "Validate" ++ name

/-- The methods of a record value by name (`reflect.Value.MethodByName`): for a method
that exists, the values a call returns. -/
abbrev Methods := String → Option (List (Option Err))

/-- Go `Validate`, on the fields still to visit. Field names of a struct are distinct,
so `FieldByName` of the name of the field visited is that field. -/
def validateFrom (methods : Methods) (spec : Layout) : Fields → Option Err
  | [] => none
  | (fieldName, fieldValue) :: rest =>
    let requiredErr : Option Err :=
      match spec.lookup fieldName with
      | some elm =>
        if elm.Required = Requirement.Required ∧ fieldValue.IsZero then
          some (Err.FieldRequired fieldName)
        else none
      | none => none
    match requiredErr with
    | some err => some err
    | none =>
      match methods (validateFuncName fieldName) with
      | some (some err :: _) => some err
      | _ => validateFrom methods spec rest

/-- Go `Validate`. -/
def Validate (fields : Fields) (methods : Methods) (spec : Layout) : Option Err :=
  validateFrom methods spec fields

/-- A record whose `Parse` checks the length in runes and then calls `ParseValue` over
its layout, as `Sub1099OID.Parse` does. -/
def recordParse (upper : Nat → Bool) (recordLength : Nat) (layout : Layout) (fields : Fields)
    (buf : Bytes) : Outcome (Fields × Option Err) :=
  if utf8.RuneCountInString buf ≠ recordLength then .done (fields, some Err.ErrRecordLength)
  else ParseValue upper fields layout buf

/-- A record whose `Ascii` writes `ToString` of every layout entry in turn, as
`Sub1099OID.Ascii` does. -/
def recordAscii (layout : Layout) (fields : Fields) : Bytes :=
  (ToSpecifications layout).foldl
    (fun buf spec => buf ++ ToString spec.Field (fields.lookup spec.Name)) []

end utils

/-! ## Package `subrecords` (src/pkg/subrecords/1099_oid.go) -/

namespace subrecords

/-- The constants of package `config` that the 1099-OID record reads. -/
structure Config where
  SubRecordLength : Nat
  Sub1099OIDLayout : Layout
  FatcaFilingRequirementIndicator : Bytes
  ParticipateStateCodes : List Int

/-- Go struct `Sub1099OID`. -/
structure Sub1099OID where
  SecondTinNotice : Bytes
  Description : Bytes
  FATCA : Bytes
  SpecialDataEntries : Bytes
  StateIncomeTaxWithheld : Int
  LocalIncomeTaxWithheld : Int
  CombinedFSCode : Int
  deriving DecidableEq, Repr

namespace Sub1099OID

/-- The struct as reflection sees it: its fields in declaration order. -/
def fields (r : Sub1099OID) : utils.Fields :=
  [("SecondTinNotice", .str r.SecondTinNotice),
   ("Description", .str r.Description),
   ("FATCA", .str r.FATCA),
   ("SpecialDataEntries", .str r.SpecialDataEntries),
   ("StateIncomeTaxWithheld", .int r.StateIncomeTaxWithheld),
   ("LocalIncomeTaxWithheld", .int r.LocalIncomeTaxWithheld),
   ("CombinedFSCode", .int r.CombinedFSCode)]

/-- The struct after reflection has set its fields. -/
def ofFields (r : Sub1099OID) (fs : utils.Fields) : Sub1099OID :=
  match fs with
  | [(_, .str a), (_, .str b), (_, .str c), (_, .str d), (_, .int e), (_, .int f),
      (_, .int g)] =>
    { SecondTinNotice := a, Description := b, FATCA := c, SpecialDataEntries := d,
      StateIncomeTaxWithheld := e, LocalIncomeTaxWithheld := f, CombinedFSCode := g }
  | _ => r

/-- Go `Sub1099OID.Parse`. -/
def Parse (upper : Nat → Bool) (cfg : Config) (r : Sub1099OID) (buf : Bytes) :
    utils.Outcome (Sub1099OID × Option Err) :=
  let record := buf
  if utf8.RuneCountInString record ≠ cfg.SubRecordLength then
    .done (r, some Err.ErrRecordLength)
  else
    match utils.ParseValue upper r.fields cfg.Sub1099OIDLayout record with
    | .panic => .panic
    | .done (fs, err) => .done (r.ofFields fs, err)

/-- Go `Sub1099OID.Ascii`. -/
def Ascii (cfg : Config) (r : Sub1099OID) : Bytes :=
  (ToSpecifications cfg.Sub1099OIDLayout).foldl
    (fun buf spec => buf ++ utils.ToString spec.Field (r.fields.lookup spec.Name)) []

/-- Go `ValidateFATCA`. -/
def ValidateFATCA (cfg : Config) (r : Sub1099OID) : Option Err :=
  if r.FATCA = cfg.FatcaFilingRequirementIndicator ∨ r.FATCA.length = 0 then none
  else some (Err.ValidValue "fatca filing requirement indicator")

/-- Go `ValidateCombinedFSCode`. -/
def ValidateCombinedFSCode (cfg : Config) (r : Sub1099OID) : Option Err :=
  if r.CombinedFSCode ∈ cfg.ParticipateStateCodes then none
  else some (Err.ValidValue "combined federal state code")

/-- The methods of `*Sub1099OID` that `Validate` can find by the name
`Validate` followed by a field name. -/
def methods (cfg : Config) (r : Sub1099OID) : utils.Methods := fun name =>
  if name = "ValidateFATCA" then some [ValidateFATCA cfg r]
  else if name = "ValidateCombinedFSCode" then some [ValidateCombinedFSCode cfg r]
  else none

/-- Go `Sub1099OID.Validate`. -/
def Validate (cfg : Config) (r : Sub1099OID) : Option Err :=
  utils.Validate r.fields (methods cfg r) cfg.Sub1099OIDLayout

end Sub1099OID

end subrecords

/-! ## Package `file` (src/pkg/file/person.go) -/

namespace file

/-- A decoded JSON value (`interface{}` as `encoding/json` fills it). -/
inductive Json where
  | null
  | bool (b : Bool)
  | num (text : Bytes)
  | str (s : Bytes)
  | arr (items : List Json)
  | obj (entries : List (String × Json))

/-- The parts of packages `records` and `config` that `paymentPerson` calls; they are
not in the sources read here. `Rec` is a value of the interface `records.Record`. -/
structure Records (Rec : Type) where
  RecordLength : Nat
  NewARecord : Rec
  NewBRecord : Bytes → Rec
  NewCRecord : Rec
  NewKRecord : Rec
  /-- Method `Parse`: the record after the call and the error. -/
  Parse : Rec → Bytes → Rec × Option Err
  /-- Method `Ascii`. -/
  Ascii : Rec → Bytes
  /-- Method `Validate`. -/
  Validate : Rec → Option Err
  /-- The type assertion to `*records.ARecord`, giving the field `TypeOfReturn`. -/
  asARecord : Rec → Option Bytes
  /-- The table `config.TypeOfReturns`; a missing key gives the empty string. -/
  TypeOfReturns : Bytes → Bytes
  /-- The helper `readJsonWithRecord`: the record after the call and the error. -/
  readJsonWithRecord : Rec → Json → Rec × Option Err

/-- Go struct `paymentPerson`; a nil interface is `none`, a nil slice is `[]`. -/
structure paymentPerson (Rec : Type) where
  Payer : Option Rec
  Payees : List Rec
  EndPayer : Option Rec
  States : List Rec

/-- The record an interface field holds after `if field == nil { field = new }`. -/
def orNew {Rec : Type} (field : Option Rec) (new : Rec) : Rec :=
  match field with
  | none => new
  | some r => r

/-- The bytes of the slice expression `buf[lo:hi]`, read from the array under `buf`:
the elements `lo` to `hi` of `array`. The expression panics only when `hi` is past the
capacity, which the caller decides before the bytes are read. -/
def slice (array : Bytes) (lo hi : Nat) : Bytes := (array.drop lo).take (hi - lo)

/-- What a loop of `Parse` hands on: it falls through with a cursor and the records
read, returns from `Parse`, or panics on an index out of range. -/
inductive Loop (Rec : Type) where
  | next (readPtr : Nat) (records : List Rec)
  | ret (readPtr : Nat) (records : List Rec) (err : Err)
  | panic (records : List Rec)

/-- The two record loops of `Parse` (over `B` records and over `K` records): `tag` is
the record type looked for and `new` the constructor of a fresh record. The slice
expression comes after the check against the length, so its bytes lie in `buf`. The loop
runs at most once per byte of the buffer, so `fuel` above the buffer length never runs
out. -/
def parseLoop {Rec : Type} (env : Records Rec) (buf : Bytes) (tag : Nat) (new : Rec) :
    Nat → Nat → List Rec → Loop Rec
  | 0, _, records => .panic records
  | fuel + 1, readPtr, records =>
    match buf.get? readPtr with
    | none => .panic records
    | some c =>
      if c ≠ tag then .next readPtr records
      else if buf.length < readPtr + env.RecordLength then
        .ret readPtr records Err.ErrInvalidAscii
      else
        match env.Parse new (slice buf readPtr (readPtr + env.RecordLength)) with
        | (_, some err) => .ret readPtr records err
        | (rec, none) =>
          parseLoop env buf tag new fuel (readPtr + env.RecordLength) (records ++ [rec])

/-- The end of Go `paymentPerson.Parse`, from `p.States = []records.Record{}` on. -/
def paymentPerson.parseStates {Rec : Type} (env : Records Rec) (p : paymentPerson Rec)
    (buf : Bytes) (readPtr : Nat) : paymentPerson Rec × utils.Outcome (Int × Option Err) :=
  match parseLoop env buf 75 env.NewKRecord (buf.length + 1) readPtr [] with
  | .panic states => ({ p with States := states }, .panic)
  | .ret readPtr states err => ({ p with States := states }, .done (readPtr, some err))
  | .next readPtr states => ({ p with States := states }, .done (readPtr, none))

/-- Go `paymentPerson.Parse`: the receiver after the call, and the returned cursor and
error unless the call panics. `buf` holds the `len(buf)` bytes of the argument and `spare`
the bytes of its array from the length up to the capacity. An index expression
`buf[readPtr]` panics from the length on. The slice expressions of the payer and of the
two loops come after a check against the length, so their bytes lie in `buf`; the slice
expression of the end payer has no such check: it reads on into `spare` and panics only
past the capacity. -/
def paymentPerson.Parse {Rec : Type} (env : Records Rec) (p : paymentPerson Rec)
    (buf spare : Bytes) : paymentPerson Rec × utils.Outcome (Int × Option Err) :=
  let bufSize := buf.length
  match buf.get? 0 with
  | none => (p, .panic)
  | some c0 =>
    if c0 ≠ 65 ∨ bufSize < env.RecordLength then (p, .done (0, some Err.ErrInvalidAscii))
    else
      let payer0 := orNew p.Payer env.NewARecord
      match env.Parse payer0 (slice buf 0 env.RecordLength) with
      | (payer, some err) => ({ p with Payer := some payer }, .done (0, some err))
      | (payer, none) =>
        let p := { p with Payer := some payer }
        let readPtr := env.RecordLength
        match env.asARecord payer with
        | none => (p, .done (-1, some Err.unexpectedPayer))
        | some code =>
          let typeOfReturn := env.TypeOfReturns code
          match parseLoop env buf 66 (env.NewBRecord typeOfReturn) (bufSize + 1) readPtr [] with
          | .panic payees => ({ p with Payees := payees }, .panic)
          | .ret readPtr payees err =>
            ({ p with Payees := payees }, .done (readPtr, some err))
          | .next readPtr payees =>
            let p := { p with Payees := payees }
            match buf.get? readPtr with
            | none => (p, .panic)
            | some c =>
              if c = 67 ∨ bufSize < readPtr + env.RecordLength then
                let endPayer0 := orNew p.EndPayer env.NewCRecord
                if bufSize + spare.length < readPtr + env.RecordLength then
                  ({ p with EndPayer := some endPayer0 }, .panic)
                else
                  match env.Parse endPayer0
                      (slice (buf ++ spare) readPtr (readPtr + env.RecordLength)) with
                  | (r, some err) =>
                    ({ p with EndPayer := some r }, .done (readPtr, some err))
                  | (r, none) =>
                    paymentPerson.parseStates env { p with EndPayer := some r } buf
                      (readPtr + env.RecordLength)
              else paymentPerson.parseStates env p buf readPtr

/-- The number of `K` records the last loop of `paymentPerson.Parse` decodes from
`readPtr` on. -/
def statesDecoded {Rec : Type} (env : Records Rec) (buf : Bytes) (readPtr : Nat) : Nat :=
  match parseLoop env buf 75 env.NewKRecord (buf.length + 1) readPtr [] with
  | .panic states => states.length
  | .ret _ states _ => states.length
  | .next _ states => states.length

/-- The number of records `paymentPerson.Parse` has decoded without error when it ends: a
counter that follows the steps of `Parse` and goes up by one after each call of a
record's `Parse` that returns nil. -/
def paymentPerson.decoded {Rec : Type} (env : Records Rec) (p : paymentPerson Rec)
    (buf spare : Bytes) : Nat :=
  match buf.get? 0 with
  | none => 0
  | some c0 =>
    if c0 ≠ 65 ∨ buf.length < env.RecordLength then 0
    else
      match env.Parse (orNew p.Payer env.NewARecord) (slice buf 0 env.RecordLength) with
      | (_, some _) => 0
      | (payer, none) =>
        match env.asARecord payer with
        | none => 1
        | some code =>
          match parseLoop env buf 66 (env.NewBRecord (env.TypeOfReturns code))
              (buf.length + 1) env.RecordLength [] with
          | .panic payees => 1 + payees.length
          | .ret _ payees _ => 1 + payees.length
          | .next readPtr payees =>
            match buf.get? readPtr with
            | none => 1 + payees.length
            | some c =>
              if c = 67 ∨ buf.length < readPtr + env.RecordLength then
                if buf.length + spare.length < readPtr + env.RecordLength then
                  1 + payees.length
                else
                  match env.Parse (orNew p.EndPayer env.NewCRecord)
                      (slice (buf ++ spare) readPtr (readPtr + env.RecordLength)) with
                  | (_, some _) => 1 + payees.length
                  | (_, none) =>
                    1 + payees.length + 1
                      + statesDecoded env buf (readPtr + env.RecordLength)
              else 1 + payees.length + statesDecoded env buf readPtr

/-- Go `paymentPerson.Ascii`: the records' bytes written one after the other. A nil payer
or end payer makes the call of its `Ascii` method panic. -/
def paymentPerson.Ascii {Rec : Type} (env : Records Rec) (p : paymentPerson Rec) :
    utils.Outcome Bytes :=
  match p.Payer with
  | none => .panic
  | some payer =>
    let buf := env.Ascii payer
    let buf := p.Payees.foldl (fun buf payee => buf ++ env.Ascii payee) buf
    match p.EndPayer with
    | none => .panic
    | some endPayer =>
      let buf := buf ++ env.Ascii endPayer
      .done (p.States.foldl (fun buf state => buf ++ env.Ascii state) buf)

/-- The loops of Go `paymentPerson.Validate` over the payees and over the states: the
first error met. -/
def validateEach {Rec : Type} (env : Records Rec) : List Rec → Option Err
  | [] => none
  | r :: rest =>
    match env.Validate r with
    | some err => some err
    | none => validateEach env rest

/-- Go `paymentPerson.Validate`. -/
def paymentPerson.Validate {Rec : Type} (env : Records Rec) (p : paymentPerson Rec) :
    Option Err :=
  match p.Payer, p.EndPayer with
  | some payer, some endPayer =>
    match env.Validate payer with
    | some err => some err
    | none =>
      match validateEach env p.Payees with
      | some err => some err
      | none =>
        match env.Validate endPayer with
        | some err => some err
        | none => validateEach env p.States
  | _, _ => some Err.ErrInvalidFile

/-- The map `encoding/json` builds from an object: of two entries with one key the
later one stays. -/
def lastWins : List (String × Json) → List (String × Json)
  | [] => []
  | (k, v) :: rest =>
    if (rest.lookup k).isSome then lastWins rest else (k, v) :: lastWins rest

/-- Model of `json.Unmarshal(data, &dummy)` into a `map[string]interface{}`, on a
document already read as a JSON value: an object fills the map, `null` leaves it
empty, any other value is an error. -/
def unmarshalMap : Json → Except Err (List (String × Json))
  | .obj entries => .ok (lastWins entries)
  | .null => .ok []
  | _ => .error Err.jsonUnmarshal

/-- Model of `json.Marshal(record)` followed by `json.Unmarshal(buf, &list)` into a
`[]interface{}`: an array gives its items, `null` gives a nil list, any other value is
an error. -/
def unmarshalList : Json → Except Err (List Json)
  | .arr items => .ok items
  | .null => .ok []
  | _ => .error Err.jsonUnmarshal

/-- The loop `for _, data := range list` of `UnmarshalJSON`: the records appended so
far and the error that ends the loop. -/
def readList {Rec : Type} (env : Records Rec) (new : Rec) :
    List Json → List Rec → List Rec × Option Err
  | [], records => (records, none)
  | data :: rest, records =>
    match env.readJsonWithRecord new data with
    | (_, some err) => (records, some err)
    | (rec, none) => readList env new rest (records ++ [rec])

/-- The first loop of `UnmarshalJSON`, over the entries of the map in the order the
`range` visits them: every entry other than `payer` is skipped. -/
def readPayer {Rec : Type} (env : Records Rec) (p : paymentPerson Rec) :
    List (String × Json) → paymentPerson Rec × Option Err
  | [] => (p, none)
  | (name, record) :: rest =>
    if name ≠ "payer" then readPayer env p rest
    else
      match env.readJsonWithRecord env.NewARecord record with
      | (payer, some err) => ({ p with Payer := some payer }, some err)
      | (payer, none) => readPayer env { p with Payer := some payer } rest

/-- The second loop of `UnmarshalJSON`, over the entries of the map in the order the
`range` visits them. `some err` is a return from `UnmarshalJSON` with that result
(`some none` is `return nil`), `none` is the end of the loop. -/
def readRest {Rec : Type} (env : Records Rec) (typeOfReturn : Bytes)
    (p : paymentPerson Rec) :
    List (String × Json) → paymentPerson Rec × Option (Option Err)
  | [] => (p, none)
  | (name, record) :: rest =>
    if name = "payees" then
      match unmarshalList record with
      | .error _ => (p, some none)
      | .ok list =>
        match readList env (env.NewBRecord typeOfReturn) list [] with
        | (payees, some err) => ({ p with Payees := payees }, some (some err))
        | (payees, none) => readRest env typeOfReturn { p with Payees := payees } rest
    else if name = "states" then
      match unmarshalList record with
      | .error _ => (p, some none)
      | .ok list =>
        match readList env env.NewKRecord list [] with
        | (states, some err) => ({ p with States := states }, some (some err))
        | (states, none) => readRest env typeOfReturn { p with States := states } rest
    else if name = "end_payer" then
      match env.readJsonWithRecord env.NewCRecord record with
      | (r, some err) => ({ p with EndPayer := some r }, some (some err))
      | (r, none) => readRest env typeOfReturn { p with EndPayer := some r } rest
    else readRest env typeOfReturn p rest

/-- Go `paymentPerson.UnmarshalJSON` on a document read as the JSON value `data`.
`visit1` and `visit2` give the order in which the first and the second `range` over
the map visit its entries. -/
def paymentPerson.UnmarshalJSON {Rec : Type} (env : Records Rec) (p : paymentPerson Rec)
    (data : Json) (visit1 visit2 : List (String × Json) → List (String × Json)) :
    paymentPerson Rec × Option Err :=
  match unmarshalMap data with
  | .error err => (p, some err)
  | .ok dummy =>
    match readPayer env p (visit1 dummy) with
    | (p, some err) => (p, some err)
    | (p, none) =>
      let typeOfReturn : Except Err Bytes :=
        match p.Payer with
        | none => .ok []
        | some payer =>
          match env.asARecord payer with
          | none => .error Err.unexpectedPayer
          | some code => .ok (env.TypeOfReturns code)
      match typeOfReturn with
      | .error err => (p, some err)
      | .ok typeOfReturn =>
        match readRest env typeOfReturn p (visit2 dummy) with
        | (p, some result) => (p, result)
        | (p, none) => (p, none)

end file

/-! ## Sample configuration and records -/

namespace sample

open subrecords

/-- A layout of the 1099-OID payee positions 544-750 of a `B` record, as offsets into
the 207-byte sub-record; the `Blank` entries have no struct field. -/
def oidLayout : Layout :=
  [("SecondTinNotice", ⟨0, 1, .Alphanumeric, .other 0⟩),
   ("Blank1", ⟨1, 2, .Alphanumeric, .other 1⟩),
   ("Description", ⟨3, 39, .Alphanumeric, .Required⟩),
   ("FATCA", ⟨42, 1, .Alphanumeric, .other 0⟩),
   ("Blank2", ⟨43, 76, .Alphanumeric, .other 1⟩),
   ("SpecialDataEntries", ⟨119, 60, .Alphanumeric, .other 0⟩),
   ("StateIncomeTaxWithheld", ⟨179, 12, .ZeroNumeric, .other 0⟩),
   ("LocalIncomeTaxWithheld", ⟨191, 12, .ZeroNumeric, .other 0⟩),
   ("CombinedFSCode", ⟨203, 2, .ZeroNumeric, .other 0⟩),
   ("Blank3", ⟨205, 2, .Alphanumeric, .other 1⟩)]

/-- A configuration of the 1099-OID record. -/
def oidConfig : Config :=
  { SubRecordLength := 207
    Sub1099OIDLayout := oidLayout
    FatcaFilingRequirementIndicator := lit "1"
    ParticipateStateCodes := [1, 4, 5, 6, 7, 8, 10, 13, 15, 16, 18, 20, 22, 23, 24, 25, 26,
      27, 28, 29, 30, 31, 34, 35, 37, 38, 39, 40, 45, 55] }

/-- A freshly constructed `Sub1099OID`. -/
def oidEmpty : Sub1099OID :=
  { SecondTinNotice := [], Description := [], FATCA := [], SpecialDataEntries := [],
    StateIncomeTaxWithheld := 0, LocalIncomeTaxWithheld := 0, CombinedFSCode := 0 }

/-- A 1099-OID record with a CUSIP description, state tax withheld and a state code. -/
def oidGood : Sub1099OID :=
  { oidEmpty with
    Description := lit "NYSE XYZ 12/2019", FATCA := lit "1",
    StateIncomeTaxWithheld := 12345, CombinedFSCode := 6 }

/-- The record `oidGood` with its description in lower case. -/
def oidLower : Sub1099OID := { oidGood with Description := lit "nyse xyz" }

/-- A stand-in for the range table `unicode.Upper` above Latin-1, with the Greek capitals
`Α-Ρ`, `Σ-Ω` and the Cyrillic capitals `А-Я` only. The field names of the samples are
ASCII, for which the table is not consulted. -/
def upper : Nat → Bool := fun n =>
  (decide (913 ≤ n) && decide (n ≤ 929)) || (decide (931 ≤ n) && decide (n ≤ 937))
    || (decide (1040 ≤ n) && decide (n ≤ 1071))

end sample

/-! ## Vocabulary of the claims -/

namespace utils

/-- Whether a stored value has the kind that `ToString` formats under the field type:
a string under the text types, an int under `ZeroNumeric` and `DateYear`. A field type
outside the switch of `ToString` prints no value. -/
def kindMatches (t : FieldType) (v : Value) : Bool :=
  match t, v with
  | .Alphanumeric, .str _ | .AlphanumericRightAlign, .str _ | .Numeric, .str _
  | .TelephoneNumber, .str _ | .Email, .str _ => true
  | .ZeroNumeric, .int _ | .DateYear, .int _ => true
  | _, _ => false

/-- A field is required and zero or empty: the first check of `Validate` on it. -/
def requiredAndZero (spec : Layout) (f : String × Value) : Bool :=
  match spec.lookup f.1 with
  | some elm => decide (elm.Required = Requirement.Required) && f.2.IsZero
  | none => false

/-- The error returned by the custom method `Validate<FieldName>` of a field, if the
record has that method and it returns an error. -/
def customFailure (methods : Methods) (f : String × Value) : Option Err :=
  match methods (validateFuncName f.1) with
  | some (some err :: _) => some err
  | _ => none

/-- The error with which a field fails validation, as the specification words it:
`FieldRequired(name)` if it is required and zero or empty, checked first, and otherwise
the error of its custom validator; `none` if the field does not fail. -/
def fieldFailure (methods : Methods) (spec : Layout) (f : String × Value) : Option Err :=
  if requiredAndZero spec f then some (Err.FieldRequired f.1)
  else customFailure methods f

end utils

namespace sample

/-- A stand-in for package `records`: a record keeps the 750-byte image last parsed
into it, an `A` record holds its type of return in positions 26-27, and a record reads
any JSON object. -/
def records : file.Records Bytes :=
  { RecordLength := 750
    NewARecord := []
    NewBRecord := fun _ => []
    NewCRecord := []
    NewKRecord := []
    Parse := fun r buf =>
      if buf.length ≠ 750 then (r, some Err.ErrRecordLength) else (buf, none)
    Ascii := fun r => r
    Validate := fun r => if r.isEmpty then some (Err.FieldRequired "RecordType") else none
    asARecord := fun r => some ((r.drop 25).take 2)
    TypeOfReturns := fun code => code
    readJsonWithRecord := fun r data =>
      match data with
      | .obj _ => (r, none)
      | _ => (r, some Err.jsonUnmarshal) }

/-- A 750-byte record image that starts with the given type tag. -/
def image (tag : Nat) : Bytes := tag :: List.replicate 749 32

/-- A `paymentPerson` as the zero value of the struct. -/
def person : file.paymentPerson Bytes :=
  { Payer := none, Payees := [], EndPayer := none, States := [] }

end sample

namespace utils

/-- The number of bytes `ToString` writes for a stored value of the matching kind: the
value's text in full and the padding up to `Length` characters; an entry without a
stored field is filled to `Length` bytes. -/
def encodedLength (elm : SpecField) (data : Option Value) : Nat :=
  match data with
  | none => elm.Length
  | some v => (fmt.plain v).length + (elm.Length - utf8.RuneCountInString (fmt.plain v))

/-- The entries of a layout are not `Expandable`, their lengths are widths `fmt` reads,
and the stored values have the kinds their field types format. -/
def encodes (layout : Layout) (fields : Fields) : Bool :=
  layout.all (fun e =>
    decide (e.2.Required ≠ Requirement.Expandable) && fmt.widthParses e.2.Length
      && (match fields.lookup e.1 with
          | none => true
          | some v => kindMatches e.2.Typ v))

end utils

namespace strconv

/-- The number a string of decimal digits denotes, read on from `acc`. -/
def decVal (acc : Nat) (ds : Bytes) : Nat := ds.foldl (fun a c => a * 10 + (c - 48)) acc

end strconv

namespace utils

/-- The bytes of a record at the positions of a layout entry,
`record[spec.Start : spec.Start+spec.Length]`. -/
def span (record : Bytes) (elm : SpecField) : Bytes :=
  (record.drop elm.Start).take elm.Length

/-- The entries of a layout, in the order of the table, cover the positions from
`start` to `stop` one after the other, without gap or overlap. -/
def tiles : Nat → Layout → Nat → Bool
  | start, [], stop => start == stop
  | start, (_, elm) :: rest, stop =>
    elm.Start == start && tiles (start + elm.Length) rest stop

/-- A layout covers a record of `recordLength` bytes: its entries tile the record, its
keys are distinct, no entry is `Expandable` and every length is a width `fmt` reads. -/
def covers (layout : Layout) (recordLength : Nat) : Bool :=
  tiles 0 layout recordLength && decide (layout.map Prod.fst).Nodup
    && layout.all (fun e =>
        decide (e.2.Required ≠ Requirement.Expandable) && fmt.widthParses e.2.Length)

/-- A stored value fits its field and is written in the field's own form: a string in
a left-justified `Alphanumeric` field has at most `Length` characters, all of the
upper-case alphanumeric class, and does not end in a blank; an int in a `ZeroNumeric`
field is not negative, has at most `Length` digits and lies within `int64`. -/
def fitsField (elm : SpecField) (v : Value) : Bool :=
  match elm.Typ, v with
  | .Alphanumeric, .str s =>
    decide (s.length ≤ elm.Length) && s.all upperAlphanumericClass
      && decide (s.getLast? ≠ some 32)
  | .ZeroNumeric, .int n =>
    decide (0 ≤ n) && decide ((strconv.itoa n.natAbs).length ≤ elm.Length)
      && decide (n < 2 ^ 63)
  | _, _ => false

/-- Every field of the struct is exported, has a layout entry and fits it. -/
def fits (upper : Nat → Bool) (layout : Layout) (fields : Fields) : Bool :=
  fields.all (fun f =>
    isExported upper f.1 && (match layout.lookup f.1 with
      | none => false
      | some elm => fitsField elm f.2))

/-- Two values of one kind. -/
def sameKind : Value → Value → Bool
  | .str _, .str _ => true
  | .int _, .int _ => true
  | _, _ => false

/-- Two values of one struct type: the same field names with values of the same kinds. -/
def sameShape : Fields → Fields → Bool
  | [], [] => true
  | (n0, v0) :: rest0, (n1, v1) :: rest1 =>
    decide (n0 = n1) && sameKind v0 v1 && sameShape rest0 rest1
  | _, _ => false

/-- A layout entry whose field, once decoded, is written back in the same form: not
right-aligned text, and a year of exactly four positions. -/
def rewrites (elm : SpecField) : Bool :=
  decide (elm.Typ ≠ FieldType.AlphanumericRightAlign)
    && decide (elm.Typ = FieldType.DateYear → elm.Length = 4)

/-- The layout entries that have a struct field are written back in the same form, and
the record holds the fill bytes of `fillString` at the entries that have none. -/
def reencodes (layout : Layout) (fields : Fields) (record : Bytes) : Bool :=
  layout.all (fun e =>
    match fields.lookup e.1 with
    | some _ => rewrites e.2
    | none => decide (span record e.2 = fillString e.2))

end utils

namespace sample

/-- The 207 bytes of the record `oidGood` under `oidLayout`. -/
def oidAscii : Bytes :=
  lit "   NYSE XYZ 12/2019" ++ List.replicate 23 32 ++ lit "1" ++ List.replicate 136 32
    ++ lit "000000012345" ++ lit "000000000000" ++ lit "06" ++ lit "  "

/-- The same record with carriage return and line feed in its two closing positions,
which the format allows there. -/
def oidAsciiCrLf : Bytes := oidAscii.take 205 ++ [13, 10]

end sample

namespace sample

/-- The 207 bytes of a 1099-OID record that reports no state income tax withheld and
leaves those twelve positions blank. -/
def oidAsciiNoStateTax : Bytes :=
  lit "   NYSE XYZ 12/2019" ++ List.replicate 23 32 ++ lit "1" ++ List.replicate 136 32
    ++ List.replicate 12 32 ++ lit "000000000000" ++ lit "06" ++ lit "  "

end sample

namespace sample

/-- The 207 bytes of the sample record with the lower-case text `abc` in its special data
entries. -/
def oidAsciiLowerSpecial : Bytes :=
  lit "   NYSE XYZ 12/2019" ++ List.replicate 23 32 ++ lit "1" ++ List.replicate 76 32
    ++ lit "abc" ++ List.replicate 57 32
    ++ lit "000000012345" ++ lit "000000000000" ++ lit "06" ++ lit "  "

end sample

namespace sample

/-- A stream of one payer, one payee, one end payer and one state, followed by the `F`
record that ends the transmission. -/
def stream : Bytes :=
  image 65 ++ [image 66].flatten ++ image 67 ++ [image 75].flatten
    ++ 70 :: List.replicate 749 32

end sample

namespace sample

/-- A complete group: one payer, two payees, one end payer and one state, each the
750-byte image that starts with its own tag. -/
def group : file.paymentPerson Bytes :=
  { Payer := some (image 65), Payees := [image 66, image 66],
    EndPayer := some (image 67), States := [image 75] }

end sample

namespace sample

/-- A stand-in for the head of the layout of a `C` record: the record type, the number of
payees, six blank positions and the first control total, all but the blanks required. -/
def endPayerLayout : Layout :=
  [("RecordType", ⟨0, 1, .Alphanumeric, .Required⟩),
   ("NumberPayees", ⟨1, 8, .ZeroNumeric, .Required⟩),
   ("Blank1", ⟨9, 6, .Alphanumeric, .other 1⟩),
   ("ControlTotal1", ⟨15, 18, .ZeroNumeric, .Required⟩)]

/-- The fields of a freshly constructed record under `endPayerLayout`. -/
def endPayerFields : utils.Fields :=
  [("RecordType", .str []), ("NumberPayees", .int 0), ("ControlTotal1", .int 0)]

/-- The text of a `C` record that covers one payee and has a zero-filled first control
total. -/
def endPayerAscii : Bytes :=
  lit "C" ++ lit "00000001" ++ List.replicate 6 32 ++ List.replicate 18 48

end sample

namespace sample

/-- The stand-in `records` with a stricter `Parse`: a record also rejects an image that
holds a byte outside ASCII. -/
def strict : file.Records Bytes :=
  { records with
    Parse := fun r buf =>
      if buf.length ≠ 750 then (r, some Err.ErrRecordLength)
      else if buf.any (fun c => decide (127 < c)) then (r, some Err.ErrNonAlphanumeric)
      else (buf, none) }

end sample

/-! # Theorems -/

/-! ## Rune counting -/

theorem runeCountFrom_le (s : Bytes) : ∀ skip, utf8.runeCountFrom skip s ≤ s.length := by
  induction s with
  | nil => intro skip; simp [utf8.runeCountFrom]
  | cons c rest ih =>
    intro skip
    cases skip with
    | zero =>
      have h := ih (utf8.runeSize (c :: rest) - 1)
      simp only [utf8.runeCountFrom, List.length_cons]
      omega
    | succ k =>
      have h := ih k
      simp only [utf8.runeCountFrom, List.length_cons]
      omega

theorem runeCount_le_length (s : Bytes) : utf8.RuneCountInString s ≤ s.length :=
  runeCountFrom_le s 0

theorem runeCount_ascii (s : Bytes) (h : ∀ c ∈ s, c < 128) :
    utf8.RuneCountInString s = s.length := by
  unfold utf8.RuneCountInString
  induction s with
  | nil => simp [utf8.runeCountFrom]
  | cons c rest ih =>
    have hc : c < 128 := h c (List.mem_cons_self _ _)
    have hr : ∀ x ∈ rest, x < 128 := fun x hx => h x (List.mem_cons_of_mem _ hx)
    have hs : utf8.runeSize (c :: rest) = 1 := by
      simp only [utf8.runeSize]
      rw [if_pos (by omega)]
    simp only [utf8.runeCountFrom, hs, List.length_cons]
    rw [ih hr]
    omega

/-- C4 (as amended): `Sub1099OID.Parse` checks the length in runes. Every buffer whose
rune count differs from `SubRecordLength` gets `ErrRecordLength` with every field left
as it was; that covers every buffer shorter in bytes than `SubRecordLength` (a valid
record with one byte removed) and every ASCII buffer of another length. -/
theorem sub1099oid_parse_wrong_length (upper : Nat → Bool) (cfg : subrecords.Config) (r : subrecords.Sub1099OID)
    (buf : Bytes)
    (h : utf8.RuneCountInString buf ≠ cfg.SubRecordLength
      ∨ buf.length < cfg.SubRecordLength
      ∨ ((∀ c ∈ buf, c < 128) ∧ buf.length ≠ cfg.SubRecordLength)) :
    subrecords.Sub1099OID.Parse upper cfg r buf = .done (r, some Err.ErrRecordLength) := by
  have hne : utf8.RuneCountInString buf ≠ cfg.SubRecordLength := by
    rcases h with h | h | ⟨ha, hl⟩
    · exact h
    · have := runeCount_le_length buf
      omega
    · rw [runeCount_ascii buf ha]
      exact hl
  simp only [subrecords.Sub1099OID.Parse]
  rw [if_pos hne]

set_option maxRecDepth 100000 in
/-- C4 witness: the sample record's image with its last byte removed. -/
theorem sub1099oid_parse_wrong_length_witness :
    subrecords.Sub1099OID.Parse sample.upper sample.oidConfig sample.oidEmpty
      ((subrecords.Sub1099OID.Ascii sample.oidConfig sample.oidGood).take 206)
      = .done (sample.oidEmpty, some Err.ErrRecordLength) :=
  sub1099oid_parse_wrong_length sample.upper sample.oidConfig sample.oidEmpty _ (Or.inr (Or.inl (by decide)))

set_option maxRecDepth 100000 in
/-- C4 counterexample: a buffer of 208 bytes (one more than `SubRecordLength`) that
holds a two-byte character in the closing blank positions has 207 runes; `Parse`
returns no error and fills the record. -/
theorem sub1099oid_parse_wrong_length_counterexample :
    ¬ (∀ buf : Bytes, buf.length ≠ sample.oidConfig.SubRecordLength →
        subrecords.Sub1099OID.Parse sample.upper sample.oidConfig sample.oidEmpty buf
          = .done (sample.oidEmpty, some Err.ErrRecordLength)) := by
  intro h
  have h1 := h ((subrecords.Sub1099OID.Ascii sample.oidConfig sample.oidGood).take 205
    ++ [0xC3, 0xA9, 32]) (by decide)
  revert h1
  decide

/-! ## Validation order -/

theorem validateFrom_eq_findSome (methods : utils.Methods) (spec : Layout)
    (fields : utils.Fields) :
    utils.validateFrom methods spec fields
      = fields.findSome? (utils.fieldFailure methods spec) := by
  induction fields with
  | nil => rfl
  | cons f rest ih =>
    obtain ⟨name, value⟩ := f
    simp only [utils.validateFrom, List.findSome?, utils.fieldFailure, utils.requiredAndZero,
      utils.customFailure]
    cases hl : spec.lookup name with
    | none =>
      simp only [Bool.false_eq_true, if_false]
      cases hm : methods (utils.validateFuncName name) with
      | none => simpa using ih
      | some res =>
        cases res with
        | nil => simpa using ih
        | cons e es =>
          cases e with
          | none => simpa using ih
          | some err => rfl
    | some elm =>
      by_cases hreq : elm.Required = Requirement.Required ∧ value.IsZero = true
      · simp [hreq.1, hreq.2]
      · have hb : (decide (elm.Required = Requirement.Required) && value.IsZero) = false := by
          by_cases h1 : elm.Required = Requirement.Required
          · have h2 : value.IsZero = false := by
              cases hz : value.IsZero
              · rfl
              · exact absurd ⟨h1, hz⟩ hreq
            simp [h1, h2]
          · simp [h1]
        simp only [if_neg hreq, hb, Bool.false_eq_true, if_false]
        cases hm : methods (utils.validateFuncName name) with
        | none => simpa using ih
        | some res =>
          cases res with
          | nil => simpa using ih
          | cons e es =>
            cases e with
            | none => simpa using ih
            | some err => rfl

theorem validate_none_iff (fields : utils.Fields) (methods : utils.Methods) (spec : Layout) :
    utils.Validate fields methods spec = none
      ↔ ∀ f ∈ fields, utils.fieldFailure methods spec f = none := by
  have heq : utils.Validate fields methods spec
      = fields.findSome? (utils.fieldFailure methods spec) :=
    validateFrom_eq_findSome methods spec fields
  rw [heq]
  exact List.findSome?_eq_none_iff

/-- C10: `utils.Validate` returns the error of the earliest field in declaration order
that fails, where a field fails with `FieldRequired(name)` if it is required and zero or
empty (checked first) and otherwise with the error of its custom `Validate<FieldName>`
method; it returns nil if and only if no field fails. -/
theorem validate_first_failure (fields : utils.Fields) (methods : utils.Methods)
    (spec : Layout) :
    utils.Validate fields methods spec = fields.findSome? (utils.fieldFailure methods spec)
    ∧ (∀ (before after : utils.Fields) (f : String × Value) (err : Err),
        fields = before ++ f :: after →
        (∀ g ∈ before, utils.fieldFailure methods spec g = none) →
        utils.fieldFailure methods spec f = some err →
        utils.Validate fields methods spec = some err)
    ∧ (utils.Validate fields methods spec = none
        ↔ ∀ f ∈ fields, utils.fieldFailure methods spec f = none) := by
  have heq : utils.Validate fields methods spec
      = fields.findSome? (utils.fieldFailure methods spec) :=
    validateFrom_eq_findSome methods spec fields
  refine ⟨heq, ?_, ?_⟩
  · intro before after f err hsplit hbefore hf
    rw [heq, hsplit]
    clear hsplit heq
    induction before with
    | nil => simp [List.findSome?, hf]
    | cons g rest ih =>
      have hg : utils.fieldFailure methods spec g = none := hbefore g (List.mem_cons_self _ _)
      simp only [List.cons_append, List.findSome?, hg]
      exact ih (fun x hx => hbefore x (List.mem_cons_of_mem _ hx))
  · exact validate_none_iff fields methods spec

/-! ## The opening check of `paymentPerson.Parse` -/

/-- C7: on a non-empty buffer whose first byte is not `A` or whose length is below
`RecordLength`, `paymentPerson.Parse` returns cursor 0 with `ErrInvalidAscii` and the
payer, payees, end payer and states are as before the call. -/
theorem person_parse_rejects_opening {Rec : Type} (env : file.Records Rec)
    (p : file.paymentPerson Rec) (c : Nat) (rest spare : Bytes)
    (h : c ≠ 65 ∨ (c :: rest).length < env.RecordLength) :
    file.paymentPerson.Parse env p (c :: rest) spare
      = (p, .done (0, some Err.ErrInvalidAscii)) := by
  simp only [file.paymentPerson.Parse, List.get?_cons_zero]
  rw [if_pos h]

/-- C7 witness: a buffer that starts with a `B` record. -/
theorem person_parse_rejects_opening_witness :
    (66 ≠ 65 ∨ (66 :: List.replicate 749 32).length < sample.records.RecordLength)
    ∧ file.paymentPerson.Parse sample.records sample.person (66 :: List.replicate 749 32) []
      = (sample.person, .done (0, some Err.ErrInvalidAscii)) :=
  ⟨Or.inl (by decide),
    person_parse_rejects_opening sample.records sample.person 66 (List.replicate 749 32) []
      (Or.inl (by decide))⟩

/-! ## Lengths of encoded fields -/

theorem itoaLoop_digits (fuel : Nat) : ∀ (n : Nat) (acc : Bytes),
    (∀ c ∈ acc, 48 ≤ c ∧ c ≤ 57) → ∀ c ∈ strconv.itoaLoop fuel n acc, 48 ≤ c ∧ c ≤ 57 := by
  induction fuel with
  | zero => intro n acc hacc; simpa [strconv.itoaLoop] using hacc
  | succ k ih =>
    intro n acc hacc
    have hcons : ∀ c ∈ (n % 10 + 48) :: acc, 48 ≤ c ∧ c ≤ 57 := by
      intro c hc
      rcases List.mem_cons.mp hc with h | h
      · subst h
        have := Nat.mod_lt n (by decide : 10 > 0)
        omega
      · exact hacc c h
    simp only [strconv.itoaLoop]
    split
    · exact hcons
    · exact ih _ _ hcons

theorem itoa_digits (n : Nat) : ∀ c ∈ strconv.itoa n, 48 ≤ c ∧ c ≤ 57 :=
  itoaLoop_digits (n + 1) n [] (by simp)

theorem pad_length (width : Nat) (zero minus : Bool) (s : Bytes) :
    (fmt.pad width zero minus s).length = s.length + (width - utf8.RuneCountInString s) := by
  unfold fmt.pad
  cases minus
  · simp only [Bool.false_eq_true, if_false, List.length_append, List.length_replicate]
    omega
  · simp only [if_true, List.length_append, List.length_replicate]

theorem fmtInteger_ascii (n : Int) (width : Nat) (zero minus : Bool) :
    ∀ c ∈ fmt.fmtInteger n width zero minus, c < 128 := by
  intro c hc
  have hd := itoa_digits n.natAbs
  simp only [fmt.fmtInteger, fmt.pad] at hc
  have hbody : ∀ (k : Nat), ∀ x ∈ List.replicate k 48 ++ strconv.itoa n.natAbs, x < 128 := by
    intro k x hx
    rcases List.mem_append.mp hx with h | h
    · rw [List.eq_of_mem_replicate h]; decide
    · have := hd x h; omega
  have hsigned : ∀ (k : Nat), ∀ x ∈ (if n < 0 then
      45 :: (List.replicate k 48 ++ strconv.itoa n.natAbs)
      else List.replicate k 48 ++ strconv.itoa n.natAbs), x < 128 := by
    intro k x hx
    split at hx
    · rcases List.mem_cons.mp hx with h | h
      · rw [h]; decide
      · exact hbody k x h
    · exact hbody k x hx
  cases minus
  · simp only [Bool.false_eq_true, if_false] at hc
    rcases List.mem_append.mp hc with h | h
    · rw [List.eq_of_mem_replicate h]; decide
    · exact hsigned _ c h
  · simp only [if_true] at hc
    rcases List.mem_append.mp hc with h | h
    · exact hsigned _ c h
    · rw [List.eq_of_mem_replicate h]; decide

theorem plain_int_ascii (n : Int) : ∀ c ∈ fmt.plain (.int n), c < 128 :=
  fmtInteger_ascii n 0 false false

theorem fmtInteger_length (n : Int) (width : Nat) (zero minus : Bool) (h : zero = true → minus = false) :
    (fmt.fmtInteger n width zero minus).length
      = (fmt.plain (.int n)).length + (width - (fmt.plain (.int n)).length) := by
  have hsign : ∀ (k : Nat), utf8.RuneCountInString (if n < 0 then
      45 :: (List.replicate k 48 ++ strconv.itoa n.natAbs)
      else List.replicate k 48 ++ strconv.itoa n.natAbs)
      = (if n < 0 then 1 else 0) + k + (strconv.itoa n.natAbs).length := by
    intro k
    rw [runeCount_ascii]
    · split
      · simp; omega
      · simp
    · intro x hx
      have hd := itoa_digits n.natAbs
      split at hx
      · rcases List.mem_cons.mp hx with h | h
        · rw [h]; decide
        · rcases List.mem_append.mp h with h | h
          · rw [List.eq_of_mem_replicate h]; decide
          · have := hd x h; omega
      · rcases List.mem_append.mp hx with h | h
        · rw [List.eq_of_mem_replicate h]; decide
        · have := hd x h; omega
  have hlen : ∀ (k : Nat), (if n < 0 then
      45 :: (List.replicate k 48 ++ strconv.itoa n.natAbs)
      else List.replicate k 48 ++ strconv.itoa n.natAbs).length
      = (if n < 0 then 1 else 0) + k + (strconv.itoa n.natAbs).length := by
    intro k
    split
    · simp; omega
    · simp
  simp only [fmt.plain, fmt.fmtInteger, pad_length, Bool.false_eq_true, if_false, hsign,
    Nat.zero_sub, List.replicate_zero, List.nil_append, hlen]
  cases zero <;> by_cases hn : n < 0 <;> simp [hn] <;> omega

/-- C3 (as amended): for a layout field that is not `Expandable`, whose length is a width
`fmt` reads, `utils.ToString` writes a stored value of the kind the field type formats in
full and fills it up to the field's length: the result has the length of the value's
text plus the padding up to `Length` characters. It has exactly `Length` characters when
the value's text has at most `Length` characters and is longer otherwise. An entry with
no stored field gives exactly `Length` bytes. -/
theorem toString_length (elm : SpecField) (v : Value)
    (hexp : elm.Required ≠ Requirement.Expandable)
    (hwid : fmt.widthParses elm.Length = true)
    (hkind : utils.kindMatches elm.Typ v = true) :
    (utils.ToString elm (some v)).length
        = (fmt.plain v).length + (elm.Length - utf8.RuneCountInString (fmt.plain v))
    ∧ (utils.ToString elm none).length = elm.Length := by
  constructor
  · simp only [utils.ToString, if_neg hexp]
    cases ht : elm.Typ <;> cases v <;> simp only [ht, utils.kindMatches] at hkind <;>
      first
      | exact absurd hkind (by decide)
      | (simp only [fmt.sprintfS, fmt.sprintfD, hwid, Bool.not_true, Bool.false_eq_true,
          if_false]
         rw [fmtInteger_length _ _ _ _ (by simp), runeCount_ascii _ (plain_int_ascii _)])
      | simp only [fmt.sprintfS, fmt.sprintfD, hwid, Bool.not_true, Bool.false_eq_true,
          if_false, pad_length, fmt.plain]
  · simp only [utils.ToString, if_neg hexp, utils.fillString]
    split <;> simp [strings.Repeat]

theorem foldl_append_flatten {α : Type} (f : α → Bytes) (l : List α) : ∀ (acc : Bytes),
    l.foldl (fun buf x => buf ++ f x) acc = acc ++ (l.map f).flatten := by
  induction l with
  | nil => intro acc; simp
  | cons x rest ih =>
    intro acc
    simp only [List.foldl_cons, List.map_cons, List.flatten_cons, ih, List.append_assoc]

theorem recordAscii_eq_flatten (layout : Layout) (fields : utils.Fields) :
    utils.recordAscii layout fields
      = (layout.map (fun e => utils.ToString e.2 (fields.lookup e.1))).flatten := by
  simp only [utils.recordAscii, ToSpecifications, foldl_append_flatten, List.nil_append,
    List.map_map]
  rfl

theorem sub1099oid_ascii_eq (cfg : subrecords.Config) (r : subrecords.Sub1099OID) :
    subrecords.Sub1099OID.Ascii cfg r = utils.recordAscii cfg.Sub1099OIDLayout r.fields := rfl

/-- C3 (as amended): for a layout whose entries are not `Expandable` and whose lengths
are widths `fmt` reads, and stored values of the kinds the field types format,
`utils.ToString` writes each value's text in full and fills it up to the field's length:
it returns the text's bytes plus the padding up to `Length` characters, so it returns
exactly `Length` bytes when the text (in ASCII) has at most `Length` characters and
more otherwise; an entry with no stored field gives `Length` bytes. The length of a
record's `Ascii()` is the sum of these lengths. -/
theorem ascii_length (layout : Layout) (fields : utils.Fields)
    (h : utils.encodes layout fields = true) :
    (∀ e ∈ layout, (utils.ToString e.2 (fields.lookup e.1)).length
        = utils.encodedLength e.2 (fields.lookup e.1))
    ∧ (∀ e ∈ layout, ∀ v, fields.lookup e.1 = some v →
        utf8.RuneCountInString (fmt.plain v) = (fmt.plain v).length →
        ((utils.ToString e.2 (some v)).length = e.2.Length ↔ (fmt.plain v).length ≤ e.2.Length))
    ∧ (utils.recordAscii layout fields).length
        = (layout.map (fun e => utils.encodedLength e.2 (fields.lookup e.1))).sum := by
  have hall : ∀ e ∈ layout, e.2.Required ≠ Requirement.Expandable
      ∧ fmt.widthParses e.2.Length = true
      ∧ ∀ v, fields.lookup e.1 = some v → utils.kindMatches e.2.Typ v = true := by
    intro e he
    have := (List.all_eq_true.mp h) e he
    simp only [Bool.and_eq_true, decide_eq_true_eq] at this
    refine ⟨this.1.1, this.1.2, ?_⟩
    intro v hv
    have h3 := this.2
    rw [hv] at h3
    exact h3
  have h1 : ∀ e ∈ layout, (utils.ToString e.2 (fields.lookup e.1)).length
      = utils.encodedLength e.2 (fields.lookup e.1) := by
    intro e he
    obtain ⟨hexp, hwid, hk⟩ := hall e he
    cases hl : fields.lookup e.1 with
    | none =>
      simp only [utils.encodedLength]
      simp only [utils.ToString, if_neg hexp, utils.fillString]
      split <;> simp [strings.Repeat]
    | some v => exact (toString_length e.2 v hexp hwid (hk v hl)).1
  refine ⟨h1, ?_, ?_⟩
  · intro e he v hv hrune
    obtain ⟨hexp, hwid, hk⟩ := hall e he
    rw [(toString_length e.2 v hexp hwid (hk v hv)).1, hrune]
    omega
  · rw [recordAscii_eq_flatten, List.length_flatten, List.map_map]
    congr 1
    apply List.map_congr_left
    intro e he
    exact h1 e he

/-- C3 witness: the sample 1099-OID layout and record. -/
theorem ascii_length_witness :
    utils.encodes sample.oidLayout sample.oidGood.fields = true
    ∧ (utils.recordAscii sample.oidLayout sample.oidGood.fields).length
        = (sample.oidLayout.map
            (fun e => utils.encodedLength e.2 (sample.oidGood.fields.lookup e.1))).sum :=
  ⟨by decide, (ascii_length sample.oidLayout sample.oidGood.fields (by decide)).2.2⟩

/-- C3 counterexample: a one-character text field that stores two characters is
written with two characters. -/
theorem toString_length_counterexample :
    ¬ (∀ (elm : SpecField) (v : Value), elm.Required ≠ Requirement.Expandable →
        (utils.ToString elm (some v)).length = elm.Length) := by
  intro h
  have h1 := h ⟨0, 1, .Alphanumeric, .other 0⟩ (.str [50, 50]) (by decide)
  revert h1
  decide

/-! ## The record loops of `paymentPerson.Parse` -/

theorem get?_after (pre : Bytes) (c : Nat) (tail : Bytes) :
    (pre ++ c :: tail).get? pre.length = some c := by
  induction pre with
  | nil => rfl
  | cons x xs ih => simpa using ih

theorem get?_at_end (buf : Bytes) : buf.get? buf.length = none := by
  simp

theorem slice_after (pre mid post : Bytes) :
    file.slice (pre ++ mid ++ post) pre.length (pre.length + mid.length) = mid := by
  simp only [file.slice, List.append_assoc, List.drop_left, Nat.add_sub_cancel_left,
    List.take_left]

/-- A slice expression that ends within the length reads no byte of the spare
capacity. -/
theorem slice_append_left (buf spare : Bytes) (lo hi : Nat) (h : hi ≤ buf.length) :
    file.slice (buf ++ spare) lo hi = file.slice buf lo hi := by
  simp only [file.slice]
  by_cases hlo : lo ≤ buf.length
  · rw [List.drop_append_of_le_length hlo,
      List.take_append_of_le_length (by rw [List.length_drop]; omega)]
  · have h0 : hi - lo = 0 := by omega
    rw [h0, List.take_zero, List.take_zero]

theorem slice_from (pre rest : Bytes) (n : Nat) :
    file.slice (pre ++ rest) pre.length (pre.length + n) = rest.take n := by
  simp only [file.slice, List.drop_left, Nat.add_sub_cancel_left]

theorem flatten_length_of_chunks (chunks : List Bytes) (n : Nat)
    (h : ∀ ch ∈ chunks, ch.length = n) : chunks.flatten.length = chunks.length * n := by
  induction chunks with
  | nil => simp
  | cons ch rest ih =>
    have h1 : ch.length = n := h ch (List.mem_cons_self _ _)
    have h2 := ih (fun x hx => h x (List.mem_cons_of_mem _ hx))
    simp only [List.flatten_cons, List.length_append, List.length_cons, h1, h2]
    rw [Nat.add_mul, Nat.one_mul, Nat.add_comm]

/-- The loop reads a run of accepted records of its tag one after the other. -/
theorem parseLoop_chunks {Rec : Type} (env : file.Records Rec) (tag : Nat) (new : Rec)
    (chunks : List Bytes) :
    ∀ (pre post : Bytes) (records : List Rec) (fuel : Nat),
    (∀ ch ∈ chunks, ch.length = env.RecordLength ∧ ch.head? = some tag
      ∧ (env.Parse new ch).2 = none) →
    chunks.length ≤ fuel →
    file.parseLoop env (pre ++ chunks.flatten ++ post) tag new fuel pre.length records
      = file.parseLoop env (pre ++ chunks.flatten ++ post) tag new (fuel - chunks.length)
          (pre.length + chunks.length * env.RecordLength)
          (records ++ chunks.map (fun ch => (env.Parse new ch).1)) := by
  induction chunks with
  | nil => intro pre post records fuel _ _; simp
  | cons ch rest ih =>
    intro pre post records fuel hch hfuel
    obtain ⟨hlen, hhead, hparse⟩ := hch ch (List.mem_cons_self _ _)
    have hrest := fun x hx => hch x (List.mem_cons_of_mem _ hx)
    cases fuel with
    | zero => simp at hfuel
    | succ k =>
      have hk : rest.length ≤ k := by simpa using hfuel
      obtain ⟨c, tail, hct⟩ : ∃ c tail, ch = c :: tail := by
        cases ch with
        | nil => simp at hhead
        | cons c tail => exact ⟨c, tail, rfl⟩
      have hc : c = tag := by
        rw [hct] at hhead
        simpa using hhead
      have hbuf : pre ++ (ch :: rest).flatten ++ post = (pre ++ ch) ++ rest.flatten ++ post := by
        simp only [List.flatten_cons, List.append_assoc]
      have hget : (pre ++ (ch :: rest).flatten ++ post).get? pre.length = some tag := by
        have : pre ++ (ch :: rest).flatten ++ post = pre ++ c :: (tail ++ rest.flatten ++ post) := by
          simp only [List.flatten_cons, List.append_assoc, hct, List.cons_append]
        rw [this, get?_after, hc]
      have hslice : file.slice (pre ++ (ch :: rest).flatten ++ post) pre.length
          (pre.length + env.RecordLength) = ch := by
        have : pre ++ (ch :: rest).flatten ++ post = pre ++ ch ++ (rest.flatten ++ post) := by
          simp only [List.flatten_cons, List.append_assoc]
        rw [this, ← hlen, slice_after]
      have hsize : ¬ (pre ++ (ch :: rest).flatten ++ post).length
          < pre.length + env.RecordLength := by
        simp only [List.flatten_cons, List.length_append, hlen]
        omega
      have hp : env.Parse new ch = ((env.Parse new ch).1, none) := by
        rw [← hparse]
      rw [file.parseLoop]
      simp only [hget, ne_eq, not_true_eq_false, if_false, hsize, hslice]
      rw [hp]
      simp only
      have hstep := ih (pre ++ ch) post (records ++ [(env.Parse new ch).1]) k hrest hk
      rw [← hbuf] at hstep
      simp only [List.length_append, hlen] at hstep
      rw [hstep]
      simp only [List.length_cons, List.map_cons, List.append_assoc, List.singleton_append,
        Nat.add_sub_add_right]
      congr 1
      rw [Nat.add_mul, Nat.one_mul]
      omega

theorem parseLoop_at_end {Rec : Type} (env : file.Records Rec) (tag : Nat) (new : Rec)
    (buf : Bytes) (fuel : Nat) (records : List Rec) :
    file.parseLoop env buf tag new (fuel + 1) buf.length records = .panic records := by
  rw [file.parseLoop]
  simp

theorem parseLoop_other_tag {Rec : Type} (env : file.Records Rec) (tag : Nat) (new : Rec)
    (pre : Bytes) (c : Nat) (tail : Bytes) (fuel : Nat) (records : List Rec) (h : c ≠ tag) :
    file.parseLoop env (pre ++ c :: tail) tag new (fuel + 1) pre.length records
      = .next pre.length records := by
  rw [file.parseLoop]
  simp only [get?_after, ne_eq, h, not_false_eq_true, if_true]

/-- A run of accepted records followed by a byte that is not the loop's tag: the loop
hands on the cursor after the run and the records read. -/
theorem parseLoop_run_next {Rec : Type} (env : file.Records Rec) (tag : Nat) (new : Rec)
    (buf pre : Bytes) (chunks : List Bytes) (c : Nat) (tail : Bytes) (pos fuel : Nat)
    (records : List Rec)
    (hbuf : buf = pre ++ chunks.flatten ++ c :: tail) (hpos : pos = pre.length)
    (hc : c ≠ tag)
    (hch : ∀ ch ∈ chunks, ch.length = env.RecordLength ∧ ch.head? = some tag
      ∧ (env.Parse new ch).2 = none)
    (hfuel : chunks.length < fuel) :
    file.parseLoop env buf tag new fuel pos records
      = .next (pos + chunks.length * env.RecordLength)
          (records ++ chunks.map (fun ch => (env.Parse new ch).1)) := by
  subst hbuf hpos
  rw [parseLoop_chunks env tag new chunks pre (c :: tail) records fuel hch (Nat.le_of_lt hfuel)]
  obtain ⟨k, hk⟩ : ∃ k, fuel - chunks.length = k + 1 := ⟨fuel - chunks.length - 1, by omega⟩
  rw [hk]
  have hlen : pre.length + chunks.length * env.RecordLength = (pre ++ chunks.flatten).length := by
    rw [List.length_append, flatten_length_of_chunks chunks env.RecordLength
      (fun ch h => (hch ch h).1)]
  rw [hlen]
  exact parseLoop_other_tag env tag new (pre ++ chunks.flatten) c tail k _ hc

/-- A run of accepted records that ends the buffer: the loop reads the tag byte past the
end and panics. -/
theorem parseLoop_run_end {Rec : Type} (env : file.Records Rec) (tag : Nat) (new : Rec)
    (buf pre : Bytes) (chunks : List Bytes) (pos fuel : Nat) (records : List Rec)
    (hbuf : buf = pre ++ chunks.flatten) (hpos : pos = pre.length)
    (hch : ∀ ch ∈ chunks, ch.length = env.RecordLength ∧ ch.head? = some tag
      ∧ (env.Parse new ch).2 = none)
    (hfuel : chunks.length < fuel) :
    file.parseLoop env buf tag new fuel pos records
      = .panic (records ++ chunks.map (fun ch => (env.Parse new ch).1)) := by
  subst hpos
  have hbuf2 : buf = pre ++ chunks.flatten ++ [] := by rw [hbuf, List.append_nil]
  subst hbuf2
  rw [parseLoop_chunks env tag new chunks pre [] records fuel hch (Nat.le_of_lt hfuel)]
  obtain ⟨k, hk⟩ : ∃ k, fuel - chunks.length = k + 1 := ⟨fuel - chunks.length - 1, by omega⟩
  rw [hk]
  have hlen : pre.length + chunks.length * env.RecordLength
      = (pre ++ chunks.flatten ++ []).length := by
    rw [List.append_nil, List.length_append, flatten_length_of_chunks chunks env.RecordLength
      (fun ch h => (hch ch h).1)]
  rw [hlen]
  exact parseLoop_at_end env tag new _ k _

/-- C5 (what the code does on the claim's streams): on a stream that consists of exactly
one accepted `A` record, any number of accepted `B` records, one accepted `C` record and
any number of accepted `K` records, and then ends, `paymentPerson.Parse` decodes the
payer, the payees, the end payer and the states in stream order, and then panics: after
the last record it reads the tag byte at the end of the buffer. It does not return. -/
theorem person_parse_exhausted_stream {Rec : Type} (env : file.Records Rec)
    (p : file.paymentPerson Rec) (a c : Bytes) (bs ks : List Bytes)
    (payer endPayer : Rec) (code : Bytes) (spare : Bytes)
    (ha : a.length = env.RecordLength ∧ a.head? = some 65)
    (hpa : env.Parse (file.orNew p.Payer env.NewARecord) a = (payer, none))
    (hcode : env.asARecord payer = some code)
    (hbs : ∀ ch ∈ bs, ch.length = env.RecordLength ∧ ch.head? = some 66
      ∧ (env.Parse (env.NewBRecord (env.TypeOfReturns code)) ch).2 = none)
    (hc : c.length = env.RecordLength ∧ c.head? = some 67)
    (hpc : env.Parse (file.orNew p.EndPayer env.NewCRecord) c = (endPayer, none))
    (hks : ∀ ch ∈ ks, ch.length = env.RecordLength ∧ ch.head? = some 75
      ∧ (env.Parse env.NewKRecord ch).2 = none) :
    file.paymentPerson.Parse env p (a ++ bs.flatten ++ c ++ ks.flatten) spare
      = ({ Payer := some payer
           Payees := bs.map (fun ch => (env.Parse (env.NewBRecord (env.TypeOfReturns code)) ch).1)
           EndPayer := some endPayer
           States := ks.map (fun ch => (env.Parse env.NewKRecord ch).1) }, .panic) := by
  obtain ⟨halen, hahead⟩ := ha
  obtain ⟨hclen, hchead⟩ := hc
  obtain ⟨a0, atail, hat⟩ : ∃ a0 atail, a = a0 :: atail := by
    cases a with
    | nil => simp at hahead
    | cons x xs => exact ⟨x, xs, rfl⟩
  have ha0 : a0 = 65 := by rw [hat] at hahead; simpa using hahead
  obtain ⟨c0, ctail, hct⟩ : ∃ c0 ctail, c = c0 :: ctail := by
    cases c with
    | nil => simp at hchead
    | cons x xs => exact ⟨x, xs, rfl⟩
  have hc0 : c0 = 67 := by rw [hct] at hchead; simpa using hchead
  have hblen := flatten_length_of_chunks bs env.RecordLength (fun ch h => (hbs ch h).1)
  have hklen := flatten_length_of_chunks ks env.RecordLength (fun ch h => (hks ch h).1)
  have hrl : 0 < env.RecordLength := by rw [← halen, hat]; simp
  have hbn : bs.length ≤ bs.length * env.RecordLength := Nat.le_mul_of_pos_right _ hrl
  have hkn : ks.length ≤ ks.length * env.RecordLength := Nat.le_mul_of_pos_right _ hrl
  generalize hbuf : a ++ bs.flatten ++ c ++ ks.flatten = buf
  have hsize : buf.length = env.RecordLength + bs.length * env.RecordLength
      + env.RecordLength + ks.length * env.RecordLength := by
    rw [← hbuf]
    simp only [List.length_append, halen, hclen, hblen, hklen]
  have hget0 : buf.get? 0 = some 65 := by
    rw [← hbuf, hat, ha0]; rfl
  have hslice0 : file.slice buf 0 env.RecordLength = a := by
    have : buf = [] ++ a ++ (bs.flatten ++ c ++ ks.flatten) := by
      rw [← hbuf]; simp only [List.nil_append, List.append_assoc]
    have h2 := slice_after [] a (bs.flatten ++ c ++ ks.flatten)
    rw [← this, halen] at h2
    simpa using h2
  have hloopB := parseLoop_run_next env 66 (env.NewBRecord (env.TypeOfReturns code)) buf a bs
    c0 (ctail ++ ks.flatten) env.RecordLength (buf.length + 1) []
    (by rw [← hbuf, hct]; simp only [List.append_assoc, List.cons_append])
    halen.symm (by rw [hc0]; decide) hbs (by omega)
  have hgetC : buf.get? (env.RecordLength + bs.length * env.RecordLength) = some 67 := by
    have : buf = (a ++ bs.flatten) ++ c0 :: (ctail ++ ks.flatten) := by
      rw [← hbuf, hct]; simp only [List.append_assoc, List.cons_append]
    have h2 := get?_after (a ++ bs.flatten) c0 (ctail ++ ks.flatten)
    rw [← this, List.length_append, halen, hblen, hc0] at h2
    exact h2
  have hsliceC : file.slice (buf ++ spare) (env.RecordLength + bs.length * env.RecordLength)
      (env.RecordLength + bs.length * env.RecordLength + env.RecordLength) = c := by
    have : buf = (a ++ bs.flatten) ++ c ++ ks.flatten := by
      rw [← hbuf]
    have h2 := slice_after (a ++ bs.flatten) c ks.flatten
    rw [← this, List.length_append, halen, hblen, hclen] at h2
    rw [slice_append_left buf spare _ _ (by omega)]
    exact h2
  have hloopK := parseLoop_run_end env 75 env.NewKRecord buf (a ++ bs.flatten ++ c) ks
    (env.RecordLength + bs.length * env.RecordLength + env.RecordLength) (buf.length + 1) []
    hbuf.symm (by simp only [List.length_append, halen, hblen, hclen]) hks (by omega)
  simp only [List.nil_append] at hloopB hloopK
  simp only [file.paymentPerson.Parse, hget0, hslice0, hpa, hcode, hloopB, hgetC, hsliceC, hpc,
    file.paymentPerson.parseStates, hloopK]
  rw [if_neg (by omega), if_pos (Or.inl trivial), if_neg (by omega)]
set_option maxRecDepth 100000 in
/-- C5 witness: the stream `A B C K` of four 750-byte records and nothing after it. -/
theorem person_parse_exhausted_stream_witness :
    file.paymentPerson.Parse sample.records sample.person
        (sample.image 65 ++ [sample.image 66].flatten ++ sample.image 67
          ++ [sample.image 75].flatten) []
      = ({ Payer := some (sample.image 65), Payees := [sample.image 66],
           EndPayer := some (sample.image 67), States := [sample.image 75] }, .panic) :=
  person_parse_exhausted_stream sample.records sample.person (sample.image 65)
    (sample.image 67) [sample.image 66] [sample.image 75] (sample.image 65) (sample.image 67)
    [32, 32] [] (by decide) (by decide) (by decide) (by decide) (by decide) (by decide)
    (by decide)

/-- C6 (what the code does on the claim's streams): when, after an accepted `A` record
and any number of accepted `B` records, the next tag byte is none of `B`, `C` and `K`
and at least `RecordLength` bytes remain, `paymentPerson.Parse` returns the cursor at
that byte with a nil error; no end-payer record is decoded and `EndPayer` is as it was
before the call. -/
theorem person_parse_missing_end_payer {Rec : Type} (env : file.Records Rec)
    (p : file.paymentPerson Rec) (a : Bytes) (bs : List Bytes) (payer : Rec) (code : Bytes)
    (x : Nat) (tail spare : Bytes)
    (ha : a.length = env.RecordLength ∧ a.head? = some 65)
    (hpa : env.Parse (file.orNew p.Payer env.NewARecord) a = (payer, none))
    (hcode : env.asARecord payer = some code)
    (hbs : ∀ ch ∈ bs, ch.length = env.RecordLength ∧ ch.head? = some 66
      ∧ (env.Parse (env.NewBRecord (env.TypeOfReturns code)) ch).2 = none)
    (hx : x ≠ 66 ∧ x ≠ 67 ∧ x ≠ 75)
    (hlen : env.RecordLength ≤ (x :: tail).length) :
    file.paymentPerson.Parse env p (a ++ bs.flatten ++ x :: tail) spare
      = ({ Payer := some payer
           Payees := bs.map (fun ch => (env.Parse (env.NewBRecord (env.TypeOfReturns code)) ch).1)
           EndPayer := p.EndPayer
           States := [] },
         .done (((env.RecordLength + bs.length * env.RecordLength : Nat) : Int), none)) := by
  obtain ⟨halen, hahead⟩ := ha
  obtain ⟨a0, atail, hat⟩ : ∃ a0 atail, a = a0 :: atail := by
    cases a with
    | nil => simp at hahead
    | cons y ys => exact ⟨y, ys, rfl⟩
  have ha0 : a0 = 65 := by rw [hat] at hahead; simpa using hahead
  have hblen := flatten_length_of_chunks bs env.RecordLength (fun ch h => (hbs ch h).1)
  have hrl : 0 < env.RecordLength := by rw [← halen, hat]; simp
  have hbn : bs.length ≤ bs.length * env.RecordLength := Nat.le_mul_of_pos_right _ hrl
  generalize hbuf : a ++ bs.flatten ++ x :: tail = buf
  have hsize : buf.length = env.RecordLength + bs.length * env.RecordLength
      + (x :: tail).length := by
    rw [← hbuf]
    simp only [List.length_append, halen, hblen]
  have hget0 : buf.get? 0 = some 65 := by
    rw [← hbuf, hat, ha0]; rfl
  have hslice0 : file.slice buf 0 env.RecordLength = a := by
    have : buf = [] ++ a ++ (bs.flatten ++ x :: tail) := by
      rw [← hbuf]; simp only [List.nil_append, List.append_assoc]
    have h2 := slice_after [] a (bs.flatten ++ x :: tail)
    rw [← this, halen] at h2
    simpa using h2
  have hloopB := parseLoop_run_next env 66 (env.NewBRecord (env.TypeOfReturns code)) buf a bs
    x tail env.RecordLength (buf.length + 1) [] hbuf.symm halen.symm hx.1 hbs (by omega)
  have hgetX : buf.get? (env.RecordLength + bs.length * env.RecordLength) = some x := by
    have h2 := get?_after (a ++ bs.flatten) x tail
    rw [hbuf, List.length_append, halen, hblen] at h2
    exact h2
  have hloopK := parseLoop_run_next env 75 env.NewKRecord buf (a ++ bs.flatten) [] x tail
    (env.RecordLength + bs.length * env.RecordLength) (buf.length + 1) []
    (by rw [← hbuf]; simp) (by simp only [List.length_append, halen, hblen]) hx.2.2
    (by simp) (by simp)
  simp only [List.nil_append, List.length_nil, Nat.zero_mul, Nat.add_zero, List.map_nil]
    at hloopB hloopK
  have hnot : ¬ (x = 67 ∨ buf.length
      < env.RecordLength + bs.length * env.RecordLength + env.RecordLength) := by
    intro h
    rcases h with h | h
    · exact hx.2.1 h
    · omega
  simp only [file.paymentPerson.Parse, hget0, hslice0, hpa, hcode, hloopB, hgetX,
    file.paymentPerson.parseStates, hloopK]
  rw [if_neg (by omega), if_neg hnot]

set_option maxRecDepth 100000 in
/-- C6 witness: an `A` record and a `B` record followed by the `A` record of the next
payer, with no `C` record in between. -/
theorem person_parse_missing_end_payer_witness :
    file.paymentPerson.Parse sample.records sample.person
        (sample.image 65 ++ [sample.image 66].flatten ++ 65 :: List.replicate 749 32) []
      = ({ Payer := some (sample.image 65), Payees := [sample.image 66],
           EndPayer := none, States := [] }, .done (1500, none)) :=
  person_parse_missing_end_payer sample.records sample.person (sample.image 65)
    [sample.image 66] (sample.image 65) [32, 32] 65 (List.replicate 749 32) []
    (by decide) (by decide) (by decide) (by decide) (by decide) (by decide)

/-! ## `paymentPerson.UnmarshalJSON` -/

/-- C8 (what the code does on the claim's documents): for a document whose only key is
`payees` or `states` with a value that is neither an array nor `null`, decoded into a
person whose payer, if set, is an `ARecord`, `paymentPerson.UnmarshalJSON` returns nil:
the error of decoding the list is dropped by `return nil`, and the person is unchanged. -/
theorem person_unmarshal_masks_list_error {Rec : Type} (env : file.Records Rec)
    (p : file.paymentPerson Rec) (key : String) (v : file.Json)
    (visit1 visit2 : List (String × file.Json) → List (String × file.Json))
    (hkey : key = "payees" ∨ key = "states")
    (hv : file.unmarshalList v = .error Err.jsonUnmarshal)
    (hp : ∀ r, p.Payer = some r → ∃ code, env.asARecord r = some code)
    (h1 : ∀ l, (visit1 l).Perm l) (h2 : ∀ l, (visit2 l).Perm l) :
    file.paymentPerson.UnmarshalJSON env p (.obj [(key, v)]) visit1 visit2 = (p, none) := by
  have hv1 : visit1 [(key, v)] = [(key, v)] := (h1 _).eq_singleton
  have hv2 : visit2 [(key, v)] = [(key, v)] := (h2 _).eq_singleton
  have hne : key ≠ "payer" := by
    rcases hkey with h | h <;> rw [h] <;> decide
  have hmap : file.unmarshalMap (.obj [(key, v)]) = .ok [(key, v)] := by
    simp [file.unmarshalMap, file.lastWins]
  have hpayer : file.readPayer env p [(key, v)] = (p, none) := by
    simp [file.readPayer, hne]
  have hrest : ∀ t, file.readRest env t p [(key, v)] = (p, some none) := by
    intro t
    rcases hkey with h | h
    · subst h
      simp [file.readRest, hv]
    · subst h
      simp [file.readRest, hv]
  simp only [file.paymentPerson.UnmarshalJSON, hmap, hv1, hv2, hpayer]
  cases hpy : p.Payer with
  | none => simp only [hrest]
  | some r =>
    obtain ⟨code, hcode⟩ := hp r hpy
    simp only [hcode, hrest]

/-- C8 witness: the document whose `payees` value is the number 5, decoded into a fresh
person. -/
theorem person_unmarshal_masks_list_error_witness :
    file.paymentPerson.UnmarshalJSON sample.records sample.person
        (.obj [("payees", .num [53])]) id id = (sample.person, none) :=
  person_unmarshal_masks_list_error sample.records sample.person "payees" (.num [53]) id id
    (Or.inl rfl) rfl (by intro r h; cases h) (fun _ => List.Perm.refl _)
    (fun _ => List.Perm.refl _)

theorem lastWins_keys {l : List (String × file.Json)} {k : String}
    (h : k ∈ (file.lastWins l).map Prod.fst) : k ∈ l.map Prod.fst := by
  induction l with
  | nil => simp [file.lastWins] at h
  | cons e rest ih =>
    obtain ⟨k0, v0⟩ := e
    simp only [file.lastWins] at h
    split at h
    · exact List.mem_cons_of_mem _ (ih h)
    · rcases List.mem_cons.mp h with h | h
      · rw [h]; exact List.mem_cons_self _ _
      · exact List.mem_cons_of_mem _ (ih h)

theorem lastWins_nodup (l : List (String × file.Json)) :
    ((file.lastWins l).map Prod.fst).Nodup := by
  induction l with
  | nil => simp [file.lastWins]
  | cons e rest ih =>
    obtain ⟨k0, v0⟩ := e
    simp only [file.lastWins]
    split
    · exact ih
    · rename_i hnone
      simp only [List.map_cons, List.nodup_cons]
      refine ⟨?_, ih⟩
      intro hmem
      have hk := lastWins_keys hmem
      have hl : rest.lookup k0 = none := by
        cases hlk : rest.lookup k0 with
        | none => rfl
        | some x => simp [hlk] at hnone
      rw [List.lookup_eq_none_iff] at hl
      obtain ⟨e, he, hek⟩ := List.mem_map.mp hk
      have := hl e he
      simp [hek] at this

theorem unmarshalMap_nodup {data : file.Json} {dummy : List (String × file.Json)}
    (h : file.unmarshalMap data = .ok dummy) : (dummy.map Prod.fst).Nodup := by
  cases data <;> simp only [file.unmarshalMap, reduceCtorEq, Except.ok.injEq] at h
  · subst h; simp
  · subst h; exact lastWins_nodup _

theorem readPayer_of_not_mem {Rec : Type} (env : file.Records Rec)
    (p : file.paymentPerson Rec) (entries : List (String × file.Json))
    (h : "payer" ∉ entries.map Prod.fst) : file.readPayer env p entries = (p, none) := by
  induction entries with
  | nil => rfl
  | cons e rest ih =>
    obtain ⟨k, v⟩ := e
    simp only [List.map_cons, List.mem_cons, not_or] at h
    have hk : k ≠ "payer" := fun hk => h.1 hk.symm
    simp only [file.readPayer, ne_eq, hk, not_false_eq_true, if_true]
    exact ih h.2

theorem readPayer_of_mem {Rec : Type} (env : file.Records Rec)
    (p : file.paymentPerson Rec) (entries : List (String × file.Json)) (j : file.Json)
    (payer : Rec) (hnd : (entries.map Prod.fst).Nodup) (hmem : ("payer", j) ∈ entries)
    (hread : env.readJsonWithRecord env.NewARecord j = (payer, none)) :
    file.readPayer env p entries = ({ p with Payer := some payer }, none) := by
  induction entries with
  | nil => simp at hmem
  | cons e rest ih =>
    obtain ⟨k, v⟩ := e
    simp only [List.map_cons, List.nodup_cons] at hnd
    by_cases hk : k = "payer"
    · subst hk
      have hv : v = j := by
        rcases List.mem_cons.mp hmem with h | h
        · exact (Prod.mk.inj h).2.symm
        · exact absurd (List.mem_map.mpr ⟨("payer", j), h, rfl⟩) hnd.1
      subst hv
      simp only [file.readPayer, ne_eq, not_true_eq_false, if_false, hread]
      exact readPayer_of_not_mem env _ rest hnd.1
    · have hin : ("payer", j) ∈ rest := by
        rcases List.mem_cons.mp hmem with h | h
        · exact absurd (Prod.mk.inj h).1.symm hk
        · exact h
      simp only [file.readPayer, ne_eq, hk, not_false_eq_true, if_true]
      exact ih hnd.2 hin

theorem readList_ok {Rec : Type} (env : file.Records Rec) (new : Rec) (items : List file.Json) :
    ∀ (records out : List Rec), file.readList env new items records = (out, none) →
      out = records ++ items.map (fun d => (env.readJsonWithRecord new d).1) := by
  induction items with
  | nil => intro records out h; simp [file.readList] at h; simp [h]
  | cons d rest ih =>
    intro records out h
    simp only [file.readList] at h
    cases hr : env.readJsonWithRecord new d with
    | mk rec err =>
      rw [hr] at h
      cases err with
      | some e => simp at h
      | none =>
        simp only at h
        rw [ih _ _ h]
        simp [hr]

theorem readRest_cons_payees {Rec : Type} (env : file.Records Rec) (tor : Bytes)
    (p : file.paymentPerson Rec) (v : file.Json) (rest : List (String × file.Json)) :
    file.readRest env tor p (("payees", v) :: rest)
      = match file.unmarshalList v with
        | .error _ => (p, some none)
        | .ok list =>
          match file.readList env (env.NewBRecord tor) list [] with
          | (payees, some err) => ({ p with Payees := payees }, some (some err))
          | (payees, none) => file.readRest env tor { p with Payees := payees } rest := by
  simp only [file.readRest, if_true]

theorem readRest_cons_states {Rec : Type} (env : file.Records Rec) (tor : Bytes)
    (p : file.paymentPerson Rec) (v : file.Json) (rest : List (String × file.Json)) :
    file.readRest env tor p (("states", v) :: rest)
      = match file.unmarshalList v with
        | .error _ => (p, some none)
        | .ok list =>
          match file.readList env env.NewKRecord list [] with
          | (states, some err) => ({ p with States := states }, some (some err))
          | (states, none) => file.readRest env tor { p with States := states } rest := by
  simp only [file.readRest, if_true]
  rw [if_neg (by decide)]

theorem readRest_cons_end_payer {Rec : Type} (env : file.Records Rec) (tor : Bytes)
    (p : file.paymentPerson Rec) (v : file.Json) (rest : List (String × file.Json)) :
    file.readRest env tor p (("end_payer", v) :: rest)
      = match env.readJsonWithRecord env.NewCRecord v with
        | (r, some err) => ({ p with EndPayer := some r }, some (some err))
        | (r, none) => file.readRest env tor { p with EndPayer := some r } rest := by
  simp only [file.readRest, if_true]
  rw [if_neg (by decide), if_neg (by decide)]

theorem readRest_cons_other {Rec : Type} (env : file.Records Rec) (tor : Bytes)
    (p : file.paymentPerson Rec) (k : String) (v : file.Json)
    (rest : List (String × file.Json))
    (h1 : k ≠ "payees") (h2 : k ≠ "states") (h3 : k ≠ "end_payer") :
    file.readRest env tor p ((k, v) :: rest) = file.readRest env tor p rest := by
  simp only [file.readRest, h1, h2, h3, if_false]

theorem readRest_keeps_payees {Rec : Type} (env : file.Records Rec) (tor : Bytes)
    (entries : List (String × file.Json)) : ∀ (p : file.paymentPerson Rec),
    "payees" ∉ entries.map Prod.fst →
      (file.readRest env tor p entries).1.Payees = p.Payees := by
  induction entries with
  | nil => intro p _; rfl
  | cons e rest ih =>
    intro p h
    obtain ⟨k, v⟩ := e
    simp only [List.map_cons, List.mem_cons, not_or] at h
    have hk : k ≠ "payees" := fun hk => h.1 hk.symm
    by_cases hs : k = "states"
    · subst hs
      rw [readRest_cons_states]
      cases file.unmarshalList v with
      | error e => rfl
      | ok list =>
        cases hl : file.readList env env.NewKRecord list [] with
        | mk out err =>
          cases err with
          | some e => simp only [hl]
          | none => simp only [hl]; exact ih _ h.2
    · by_cases he : k = "end_payer"
      · subst he
        rw [readRest_cons_end_payer]
        cases hr : env.readJsonWithRecord env.NewCRecord v with
        | mk r err =>
          cases err with
          | some e => rfl
          | none => simp only; exact ih _ h.2
      · rw [readRest_cons_other env tor p k v rest hk hs he]
        exact ih _ h.2

theorem readRest_payees {Rec : Type} (env : file.Records Rec) (tor : Bytes)
    (items : List file.Json) (entries : List (String × file.Json)) :
    ∀ (p : file.paymentPerson Rec), (entries.map Prod.fst).Nodup →
      ("payees", file.Json.arr items) ∈ entries →
      (file.readRest env tor p entries).2 = none →
      (file.readRest env tor p entries).1.Payees
        = items.map (fun d => (env.readJsonWithRecord (env.NewBRecord tor) d).1) := by
  induction entries with
  | nil => intro p _ h; simp at h
  | cons e rest ih =>
    intro p hnd hmem hdone
    obtain ⟨k, v⟩ := e
    simp only [List.map_cons, List.nodup_cons] at hnd
    by_cases hk : k = "payees"
    · subst hk
      have hv : v = file.Json.arr items := by
        rcases List.mem_cons.mp hmem with h | h
        · exact (Prod.mk.inj h).2.symm
        · exact absurd (List.mem_map.mpr ⟨("payees", file.Json.arr items), h, rfl⟩) hnd.1
      subst hv
      rw [readRest_cons_payees] at hdone ⊢
      simp only [file.unmarshalList] at hdone ⊢
      cases hl : file.readList env (env.NewBRecord tor) items [] with
      | mk out err =>
        rw [hl] at hdone
        cases err with
        | some e => simp at hdone
        | none =>
          simp only
          rw [readRest_keeps_payees env tor rest _ hnd.1]
          simpa using readList_ok env _ items [] out hl
    · have hin : ("payees", file.Json.arr items) ∈ rest := by
        rcases List.mem_cons.mp hmem with h | h
        · exact absurd (Prod.mk.inj h).1.symm hk
        · exact h
      by_cases hs : k = "states"
      · subst hs
        rw [readRest_cons_states] at hdone ⊢
        cases hu : file.unmarshalList v with
        | error e => rw [hu] at hdone; simp at hdone
        | ok list =>
          rw [hu] at hdone
          simp only at hdone ⊢
          cases hl : file.readList env env.NewKRecord list [] with
          | mk out err =>
            rw [hl] at hdone
            cases err with
            | some e => simp at hdone
            | none => exact ih _ hnd.2 hin hdone
      · by_cases he : k = "end_payer"
        · subst he
          rw [readRest_cons_end_payer] at hdone ⊢
          cases hr : env.readJsonWithRecord env.NewCRecord v with
          | mk r err =>
            rw [hr] at hdone
            cases err with
            | some e => simp at hdone
            | none => exact ih _ hnd.2 hin hdone
        · rw [readRest_cons_other env tor p k v rest hk hs he] at hdone ⊢
          exact ih _ hnd.2 hin hdone
theorem readPayer_newB {Rec : Type} (env : file.Records Rec) (newB : Bytes → Rec)
    (entries : List (String × file.Json)) : ∀ (p : file.paymentPerson Rec),
    file.readPayer { env with NewBRecord := newB } p entries = file.readPayer env p entries := by
  induction entries with
  | nil => intro p; rfl
  | cons e rest ih =>
    intro p
    obtain ⟨k, v⟩ := e
    simp only [file.readPayer, ih]

theorem readList_newB {Rec : Type} (env : file.Records Rec) (newB : Bytes → Rec) (new : Rec)
    (items : List file.Json) : ∀ (records : List Rec),
    file.readList { env with NewBRecord := newB } new items records
      = file.readList env new items records := by
  induction items with
  | nil => intro records; rfl
  | cons d rest ih =>
    intro records
    simp only [file.readList, ih]

theorem readRest_newB {Rec : Type} (env : file.Records Rec) (newB : Bytes → Rec) (tor : Bytes)
    (h : newB tor = env.NewBRecord tor) (entries : List (String × file.Json)) :
    ∀ (p : file.paymentPerson Rec),
    file.readRest { env with NewBRecord := newB } tor p entries
      = file.readRest env tor p entries := by
  induction entries with
  | nil => intro p; rfl
  | cons e rest ih =>
    intro p
    obtain ⟨k, v⟩ := e
    simp only [file.readRest, ih, readList_newB, h]

/-- C9: for a document object with a `payer` and a `payees` key, in whatever order the
two loops of `paymentPerson.UnmarshalJSON` visit the keys, once the payer is read as an
`ARecord` the second loop runs with the return type looked up from that payer's
`TypeOfReturn`; `NewBRecord` is called with no other return type (replacing it at every
other argument changes nothing); and when the loop runs to its end over a `payees` array
the payees are the items read into records of that return type, in order. -/
theorem person_unmarshal_payee_type {Rec : Type} (env : file.Records Rec)
    (p : file.paymentPerson Rec) (data : file.Json) (dummy : List (String × file.Json))
    (payerJson payeesJson : file.Json) (payer : Rec) (code : Bytes)
    (visit1 visit2 : List (String × file.Json) → List (String × file.Json))
    (hmap : file.unmarshalMap data = .ok dummy)
    (hpayer : ("payer", payerJson) ∈ dummy)
    (hpayees : ("payees", payeesJson) ∈ dummy)
    (h1 : ∀ l, (visit1 l).Perm l) (h2 : ∀ l, (visit2 l).Perm l)
    (hread : env.readJsonWithRecord env.NewARecord payerJson = (payer, none))
    (hcode : env.asARecord payer = some code) :
    file.paymentPerson.UnmarshalJSON env p data visit1 visit2
        = ((file.readRest env (env.TypeOfReturns code) { p with Payer := some payer }
              (visit2 dummy)).1,
            (file.readRest env (env.TypeOfReturns code) { p with Payer := some payer }
              (visit2 dummy)).2.getD none)
    ∧ (∀ newB : Bytes → Rec,
        newB (env.TypeOfReturns code) = env.NewBRecord (env.TypeOfReturns code) →
        file.paymentPerson.UnmarshalJSON { env with NewBRecord := newB } p data visit1 visit2
          = file.paymentPerson.UnmarshalJSON env p data visit1 visit2)
    ∧ (∀ items, payeesJson = .arr items →
        (file.readRest env (env.TypeOfReturns code) { p with Payer := some payer }
            (visit2 dummy)).2 = none →
        (file.paymentPerson.UnmarshalJSON env p data visit1 visit2).1.Payees
          = items.map (fun d =>
              (env.readJsonWithRecord (env.NewBRecord (env.TypeOfReturns code)) d).1)) := by
  have hnd := unmarshalMap_nodup hmap
  have hnd1 : ((visit1 dummy).map Prod.fst).Nodup :=
    ((h1 dummy).map Prod.fst).nodup_iff.mpr hnd
  have hnd2 : ((visit2 dummy).map Prod.fst).Nodup :=
    ((h2 dummy).map Prod.fst).nodup_iff.mpr hnd
  have hm1 : ("payer", payerJson) ∈ visit1 dummy := (h1 dummy).mem_iff.mpr hpayer
  have hm2 : ("payees", payeesJson) ∈ visit2 dummy := (h2 dummy).mem_iff.mpr hpayees
  have hrp := readPayer_of_mem env p (visit1 dummy) payerJson payer hnd1 hm1 hread
  have hrun : file.paymentPerson.UnmarshalJSON env p data visit1 visit2
      = ((file.readRest env (env.TypeOfReturns code) { p with Payer := some payer }
            (visit2 dummy)).1,
          (file.readRest env (env.TypeOfReturns code) { p with Payer := some payer }
            (visit2 dummy)).2.getD none) := by
    simp only [file.paymentPerson.UnmarshalJSON, hmap, hrp, hcode]
    cases hr : file.readRest env (env.TypeOfReturns code) { p with Payer := some payer }
        (visit2 dummy) with
    | mk q res =>
      cases res with
      | none => rfl
      | some x => rfl
  refine ⟨hrun, ?_, ?_⟩
  · intro newB hnew
    rw [hrun]
    have hmap2 : file.unmarshalMap data = .ok dummy := hmap
    simp only [file.paymentPerson.UnmarshalJSON, hmap2, readPayer_newB, hrp, hcode,
      readRest_newB env newB (env.TypeOfReturns code) hnew]
    cases hr : file.readRest env (env.TypeOfReturns code) { p with Payer := some payer }
        (visit2 dummy) with
    | mk q res =>
      cases res with
      | none => rfl
      | some x => rfl
  · intro items hitems hdone
    rw [hrun]
    subst hitems
    exact readRest_payees env (env.TypeOfReturns code) items (visit2 dummy) _ hnd2 hm2 hdone

/-- C9 witness: a document whose `payees` key comes before its `payer` key, visited in
document order. -/
theorem person_unmarshal_payee_type_witness :
    (file.paymentPerson.UnmarshalJSON sample.records sample.person
        (.obj [("payees", .arr [.obj []]), ("payer", .obj [])]) id id).1.Payees
      = [.obj []].map (fun d => (sample.records.readJsonWithRecord
          (sample.records.NewBRecord (sample.records.TypeOfReturns [])) d).1) :=
  (person_unmarshal_payee_type sample.records sample.person
    (.obj [("payees", .arr [.obj []]), ("payer", .obj [])])
    [("payees", .arr [.obj []]), ("payer", .obj [])] (.obj []) (.arr [.obj []]) [] [] id id
    rfl (by simp) (by simp) (fun _ => List.Perm.refl _) (fun _ => List.Perm.refl _)
    rfl rfl).2.2 [.obj []] rfl rfl

/-! ## Decimal numbers -/

theorem decVal_cons (acc c : Nat) (ds : Bytes) :
    strconv.decVal acc (c :: ds) = strconv.decVal (acc * 10 + (c - 48)) ds := rfl

theorem decVal_append (acc : Nat) (xs ys : Bytes) :
    strconv.decVal acc (xs ++ ys) = strconv.decVal (strconv.decVal acc xs) ys := by
  simp [strconv.decVal, List.foldl_append]

theorem decVal_ge (ds : Bytes) : ∀ acc, acc ≤ strconv.decVal acc ds := by
  induction ds with
  | nil => intro acc; exact Nat.le_refl _
  | cons c rest ih =>
    intro acc
    rw [decVal_cons]
    have := ih (acc * 10 + (c - 48))
    omega

theorem isDigit_iff (c : Nat) : strconv.isDigit c = true ↔ 48 ≤ c ∧ c ≤ 57 := by
  simp [strconv.isDigit]

theorem parseUintFrom_ok (ds : Bytes) : ∀ (acc m : Nat),
    strconv.parseUintFrom acc ds = .ok m →
      (∀ c ∈ ds, strconv.isDigit c = true) ∧ m = strconv.decVal acc ds := by
  induction ds with
  | nil =>
    intro acc m h
    simp only [strconv.parseUintFrom, Except.ok.injEq] at h
    exact ⟨by simp, by rw [← h]; rfl⟩
  | cons c rest ih =>
    intro acc m h
    simp only [strconv.parseUintFrom] at h
    split at h
    · exact absurd h (by simp)
    · rename_i hd
      split at h
      · exact absurd h (by simp)
      · split at h
        · exact absurd h (by simp)
        · obtain ⟨h1, h2⟩ := ih _ _ h
          have hd' : strconv.isDigit c = true := by simpa using hd
          refine ⟨?_, by rw [decVal_cons]; exact h2⟩
          intro x hx
          rcases List.mem_cons.mp hx with hx | hx
          · rw [hx]; exact hd'
          · exact h1 x hx

theorem parseUintFrom_of_digits (ds : Bytes) : ∀ (acc : Nat),
    (∀ c ∈ ds, strconv.isDigit c = true) → strconv.decVal acc ds < 2 ^ 64 →
      strconv.parseUintFrom acc ds = .ok (strconv.decVal acc ds) := by
  induction ds with
  | nil => intro acc _ _; rfl
  | cons c rest ih =>
    intro acc hd hlt
    have hc : strconv.isDigit c = true := hd c (List.mem_cons_self _ _)
    have hrest : ∀ x ∈ rest, strconv.isDigit x = true :=
      fun x hx => hd x (List.mem_cons_of_mem _ hx)
    rw [decVal_cons] at hlt
    have hge := decVal_ge rest (acc * 10 + (c - 48))
    simp only [strconv.parseUintFrom, hc, Bool.not_true, Bool.false_eq_true, if_false]
    rw [if_neg (by omega), if_neg (by omega), decVal_cons]
    exact ih _ hrest hlt

theorem itoaLoop_eq (fuel : Nat) : ∀ (n : Nat) (acc : Bytes), n < fuel → 0 < n →
    strconv.itoaLoop fuel n acc
      = (Nat.digits 10 n).reverse.map (fun d => d + 48) ++ acc := by
  induction fuel with
  | zero => intro n acc h; omega
  | succ k ih =>
    intro n acc hn hpos
    rw [Nat.digits_def' (by decide) hpos]
    simp only [strconv.itoaLoop]
    by_cases hq : n / 10 = 0
    · rw [if_pos hq, hq]
      simp
    · rw [if_neg hq, ih (n / 10) _ (by omega) (by omega)]
      simp

theorem itoa_pos (n : Nat) (h : 0 < n) :
    strconv.itoa n = (Nat.digits 10 n).reverse.map (fun d => d + 48) := by
  rw [strconv.itoa, itoaLoop_eq (n + 1) n [] (by omega) h, List.append_nil]

theorem itoa_zero : strconv.itoa 0 = [48] := rfl

theorem itoa_ne_nil (n : Nat) : strconv.itoa n ≠ [] := by
  cases n with
  | zero => simp [itoa_zero]
  | succ k =>
    rw [itoa_pos _ (Nat.succ_pos k), Nat.digits_def' (by decide) (Nat.succ_pos k)]
    simp

theorem decVal_of_digits (l : List Nat) :
    strconv.decVal 0 (l.reverse.map (fun d => d + 48)) = Nat.ofDigits 10 l := by
  induction l with
  | nil => rfl
  | cons d rest ih =>
    rw [List.reverse_cons, List.map_append, decVal_append, ih, Nat.ofDigits_cons]
    simp only [List.map_cons, List.map_nil, strconv.decVal, List.foldl_cons, List.foldl_nil]
    omega

theorem decVal_itoa (n : Nat) : strconv.decVal 0 (strconv.itoa n) = n := by
  cases n with
  | zero => rfl
  | succ k => rw [itoa_pos _ (Nat.succ_pos k), decVal_of_digits, Nat.ofDigits_digits]

theorem decVal_zeros (k : Nat) (ds : Bytes) :
    strconv.decVal 0 (List.replicate k 48 ++ ds) = strconv.decVal 0 ds := by
  induction k with
  | zero => simp
  | succ j ih => rw [List.replicate_succ, List.cons_append, decVal_cons]; exact ih

theorem itoa_decVal (c : Nat) (rest : Bytes) (hd : ∀ x ∈ c :: rest, strconv.isDigit x = true)
    (hc : c ≠ 48) : strconv.itoa (strconv.decVal 0 (c :: rest)) = c :: rest := by
  have hds : ((c :: rest).map (fun x => x - 48)).reverse.reverse.map (fun d => d + 48)
      = c :: rest := by
    rw [List.reverse_reverse, List.map_map]
    have : ∀ x ∈ c :: rest, ((fun d => d + 48) ∘ (fun x => x - 48)) x = x := by
      intro x hx
      have := (isDigit_iff x).mp (hd x hx)
      simp only [Function.comp]
      omega
    rw [List.map_congr_left this, List.map_id'']
    intro x
    rfl
  have hval : strconv.decVal 0 (c :: rest)
      = Nat.ofDigits 10 ((c :: rest).map (fun x => x - 48)).reverse := by
    rw [← decVal_of_digits, hds]
  have hlt : ∀ d ∈ ((c :: rest).map (fun x => x - 48)).reverse, d < 10 := by
    intro d hdm
    rw [List.mem_reverse, List.mem_map] at hdm
    obtain ⟨x, hx, hxd⟩ := hdm
    have := (isDigit_iff x).mp (hd x hx)
    omega
  have hlast : ∀ h : ((c :: rest).map (fun x => x - 48)).reverse ≠ [],
      (((c :: rest).map (fun x => x - 48)).reverse).getLast h ≠ 0 := by
    intro h
    have hc1 := (isDigit_iff c).mp (hd c (List.mem_cons_self _ _))
    have hl : (((c :: rest).map (fun x => x - 48)).reverse).getLast h = c - 48 := by
      simp
    rw [hl]
    omega
  have hdig := Nat.digits_ofDigits 10 (by decide) _ hlt hlast
  have hpos : 0 < strconv.decVal 0 (c :: rest) := by
    rcases Nat.eq_zero_or_pos (strconv.decVal 0 (c :: rest)) with h0 | h0
    · rw [hval] at h0
      rw [h0, Nat.digits_zero] at hdig
      simp at hdig
    · exact h0
  rw [itoa_pos _ hpos, hval, hdig, hds]

/-! ## Blanks and trimming -/

theorem isBlank_iff (data : Bytes) : utils.isBlank data = true ↔ ∀ c ∈ data, c = 32 := by
  unfold utils.isBlank strings.Count
  by_cases h : data.length = 0
  · have : data = [] := List.length_eq_zero.mp h
    subst this
    simp
  · rw [if_neg h]
    simp only [beq_iff_eq, List.count_eq_length]
    constructor
    · intro hc c hm; exact (hc c hm).symm
    · intro hc c hm; exact (hc c hm).symm

theorem trimRight_length_le (data : Bytes) : (strings.TrimRight data).length ≤ data.length :=
  List.IsPrefix.length_le ( List.rdropWhile_prefix (fun c => c == 32) data)

theorem trimRight_append_blanks (data : Bytes) :
    strings.TrimRight data
      ++ List.replicate (data.length - (strings.TrimRight data).length) 32 = data := by
  induction data using List.reverseRecOn with
  | nil => simp [strings.TrimRight]
  | append_singleton l x ih =>
    have hle := trimRight_length_le l
    unfold strings.TrimRight at ih hle ⊢
    by_cases hx : x = 32
    · subst hx
      rw [List.rdropWhile_concat_pos _ _ _ (by simp)]
      have : (l ++ [32]).length - (List.rdropWhile (fun c => c == 32) l).length
          = (l.length - (List.rdropWhile (fun c => c == 32) l).length) + 1 := by
        simp only [List.length_append, List.length_singleton]
        omega
      rw [this, List.replicate_succ', ← List.append_assoc, ih]
    · rw [List.rdropWhile_concat_neg _ _ _ (by simpa using hx)]
      simp

theorem trimRight_of_last (s : Bytes) (h : s.getLast? ≠ some 32) (k : Nat) :
    strings.TrimRight (s ++ List.replicate k 32) = s := by
  unfold strings.TrimRight
  induction k with
  | zero =>
    rw [List.replicate_zero, List.append_nil, List.rdropWhile_eq_self_iff]
    intro hl hp
    apply h
    rw [List.getLast?_eq_getLast _ hl]
    simpa using hp
  | succ j ih =>
    rw [List.replicate_succ', ← List.append_assoc, List.rdropWhile_concat_pos _ _ _ (by simp)]
    exact ih

theorem trimRight_blanks (k : Nat) : strings.TrimRight (List.replicate k 32) = [] := by
  have := trimRight_of_last [] (by simp) k
  simpa using this

/-! ## Layouts that tile a record -/

theorem tiles_le (layout : Layout) : ∀ (start stop : Nat),
    utils.tiles start layout stop = true → start ≤ stop := by
  induction layout with
  | nil => intro start stop h; simp [utils.tiles] at h; omega
  | cons e rest ih =>
    intro start stop h
    simp only [utils.tiles, Bool.and_eq_true, beq_iff_eq] at h
    have := ih _ _ h.2
    omega

theorem tiles_start_le (layout : Layout) : ∀ (start stop : Nat) (e : String × SpecField),
    utils.tiles start layout stop = true → e ∈ layout →
      start ≤ e.2.Start ∧ e.2.Start + e.2.Length ≤ stop := by
  induction layout with
  | nil => intro start stop e _ h; simp at h
  | cons hd rest ih =>
    intro start stop e h hm
    simp only [utils.tiles, Bool.and_eq_true, beq_iff_eq] at h
    rcases List.mem_cons.mp hm with hm | hm
    · subst hm
      have := tiles_le rest _ _ h.2
      omega
    · have := ih _ _ e h.2 hm
      omega

/-- The spans of a record at the entries of a tiling layout, joined, are the record. -/
theorem spans_flatten (a : Bytes) (layout : Layout) : ∀ (start stop : Nat),
    utils.tiles start layout stop = true →
      (layout.map (fun e => utils.span a e.2)).flatten = (a.drop start).take (stop - start) := by
  induction layout with
  | nil =>
    intro start stop h
    simp only [utils.tiles, beq_iff_eq] at h
    simp [h]
  | cons hd rest ih =>
    intro start stop h
    simp only [utils.tiles, Bool.and_eq_true, beq_iff_eq] at h
    have hle := tiles_le rest _ _ h.2
    have hstop : stop - start = hd.2.Length + (stop - (start + hd.2.Length)) := by omega
    rw [List.map_cons, List.flatten_cons, ih _ _ h.2, hstop, List.take_add, List.drop_drop]
    simp only [utils.span, h.1]

/-- In the joined pieces of a tiling layout, each entry's positions hold its piece. -/
theorem piece_of_tiled (f : String × SpecField → Bytes) (layout : Layout) :
    ∀ (start stop : Nat) (e : String × SpecField),
    utils.tiles start layout stop = true →
    (∀ x ∈ layout, (f x).length = x.2.Length) → e ∈ layout →
      (((layout.map f).flatten).drop (e.2.Start - start)).take e.2.Length = f e := by
  induction layout with
  | nil => intro start stop e _ _ h; simp at h
  | cons hd rest ih =>
    intro start stop e h hlen hm
    simp only [utils.tiles, Bool.and_eq_true, beq_iff_eq] at h
    have hhd : (f hd).length = hd.2.Length := hlen hd (List.mem_cons_self _ _)
    have hrest : ∀ x ∈ rest, (f x).length = x.2.Length :=
      fun x hx => hlen x (List.mem_cons_of_mem _ hx)
    by_cases he : e.2.Length = 0
    · have : f e = [] := List.length_eq_zero.mp (by rw [hlen e hm, he])
      rw [he, this]
      simp
    · rcases List.mem_cons.mp hm with hm | hm
      · subst hm
        rw [h.1, Nat.sub_self, List.drop_zero, List.map_cons, List.flatten_cons, ← hhd,
          List.take_left]
      · have hs := tiles_start_le rest _ _ e h.2 hm
        have hoff : e.2.Start - start = (f hd).length + (e.2.Start - (start + hd.2.Length)) := by
          rw [hhd]; omega
        rw [List.map_cons, List.flatten_cons, hoff, List.drop_append]
        exact ih _ _ e h.2 hrest hm

/-! ## Table lookups -/

theorem lookup_mem {β : Type} (l : List (String × β)) (k : String) (v : β)
    (h : l.lookup k = some v) : (k, v) ∈ l := by
  induction l with
  | nil => simp at h
  | cons e rest ih =>
    obtain ⟨k0, v0⟩ := e
    rw [List.lookup_cons] at h
    by_cases hk : k = k0
    · subst hk
      simp only [beq_self_eq_true, Option.some.injEq] at h
      rw [h]
      exact List.mem_cons_self _ _
    · have hb : (k == k0) = false := by simpa using hk
      rw [hb] at h
      exact List.mem_cons_of_mem _ (ih h)

theorem lookup_of_mem {β : Type} (l : List (String × β)) (k : String) (v : β)
    (hnd : (l.map Prod.fst).Nodup) (h : (k, v) ∈ l) : l.lookup k = some v := by
  induction l with
  | nil => simp at h
  | cons e rest ih =>
    obtain ⟨k0, v0⟩ := e
    simp only [List.map_cons, List.nodup_cons] at hnd
    rw [List.lookup_cons]
    rcases List.mem_cons.mp h with hhead | htail
    · obtain ⟨h1, h2⟩ := Prod.mk.inj hhead
      subst h1 h2
      simp
    · have hk : k ≠ k0 := by
        intro hk
        apply hnd.1
        rw [← hk]
        exact List.mem_map.mpr ⟨(k, v), htail, rfl⟩
      have hb : (k == k0) = false := by simpa using hk
      rw [hb]
      exact ih hnd.2 htail

/-! ## Encoding a fitting value and decoding it again -/

theorem class_ascii (c : Nat) (h : utils.upperAlphanumericClass c = true) : c < 128 := by
  simp only [utils.upperAlphanumericClass, Bool.or_eq_true, Bool.and_eq_true,
    decide_eq_true_eq, beq_iff_eq] at h
  omega

theorem toString_text (elm : SpecField) (s : Bytes)
    (hexp : elm.Required ≠ Requirement.Expandable) (hwid : fmt.widthParses elm.Length = true)
    (ht : elm.Typ = FieldType.Alphanumeric) (hs : ∀ c ∈ s, c < 128) :
    utils.ToString elm (some (.str s)) = s ++ List.replicate (elm.Length - s.length) 32 := by
  simp only [utils.ToString, if_neg hexp, ht, fmt.sprintfS, hwid, Bool.not_true,
    Bool.false_eq_true, if_false, fmt.pad, if_true, runeCount_ascii s hs]

theorem toString_zero (elm : SpecField) (n : Int)
    (hexp : elm.Required ≠ Requirement.Expandable) (hwid : fmt.widthParses elm.Length = true)
    (ht : elm.Typ = FieldType.ZeroNumeric) (hn : 0 ≤ n)
    (hlen : (strconv.itoa n.natAbs).length ≤ elm.Length) :
    utils.ToString elm (some (.int n))
      = List.replicate (elm.Length - (strconv.itoa n.natAbs).length) 48
          ++ strconv.itoa n.natAbs := by
  have hneg : ¬ n < 0 := by omega
  have hasc : ∀ c ∈ List.replicate (elm.Length - (strconv.itoa n.natAbs).length) 48
      ++ strconv.itoa n.natAbs, c < 128 := by
    intro c hc
    rcases List.mem_append.mp hc with h | h
    · rw [List.eq_of_mem_replicate h]; decide
    · have := itoa_digits _ c h; omega
  simp only [utils.ToString, if_neg hexp, ht, fmt.sprintfD, hwid, Bool.not_true,
    Bool.false_eq_true, if_false, fmt.fmtInteger, if_true, hneg, fmt.pad,
    runeCount_ascii _ hasc, List.length_append, List.length_replicate]
  have : elm.Length - (elm.Length - (strconv.itoa n.natAbs).length
      + (strconv.itoa n.natAbs).length) = 0 := by omega
  rw [this]
  rfl

theorem parseInt_digits (c : Nat) (rest : Bytes)
    (hd : ∀ x ∈ c :: rest, strconv.isDigit x = true)
    (hlt : strconv.decVal 0 (c :: rest) < 2 ^ 63) :
    strconv.ParseInt (c :: rest) = .ok (strconv.decVal 0 (c :: rest) : Int) := by
  have hc := (isDigit_iff c).mp (hd c (List.mem_cons_self _ _))
  have h43 : (c == 43) = false := by simp; omega
  have h45 : (c == 45) = false := by simp; omega
  have hparse := parseUintFrom_of_digits (c :: rest) 0 hd (by omega)
  simp only [strconv.ParseInt, h43, h45, Bool.false_eq_true, or_self, if_false,
    strconv.ParseUint, hparse, Bool.not_false, true_and, false_and]
  rw [if_neg (by omega)]

/-- A value that fits a field passes the field's validation once encoded, and decodes to
itself. -/
theorem encode_decode_field (fieldName : String) (elm : SpecField) (v v0 : Value)
    (hexp : elm.Required ≠ Requirement.Expandable) (hwid : fmt.widthParses elm.Length = true)
    (hfit : utils.fitsField elm v = true) (hkind : utils.sameKind v0 v = true)
    (hreq : ¬ (elm.Required = Requirement.Required ∧ v.IsZero = true)) :
    utils.isValidType fieldName elm (utils.ToString elm (some v)) = none
    ∧ utils.parseValue elm v0 (utils.ToString elm (some v)) = .done (v, none) := by
  cases ht : elm.Typ <;> cases v <;> simp only [utils.fitsField, ht] at hfit <;>
    first
    | exact absurd hfit (by decide)
    | skip
  · -- left-justified text
    rename_i s
    simp only [Bool.and_eq_true, decide_eq_true_eq, List.all_eq_true] at hfit
    obtain ⟨⟨hlen, hclass⟩, hlast⟩ := hfit
    have hasc : ∀ c ∈ s, c < 128 := fun c hc => class_ascii c (hclass c hc)
    rw [toString_text elm s hexp hwid ht hasc]
    cases v0 with
    | int _ => simp [utils.sameKind] at hkind
    | str s0 =>
      have htrim := trimRight_of_last s hlast (elm.Length - s.length)
      refine ⟨?_, by simp only [utils.parseValue, ht, htrim]⟩
      by_cases hs : s = []
      · subst hs
        have hblank : utils.isBlank ([] ++ List.replicate (elm.Length - ([] : Bytes).length) 32)
            = true := by
          rw [isBlank_iff]
          intro c hc
          simp only [List.nil_append] at hc
          exact List.eq_of_mem_replicate hc
        have hnr : elm.Required ≠ Requirement.Required := by
          intro h
          exact hreq ⟨h, by simp [Value.IsZero]⟩
        simp only [utils.isValidType, hblank, and_true, hnr, if_false, if_true]
      · have hnb : utils.isBlank (s ++ List.replicate (elm.Length - s.length) 32) = false := by
          cases hb : utils.isBlank (s ++ List.replicate (elm.Length - s.length) 32) with
          | false => rfl
          | true =>
            rw [isBlank_iff] at hb
            exfalso
            apply hlast
            rw [List.getLast?_eq_getLast _ hs]
            congr 1
            exact hb _ (List.mem_append_left _ (List.getLast_mem hs))
        have hall : utils.upperAlphanumericRegexMatch
            (s ++ List.replicate (elm.Length - s.length) 32) = false := by
          simp only [utils.upperAlphanumericRegexMatch, List.any_eq_false, Bool.not_eq_true',
            Bool.not_eq_false]
          intro c hc
          rcases List.mem_append.mp hc with h | h
          · exact hclass c h
          · rw [List.eq_of_mem_replicate h]; decide
        simp only [utils.isValidType, hnb, Bool.false_eq_true, and_false, if_false, ht,
          utils.isAlphanumeric, hall]
  · -- zero-filled number
    rename_i n
    simp only [Bool.and_eq_true, decide_eq_true_eq] at hfit
    obtain ⟨⟨hn, hlen⟩, hmax⟩ := hfit
    rw [toString_zero elm n hexp hwid ht hn hlen]
    cases v0 with
    | str _ => simp [utils.sameKind] at hkind
    | int n0 =>
      generalize hdata : List.replicate (elm.Length - (strconv.itoa n.natAbs).length) 48
        ++ strconv.itoa n.natAbs = data
      have hdig : ∀ c ∈ data, strconv.isDigit c = true := by
        intro c hc
        rw [← hdata] at hc
        rw [isDigit_iff]
        rcases List.mem_append.mp hc with h | h
        · rw [List.eq_of_mem_replicate h]; decide
        · exact itoa_digits _ c h
      have hne : data ≠ [] := by
        rw [← hdata]
        intro h
        exact itoa_ne_nil _ (List.append_eq_nil.mp h).2
      have hval : strconv.decVal 0 data = n.natAbs := by
        rw [← hdata, decVal_zeros, decVal_itoa]
      have hnb : utils.isBlank data = false := by
        cases hb : utils.isBlank data with
        | false => rfl
        | true =>
          rw [isBlank_iff] at hb
          obtain ⟨c, hc⟩ := List.exists_mem_of_ne_nil data hne
          have h1 := hb c hc
          have h2 := (isDigit_iff c).mp (hdig c hc)
          omega
      have htrim : strings.TrimRight data = data := by
        have := trimRight_of_last data (by
          rw [List.getLast?_eq_getLast _ hne]
          intro h
          have h1 := (isDigit_iff _).mp (hdig _ (List.getLast_mem hne))
          have h2 := Option.some.inj h
          omega) 0
        simpa using this
      have hnum : utils.numericRegexMatch data = true := by
        simp only [utils.numericRegexMatch, Bool.and_eq_true, Bool.not_eq_true',
          List.isEmpty_eq_false, List.all_eq_true]
        exact ⟨hne, hdig⟩
      obtain ⟨c, rest, hcr⟩ : ∃ c rest, data = c :: rest := by
        cases data with
        | nil => exact absurd rfl hne
        | cons c rest => exact ⟨c, rest, rfl⟩
      have hpi : strconv.ParseInt data = .ok n := by
        rw [hcr]
        rw [hcr] at hdig hval
        rw [parseInt_digits c rest hdig (by rw [hval]; omega), hval]
        congr 1
        omega
      refine ⟨?_, by simp only [utils.parseValue, ht, hpi]⟩
      simp only [utils.isValidType, hnb, Bool.false_eq_true, and_false, if_false, ht,
        utils.isNumeric, htrim, hnum, Bool.not_true]

/-! ## Round trip: encode, then decode -/

theorem parseValue_fields {upper : Nat → Bool} (layout : Layout) (a : Bytes) (fs0 : utils.Fields) :
    ∀ (fs : utils.Fields), utils.sameShape fs0 fs = true →
    (∀ f ∈ fs, utils.isExported upper f.1 = true ∧ ∃ elm, layout.lookup f.1 = some elm
      ∧ elm.Start + elm.Length ≤ a.length
      ∧ utils.isValidType f.1 elm (utils.span a elm) = none
      ∧ ∀ v0, utils.sameKind v0 f.2 = true →
          utils.parseValue elm v0 (utils.span a elm) = .done (f.2, none)) →
    utils.ParseValue upper fs0 layout a = .done (fs, none) := by
  induction fs0 with
  | nil =>
    intro fs hshape _
    cases fs with
    | nil => rfl
    | cons f rest => simp [utils.sameShape] at hshape
  | cons f0 rest0 ih =>
    intro fs hshape hall
    obtain ⟨n0, v0⟩ := f0
    cases fs with
    | nil => simp [utils.sameShape] at hshape
    | cons f rest =>
      obtain ⟨n1, v1⟩ := f
      simp only [utils.sameShape, Bool.and_eq_true, decide_eq_true_eq] at hshape
      obtain ⟨⟨hname, hkind⟩, hrest⟩ := hshape
      subst hname
      obtain ⟨hexp, elm, hlook, hlen, hvalid, hparse⟩ := hall (n0, v1) (List.mem_cons_self _ _)
      have htail := ih rest hrest (fun f hf => hall f (List.mem_cons_of_mem _ hf))
      have hspan : List.take elm.Length (List.drop elm.Start a) = utils.span a elm := rfl
      simp only at hexp hlook hvalid hparse
      rw [utils.ParseValue]
      simp only [hexp, Bool.not_true, Bool.false_eq_true, if_false, hlook, hspan, hvalid,
        hparse v0 hkind, htail]
      rw [if_neg (by omega)]

theorem flatten_length_tiled (f : String × SpecField → Bytes) (layout : Layout) :
    ∀ (start stop : Nat), utils.tiles start layout stop = true →
    (∀ x ∈ layout, (f x).length = x.2.Length) →
      ((layout.map f).flatten).length = stop - start := by
  induction layout with
  | nil =>
    intro start stop h _
    simp only [utils.tiles, beq_iff_eq] at h
    simp [h]
  | cons hd rest ih =>
    intro start stop h hlen
    simp only [utils.tiles, Bool.and_eq_true, beq_iff_eq] at h
    have hle := tiles_le rest _ _ h.2
    rw [List.map_cons, List.flatten_cons, List.length_append,
      ih _ _ h.2 (fun x hx => hlen x (List.mem_cons_of_mem _ hx)),
      hlen hd (List.mem_cons_self _ _)]
    omega

/-- Round trip of a record over its layout: when the layout covers the record, the
stored values fit their fields and validation passes, decoding the encoded record into
any value of the same struct type gives the record back, without error. -/
theorem record_round_trip {upper : Nat → Bool} (layout : Layout) (recordLength : Nat) (fields fields0 : utils.Fields)
    (methods : utils.Methods)
    (hcov : utils.covers layout recordLength = true)
    (hfit : utils.fits upper layout fields = true)
    (hnd : (fields.map Prod.fst).Nodup)
    (hshape : utils.sameShape fields0 fields = true)
    (hval : utils.Validate fields methods layout = none) :
    utils.recordParse upper recordLength layout fields0 (utils.recordAscii layout fields)
      = .done (fields, none) := by
  simp only [utils.covers, Bool.and_eq_true, decide_eq_true_eq, List.all_eq_true] at hcov
  obtain ⟨⟨htiles, hkeys⟩, hentries⟩ := hcov
  have hfield : ∀ f ∈ fields, utils.isExported upper f.1 = true
      ∧ ∃ elm, layout.lookup f.1 = some elm ∧ utils.fitsField elm f.2 = true := by
    intro f hf
    have := (List.all_eq_true.mp hfit) f hf
    simp only [Bool.and_eq_true] at this
    refine ⟨this.1, ?_⟩
    cases hl : layout.lookup f.1 with
    | none => rw [hl] at this; exact absurd this.2 (by simp)
    | some elm => rw [hl] at this; exact ⟨elm, rfl, this.2⟩
  have hnofail := (validate_none_iff fields methods layout).mp hval
  have hreq : ∀ f ∈ fields, ∀ elm, layout.lookup f.1 = some elm →
      ¬ (elm.Required = Requirement.Required ∧ f.2.IsZero = true) := by
    intro f hf elm hl hboth
    have h1 := hnofail f hf
    simp only [utils.fieldFailure, utils.requiredAndZero, hl, hboth.1, hboth.2, decide_True,
      Bool.and_self, if_true] at h1
    exact absurd h1 (by simp)
  -- the piece written for each layout entry
  have hpiece : ∀ e ∈ layout,
      (utils.ToString e.2 (fields.lookup e.1)).length = e.2.Length
      ∧ ∀ c ∈ utils.ToString e.2 (fields.lookup e.1), c < 128 := by
    intro e he
    have hent := hentries e he
    simp only [Bool.and_eq_true, decide_eq_true_eq] at hent
    obtain ⟨hexp, hwid⟩ := hent
    cases hl : fields.lookup e.1 with
    | none =>
      simp only [utils.ToString, if_neg hexp, utils.fillString, strings.Repeat]
      split
      · exact ⟨by simp, fun c hc => by rw [List.eq_of_mem_replicate hc]; decide⟩
      · exact ⟨by simp, fun c hc => by rw [List.eq_of_mem_replicate hc]; decide⟩
    | some v =>
      obtain ⟨hexported, elm, hlook, hfitv⟩ := hfield (e.1, v) (lookup_mem fields e.1 v hl)
      have helm : elm = e.2 := by
        have := lookup_of_mem layout e.1 e.2 hkeys he
        simp only at hlook
        rw [this] at hlook
        exact (Option.some.inj hlook).symm
      subst helm
      simp only at hfitv
      cases ht : e.2.Typ <;> cases v <;> simp only [utils.fitsField, ht] at hfitv <;>
        first
        | exact absurd hfitv (by decide)
        | skip
      · rename_i s
        simp only [Bool.and_eq_true, decide_eq_true_eq, List.all_eq_true] at hfitv
        obtain ⟨⟨hlen, hclass⟩, _⟩ := hfitv
        have hasc : ∀ c ∈ s, c < 128 := fun c hc => class_ascii c (hclass c hc)
        rw [toString_text e.2 s hexp hwid ht hasc]
        refine ⟨by simp only [List.length_append, List.length_replicate]; omega, ?_⟩
        intro c hc
        rcases List.mem_append.mp hc with h | h
        · exact hasc c h
        · rw [List.eq_of_mem_replicate h]; decide
      · rename_i n
        simp only [Bool.and_eq_true, decide_eq_true_eq] at hfitv
        obtain ⟨⟨hn, hlen⟩, _⟩ := hfitv
        rw [toString_zero e.2 n hexp hwid ht hn hlen]
        refine ⟨by simp only [List.length_append, List.length_replicate]; omega, ?_⟩
        intro c hc
        rcases List.mem_append.mp hc with h | h
        · rw [List.eq_of_mem_replicate h]; decide
        · have := itoa_digits _ c h; omega
  have hflat := recordAscii_eq_flatten layout fields
  generalize hbuf : utils.recordAscii layout fields = a at hflat ⊢
  have halen : a.length = recordLength := by
    rw [hflat, flatten_length_tiled _ layout 0 recordLength htiles (fun e he => (hpiece e he).1)]
    omega
  have hascii : ∀ c ∈ a, c < 128 := by
    intro c hc
    rw [hflat, List.mem_flatten] at hc
    obtain ⟨piece, hp, hcp⟩ := hc
    obtain ⟨e, he, hep⟩ := List.mem_map.mp hp
    rw [← hep] at hcp
    exact (hpiece e he).2 c hcp
  have hrune : utf8.RuneCountInString a = recordLength := by
    rw [runeCount_ascii a hascii, halen]
  simp only [utils.recordParse, hrune, ne_eq, not_true_eq_false, if_false]
  apply parseValue_fields layout a fields0 fields hshape
  intro f hf
  obtain ⟨hexported, elm, hlook, hfitv⟩ := hfield f hf
  have hmem : (f.1, elm) ∈ layout := lookup_mem layout f.1 elm hlook
  have hent := hentries (f.1, elm) hmem
  simp only [Bool.and_eq_true, decide_eq_true_eq] at hent
  obtain ⟨hexp, hwid⟩ := hent
  have hbounds := tiles_start_le layout 0 recordLength (f.1, elm) htiles hmem
  have hspan : utils.span a elm = utils.ToString elm (some f.2) := by
    have h1 := piece_of_tiled (fun e => utils.ToString e.2 (fields.lookup e.1)) layout 0
      recordLength (f.1, elm) htiles (fun e he => (hpiece e he).1) hmem
    simp only [Nat.sub_zero] at h1
    rw [← hflat] at h1
    rw [utils.span, h1]
    have hlf : fields.lookup f.1 = some f.2 := lookup_of_mem fields f.1 f.2 hnd hf
    simp only [hlf]
  refine ⟨hexported, elm, hlook, by rw [halen]; exact hbounds.2, ?_, ?_⟩
  · rw [hspan]
    exact (encode_decode_field f.1 elm f.2 f.2 hexp hwid hfitv
      (by cases f.2 <;> rfl) (hreq f hf elm hlook)).1
  · intro v0 hk
    rw [hspan]
    exact (encode_decode_field f.1 elm f.2 v0 hexp hwid hfitv hk (hreq f hf elm hlook)).2

/-- C1 (as amended): for every `Sub1099OID` record `r` for which `Validate()` returns
nil and whose values fit their fields (each string has at most `Length` characters, all
of the upper-case alphanumeric class, without a trailing blank, in a left-justified
`Alphanumeric` field; each int is not negative, has at most `Length` digits, in a
`ZeroNumeric` field), and every layout that covers the record, `Parse(r.Ascii())`
returns no error and yields a record equal to `r` field for field. -/
theorem sub1099oid_round_trip (upper : Nat → Bool) (cfg : subrecords.Config) (r r0 : subrecords.Sub1099OID)
    (hcov : utils.covers cfg.Sub1099OIDLayout cfg.SubRecordLength = true)
    (hfit : utils.fits upper cfg.Sub1099OIDLayout r.fields = true)
    (hval : subrecords.Sub1099OID.Validate cfg r = none) :
    subrecords.Sub1099OID.Parse upper cfg r0 (subrecords.Sub1099OID.Ascii cfg r)
      = .done (r, none) := by
  have h := record_round_trip cfg.Sub1099OIDLayout cfg.SubRecordLength r.fields r0.fields
    (subrecords.Sub1099OID.methods cfg r) hcov hfit
    (by simp only [subrecords.Sub1099OID.fields, List.map_cons, List.map_nil]; decide) rfl hval
  rw [sub1099oid_ascii_eq]
  simp only [utils.recordParse] at h
  simp only [subrecords.Sub1099OID.Parse]
  split at h
  · exact absurd h (by simp [subrecords.Sub1099OID.fields])
  · rename_i hrune
    rw [if_neg hrune, h]
    rfl

set_option maxRecDepth 100000 in
/-- C1 witness: the sample record under the sample layout. -/
theorem sub1099oid_round_trip_witness :
    subrecords.Sub1099OID.Validate sample.oidConfig sample.oidGood = none
    ∧ subrecords.Sub1099OID.Parse sample.upper sample.oidConfig sample.oidEmpty
        (subrecords.Sub1099OID.Ascii sample.oidConfig sample.oidGood)
      = .done (sample.oidGood, none) :=
  ⟨by decide, sub1099oid_round_trip sample.upper sample.oidConfig sample.oidGood sample.oidEmpty
    (by decide) (by decide) (by decide)⟩

set_option maxRecDepth 100000 in
/-- C1 counterexample: a record whose description is in lower case passes `Validate`,
and `Parse` of its `Ascii()` returns `ErrNonAlphanumeric`. -/
theorem sub1099oid_round_trip_counterexample :
    subrecords.Sub1099OID.Validate sample.oidConfig sample.oidLower = none
    ∧ subrecords.Sub1099OID.Parse sample.upper sample.oidConfig sample.oidEmpty
        (subrecords.Sub1099OID.Ascii sample.oidConfig sample.oidLower)
      = .done (sample.oidEmpty, some Err.ErrNonAlphanumeric) := by
  decide

/-! ## Round trip: decode, then encode -/

theorem zero_pad_decVal (data : Bytes) (hd : ∀ x ∈ data, strconv.isDigit x = true)
    (hne : data ≠ []) :
    (strconv.itoa (strconv.decVal 0 data)).length ≤ data.length
    ∧ List.replicate (data.length - (strconv.itoa (strconv.decVal 0 data)).length) 48
        ++ strconv.itoa (strconv.decVal 0 data) = data := by
  induction data with
  | nil => exact absurd rfl hne
  | cons c rest ih =>
    by_cases hc : c = 48
    · subst hc
      have hval : strconv.decVal 0 (48 :: rest) = strconv.decVal 0 rest := rfl
      rw [hval]
      by_cases hr : rest = []
      · subst hr
        exact ⟨by decide, by decide⟩
      · obtain ⟨h1, h2⟩ := ih (fun x hx => hd x (List.mem_cons_of_mem _ hx)) hr
        refine ⟨by simp only [List.length_cons]; omega, ?_⟩
        have : (48 :: rest).length - (strconv.itoa (strconv.decVal 0 rest)).length
            = (rest.length - (strconv.itoa (strconv.decVal 0 rest)).length) + 1 := by
          simp only [List.length_cons]; omega
        rw [this, List.replicate_succ, List.cons_append, h2]
    · rw [itoa_decVal c rest hd hc]
      simp

theorem parseInt_of_digit_head (c : Nat) (rest : Bytes) (n : Int)
    (hc : strconv.isDigit c = true) (h : strconv.ParseInt (c :: rest) = .ok n) :
    (∀ x ∈ c :: rest, strconv.isDigit x = true) ∧ n = (strconv.decVal 0 (c :: rest) : Int) := by
  have hc' := (isDigit_iff c).mp hc
  have h43 : (c == 43) = false := by simp; omega
  have h45 : (c == 45) = false := by simp; omega
  simp only [strconv.ParseInt, h43, h45, Bool.false_eq_true, or_self, if_false,
    strconv.ParseUint, Bool.not_false, true_and, false_and] at h
  cases hp : strconv.parseUintFrom 0 (c :: rest) with
  | error e => rw [hp] at h; exact absurd h (by simp)
  | ok un =>
    rw [hp] at h
    obtain ⟨hd, hun⟩ := parseUintFrom_ok _ _ _ hp
    refine ⟨hd, ?_⟩
    simp only at h
    split at h
    · exact absurd h (by simp)
    · rw [← hun]
      exact (Except.ok.inj h).symm

theorem parseInt_blank (data : Bytes) (n : Int) (hb : utils.isBlank data = true) :
    strconv.ParseInt data ≠ .ok n := by
  rw [isBlank_iff] at hb
  cases data with
  | nil => simp [strconv.ParseInt]
  | cons c rest =>
    have hc : c = 32 := hb c (List.mem_cons_self _ _)
    subst hc
    simp [strconv.ParseInt, strconv.ParseUint, strconv.parseUintFrom, strconv.isDigit]

theorem numeric_head (c : Nat) (rest : Bytes) (h : utils.isNumeric (c :: rest) = none) :
    strconv.isDigit c = true := by
  simp only [utils.isNumeric, utils.numericRegexMatch] at h
  have hm : (!(strings.TrimRight (c :: rest)).isEmpty
      && (strings.TrimRight (c :: rest)).all strconv.isDigit) = true := by
    cases hx : (!(strings.TrimRight (c :: rest)).isEmpty
      && (strings.TrimRight (c :: rest)).all strconv.isDigit) with
    | true => rfl
    | false => simp [hx] at h
  simp only [Bool.and_eq_true, Bool.not_eq_true', List.isEmpty_eq_false,
    List.all_eq_true] at hm
  have happ := trimRight_append_blanks (c :: rest)
  cases ht : strings.TrimRight (c :: rest) with
  | nil => exact absurd ht hm.1
  | cons t ts =>
    rw [ht] at happ hm
    have : t = c := by
      simp only [List.cons_append] at happ
      exact (List.cons.inj happ).1
    rw [← this]
    exact hm.2 t (List.mem_cons_self _ _)

theorem year_of_length_four (data : Bytes) (h : utils.yearRegexMatch data = true)
    (hlen : data.length = 4) :
    ∃ c rest, data = c :: rest ∧ c ≠ 48 ∧ ∀ x ∈ c :: rest, strconv.isDigit x = true := by
  match data, hlen with
  | [a, b, c, d], _ =>
    simp only [utils.yearRegexMatch, List.tails, List.any_cons, List.any_nil, utils.yearAtHead,
      Bool.or_false, Bool.or_eq_true, Bool.and_eq_true, beq_iff_eq] at h
    obtain ⟨⟨hab, hc⟩, hd⟩ := h
    refine ⟨a, [b, c, d], rfl, by omega, ?_⟩
    intro x hx
    simp only [List.mem_cons, List.mem_singleton, List.not_mem_nil, or_false] at hx
    rcases hx with hx | hx | hx | hx
    · subst hx; rw [isDigit_iff]; omega
    · subst hx; rw [isDigit_iff]; omega
    · subst hx; exact hc
    · subst hx; exact hd

/-- A field that `ParseValue` accepts and decodes is written back by `ToString` as the
bytes it was read from, unless it is right-aligned text or a year that is not four
positions long. -/
theorem decode_encode_field (fieldName : String) (elm : SpecField) (v0 v : Value)
    (data : Bytes)
    (hexp : elm.Required ≠ Requirement.Expandable) (hwid : fmt.widthParses elm.Length = true)
    (hre : utils.rewrites elm = true)
    (hlen : data.length = elm.Length) (hascii : ∀ c ∈ data, c < 128)
    (hvalid : utils.isValidType fieldName elm data = none)
    (hparse : utils.parseValue elm v0 data = .done (v, none)) :
    utils.ToString elm (some v) = data := by
  simp only [utils.rewrites, Bool.and_eq_true, decide_eq_true_eq] at hre
  obtain ⟨hnra, hyear⟩ := hre
  have htext : ∀ (t : Bytes), t = strings.TrimRight data →
      fmt.pad elm.Length false true t = data := by
    intro t ht
    have happ := trimRight_append_blanks data
    rw [← ht] at happ
    have hta : ∀ c ∈ t, c < 128 := by
      intro c hc
      apply hascii
      rw [← happ]
      exact List.mem_append_left _ hc
    simp only [fmt.pad, if_true, runeCount_ascii t hta, ← hlen]
    exact happ
  have hnum : ∀ (n : Int), strconv.ParseInt data = .ok n →
      (utils.isBlank data = false → ∃ c rest, data = c :: rest ∧ strconv.isDigit c = true) →
      (∀ x ∈ data, strconv.isDigit x = true) ∧ data ≠ []
        ∧ n = (strconv.decVal 0 data : Int) := by
    intro n hpi hhead
    have hnb : utils.isBlank data = false := by
      cases hb : utils.isBlank data with
      | false => rfl
      | true => exact absurd hpi (parseInt_blank data n hb)
    obtain ⟨c, rest, hcr, hc⟩ := hhead hnb
    subst hcr
    obtain ⟨h1, h2⟩ := parseInt_of_digit_head c rest n hc hpi
    exact ⟨h1, by simp, h2⟩
  cases ht : elm.Typ with
  | AlphanumericRightAlign => exact absurd ht hnra
  | Alphanumeric =>
    cases v0 <;> simp only [utils.parseValue, ht, reduceCtorEq] at hparse
    obtain ⟨hv, _⟩ := Prod.mk.inj (utils.Outcome.done.inj hparse)
    subst hv
    simp only [utils.ToString, if_neg hexp, ht, fmt.sprintfS, hwid, Bool.not_true,
      Bool.false_eq_true, if_false]
    exact htext _ rfl
  | Numeric =>
    cases v0 <;> simp only [utils.parseValue, ht, reduceCtorEq] at hparse
    obtain ⟨hv, _⟩ := Prod.mk.inj (utils.Outcome.done.inj hparse)
    subst hv
    simp only [utils.ToString, if_neg hexp, ht, fmt.sprintfS, hwid, Bool.not_true,
      Bool.false_eq_true, if_false]
    exact htext _ rfl
  | TelephoneNumber =>
    cases v0 <;> simp only [utils.parseValue, ht, reduceCtorEq] at hparse
    obtain ⟨hv, _⟩ := Prod.mk.inj (utils.Outcome.done.inj hparse)
    subst hv
    simp only [utils.ToString, if_neg hexp, ht, fmt.sprintfS, hwid, Bool.not_true,
      Bool.false_eq_true, if_false]
    exact htext _ rfl
  | Email =>
    cases v0 <;> simp only [utils.parseValue, ht, reduceCtorEq] at hparse
    obtain ⟨hv, _⟩ := Prod.mk.inj (utils.Outcome.done.inj hparse)
    subst hv
    simp only [utils.ToString, if_neg hexp, ht, fmt.sprintfS, hwid, Bool.not_true,
      Bool.false_eq_true, if_false]
    exact htext _ rfl
  | other code =>
    simp only [utils.parseValue, ht] at hparse
    exact absurd (Prod.mk.inj (utils.Outcome.done.inj hparse)).2 (by simp)
  | ZeroNumeric =>
    simp only [utils.parseValue, ht] at hparse
    cases hpi : strconv.ParseInt data with
    | error e =>
      rw [hpi] at hparse
      exact absurd (Prod.mk.inj (utils.Outcome.done.inj hparse)).2 (by simp)
    | ok n =>
      rw [hpi] at hparse
      cases v0 <;> simp only [reduceCtorEq] at hparse
      obtain ⟨hv, _⟩ := Prod.mk.inj (utils.Outcome.done.inj hparse)
      subst hv
      obtain ⟨hdig, hne, hn⟩ := hnum n hpi (by
        intro hnb
        cases data with
        | nil => simp [utils.isBlank] at hnb
        | cons c rest =>
          refine ⟨c, rest, rfl, numeric_head c rest ?_⟩
          simp only [utils.isValidType, hnb, Bool.false_eq_true, and_false, if_false, ht]
            at hvalid
          exact hvalid)
      obtain ⟨hle, hpad⟩ := zero_pad_decVal data hdig hne
      have hnat : n.natAbs = strconv.decVal 0 data := by omega
      rw [toString_zero elm n hexp hwid ht (by omega) (by rw [hnat, ← hlen]; exact hle),
        hnat, ← hlen]
      exact hpad
  | DateYear =>
    have hl4 : data.length = 4 := by rw [hlen]; exact hyear ht
    simp only [utils.parseValue, ht] at hparse
    cases hpi : strconv.ParseInt data with
    | error e =>
      rw [hpi] at hparse
      exact absurd (Prod.mk.inj (utils.Outcome.done.inj hparse)).2 (by simp)
    | ok n =>
      rw [hpi] at hparse
      cases v0 <;> simp only [reduceCtorEq] at hparse
      obtain ⟨hv, _⟩ := Prod.mk.inj (utils.Outcome.done.inj hparse)
      subst hv
      have hnb : utils.isBlank data = false := by
        cases hb : utils.isBlank data with
        | false => rfl
        | true => exact absurd hpi (parseInt_blank data n hb)
      have hym : utils.yearRegexMatch data = true := by
        simp only [utils.isValidType, hnb, Bool.false_eq_true, and_false, if_false, ht,
          utils.isDateYear] at hvalid
        cases hy : utils.yearRegexMatch data with
        | true => rfl
        | false => rw [hy] at hvalid; simp at hvalid
      obtain ⟨c, rest, hcr, hc48, hdig⟩ := year_of_length_four data hym hl4
      subst hcr
      obtain ⟨_, hn⟩ := parseInt_of_digit_head c rest n (hdig c (List.mem_cons_self _ _)) hpi
      have hitoa := itoa_decVal c rest hdig hc48
      have hnat : n.natAbs = strconv.decVal 0 (c :: rest) := by omega
      have hneg : ¬ n < 0 := by omega
      simp only [utils.ToString, if_neg hexp, ht, fmt.sprintfD, hwid, Bool.not_true,
        Bool.false_eq_true, if_false, fmt.fmtInteger, hneg, hnat, hitoa, Nat.zero_sub,
        List.replicate_zero, List.nil_append, fmt.pad, if_true,
        runeCount_ascii _ hascii, hlen, Nat.sub_self, List.append_nil]
theorem parseValue_inv {upper : Nat → Bool} (layout : Layout) (a : Bytes) (fields : utils.Fields) :
    ∀ (fields1 : utils.Fields),
    (∀ f ∈ fields, utils.isExported upper f.1 = true) →
    utils.ParseValue upper fields layout a = .done (fields1, none) →
    ∀ name : String,
      (fields.lookup name = none → fields1.lookup name = none)
      ∧ (∀ v0, fields.lookup name = some v0 →
          ∃ elm v, layout.lookup name = some elm ∧ elm.Start + elm.Length ≤ a.length
            ∧ utils.isValidType name elm (utils.span a elm) = none
            ∧ utils.parseValue elm v0 (utils.span a elm) = .done (v, none)
            ∧ fields1.lookup name = some v) := by
  induction fields with
  | nil =>
    intro fields1 _ h name
    simp only [utils.ParseValue, utils.Outcome.done.injEq, Prod.mk.injEq, and_true] at h
    subst h
    simp
  | cons f rest ih =>
    intro fields1 hexp h name
    obtain ⟨n0, v0⟩ := f
    have hex : utils.isExported upper n0 = true := hexp (n0, v0) (List.mem_cons_self _ _)
    have hexr : ∀ f ∈ rest, utils.isExported upper f.1 = true :=
      fun f hf => hexp f (List.mem_cons_of_mem _ hf)
    rw [utils.ParseValue] at h
    simp only [hex, Bool.not_true, Bool.false_eq_true, if_false] at h
    cases hl : layout.lookup n0 with
    | none =>
      rw [hl] at h
      exact absurd (Prod.mk.inj (utils.Outcome.done.inj h)).2 (by simp)
    | some elm =>
      rw [hl] at h
      simp only at h
      by_cases hshort : a.length < elm.Start + elm.Length
      · rw [if_pos hshort] at h
        exact absurd (Prod.mk.inj (utils.Outcome.done.inj h)).2 (by simp)
      · rw [if_neg hshort] at h
        have hspan : List.take elm.Length (List.drop elm.Start a) = utils.span a elm := rfl
        rw [hspan] at h
        cases hv : utils.isValidType n0 elm (utils.span a elm) with
        | some e =>
          rw [hv] at h
          exact absurd (Prod.mk.inj (utils.Outcome.done.inj h)).2 (by simp)
        | none =>
          rw [hv] at h
          simp only at h
          cases hp : utils.parseValue elm v0 (utils.span a elm) with
          | panic => rw [hp] at h; exact absurd h (by simp)
          | done res =>
            obtain ⟨v1, err⟩ := res
            rw [hp] at h
            cases err with
            | some e => exact absurd (Prod.mk.inj (utils.Outcome.done.inj h)).2 (by simp)
            | none =>
              simp only at h
              cases hr : utils.ParseValue upper rest layout a with
              | panic => rw [hr] at h; exact absurd h (by simp)
              | done res1 =>
                obtain ⟨rest1, err1⟩ := res1
                rw [hr] at h
                simp only [utils.Outcome.done.injEq, Prod.mk.injEq] at h
                obtain ⟨hf1, herr⟩ := h
                subst hf1 herr
                have hrec := ih rest1 hexr hr name
                by_cases hname : name = n0
                · subst hname
                  refine ⟨by simp, ?_⟩
                  intro w hw
                  simp only [List.lookup_cons_self, Option.some.injEq] at hw
                  subst hw
                  exact ⟨elm, v1, hl, by omega, hv, hp, by simp⟩
                · have hb : (name == n0) = false := by simpa using hname
                  simp only [List.lookup_cons, hb]
                  exact hrec

/-- C2 (as amended): for every ASCII buffer `a` that a record's `Parse` accepts, `Ascii()`
of the parsed record equals `a` byte for byte, provided the layout covers the record,
the struct's fields are exported, no field is right-aligned text or a year of other
than four positions, and `a` holds the fill bytes at the layout entries that have no
struct field (blanks, or zeros for a `ZeroNumeric` entry). -/
theorem record_ascii_of_parse (upper : Nat → Bool) (layout : Layout) (recordLength : Nat)
    (fields fields1 : utils.Fields) (a : Bytes)
    (hcov : utils.covers layout recordLength = true)
    (hexp : fields.all (fun f => utils.isExported upper f.1) = true)
    (hre : utils.reencodes layout fields a = true)
    (hascii : ∀ c ∈ a, c < 128)
    (hparse : utils.recordParse upper recordLength layout fields a = .done (fields1, none)) :
    utils.recordAscii layout fields1 = a := by
  simp only [utils.covers, Bool.and_eq_true, decide_eq_true_eq, List.all_eq_true] at hcov
  obtain ⟨⟨htiles, hkeys⟩, hentries⟩ := hcov
  simp only [utils.recordParse] at hparse
  by_cases hrune : utf8.RuneCountInString a = recordLength
  · rw [if_neg (by simpa using hrune)] at hparse
    have halen : a.length = recordLength := by rw [← runeCount_ascii a hascii, hrune]
    have hinv := parseValue_inv layout a fields fields1
      (fun f hf => (List.all_eq_true.mp hexp) f hf) hparse
    have hpieces : ∀ e ∈ layout,
        utils.ToString e.2 (fields1.lookup e.1) = utils.span a e.2 := by
      intro e he
      have hent := hentries e he
      simp only [Bool.and_eq_true, decide_eq_true_eq] at hent
      obtain ⟨hnexp, hwid⟩ := hent
      have hree := (List.all_eq_true.mp hre) e he
      obtain ⟨hnone, hsome⟩ := hinv e.1
      cases hl : fields.lookup e.1 with
      | none =>
        rw [hl] at hree
        simp only [decide_eq_true_eq] at hree
        rw [hnone hl, hree]
        simp only [utils.ToString, if_neg hnexp]
      | some v0 =>
        rw [hl] at hree
        simp only at hree
        obtain ⟨elm, v, hlook, hbound, hvalid, hpv, hl1⟩ := hsome v0 hl
        have helm : elm = e.2 := by
          have := lookup_of_mem layout e.1 e.2 hkeys he
          rw [this] at hlook
          exact (Option.some.inj hlook).symm
        subst helm
        rw [hl1]
        have hslen : (utils.span a e.2).length = e.2.Length := by
          simp only [utils.span, List.length_take, List.length_drop]
          omega
        have hsasc : ∀ c ∈ utils.span a e.2, c < 128 := by
          intro c hc
          exact hascii c (List.mem_of_mem_drop (List.mem_of_mem_take hc))
        exact decode_encode_field e.1 e.2 v0 v _ hnexp hwid hree hslen hsasc hvalid hpv
    rw [recordAscii_eq_flatten]
    have hmap : layout.map (fun e => utils.ToString e.2 (fields1.lookup e.1))
        = layout.map (fun e => utils.span a e.2) :=
      List.map_congr_left hpieces
    rw [hmap, spans_flatten a layout 0 recordLength htiles, List.drop_zero, Nat.sub_zero,
      ← halen, List.take_length]
  · rw [if_pos (by simpa using hrune)] at hparse
    exact absurd (Prod.mk.inj (utils.Outcome.done.inj hparse)).2 (by simp)

set_option maxRecDepth 100000 in
/-- C2 witness: the 207 bytes of the sample record, parsed into a fresh struct. -/
theorem record_ascii_of_parse_witness :
    utils.recordParse sample.upper 207 sample.oidLayout sample.oidEmpty.fields sample.oidAscii
      = .done (sample.oidGood.fields, none)
    ∧ utils.recordAscii sample.oidLayout sample.oidGood.fields = sample.oidAscii :=
  ⟨by decide, record_ascii_of_parse sample.upper sample.oidLayout 207 sample.oidEmpty.fields
    sample.oidGood.fields sample.oidAscii
    (by decide) (by decide) (by decide) (by decide) (by decide)⟩

set_option maxRecDepth 100000 in
/-- C2 counterexample: the sample record with carriage return and line feed in its two
closing positions is ASCII and `Parse` accepts it, but `Ascii()` of the parsed record
has blanks there. -/
theorem record_ascii_of_parse_counterexample :
    (∀ c ∈ sample.oidAsciiCrLf, c < 128)
    ∧ subrecords.Sub1099OID.Parse sample.upper sample.oidConfig sample.oidEmpty sample.oidAsciiCrLf
      = .done (sample.oidGood, none)
    ∧ subrecords.Sub1099OID.Ascii sample.oidConfig sample.oidGood ≠ sample.oidAsciiCrLf := by
  decide

/-! ## `paymentPerson.Ascii` and `paymentPerson.Validate` -/

/-- C16: for every `paymentPerson` with a payer and an end payer, `Ascii()` is the payer's
bytes, then each payee's bytes in list order, then the end payer's bytes, then each
state's bytes in list order, with nothing in between; its length is the sum of the
records' encoded lengths. -/
theorem person_ascii_concat {Rec : Type} (env : file.Records Rec) (p : file.paymentPerson Rec)
    (payer endPayer : Rec) (hp : p.Payer = some payer) (he : p.EndPayer = some endPayer) :
    file.paymentPerson.Ascii env p
        = .done (env.Ascii payer ++ (p.Payees.map env.Ascii).flatten ++ env.Ascii endPayer
            ++ (p.States.map env.Ascii).flatten)
    ∧ (env.Ascii payer ++ (p.Payees.map env.Ascii).flatten ++ env.Ascii endPayer
            ++ (p.States.map env.Ascii).flatten).length
        = (env.Ascii payer).length + (p.Payees.map (fun r => (env.Ascii r).length)).sum
            + (env.Ascii endPayer).length + (p.States.map (fun r => (env.Ascii r).length)).sum := by
  constructor
  · simp only [file.paymentPerson.Ascii, hp, he, foldl_append_flatten]
  · simp only [List.length_append, List.length_flatten, List.map_map]
    rfl

set_option maxRecDepth 100000 in
/-- C16 witness: a group of one payer, two payees, one end payer and one state. -/
theorem person_ascii_concat_witness :
    file.paymentPerson.Ascii sample.records
        { Payer := some (sample.image 65), Payees := [sample.image 66, sample.image 66],
          EndPayer := some (sample.image 67), States := [sample.image 75] }
      = .done (sample.image 65 ++ [sample.image 66, sample.image 66].flatten ++ sample.image 67
          ++ [sample.image 75].flatten) :=
  (person_ascii_concat sample.records
    { Payer := some (sample.image 65), Payees := [sample.image 66, sample.image 66],
      EndPayer := some (sample.image 67), States := [sample.image 75] }
    (sample.image 65) (sample.image 67) rfl rfl).1

theorem validateEach_eq_findSome {Rec : Type} (env : file.Records Rec) (l : List Rec) :
    file.validateEach env l = l.findSome? env.Validate := by
  induction l with
  | nil => rfl
  | cons r rest ih =>
    simp only [file.validateEach, List.findSome?]
    cases env.Validate r with
    | none => exact ih
    | some e => rfl

theorem person_validate_eq {Rec : Type} (env : file.Records Rec) (p : file.paymentPerson Rec)
    (payer endPayer : Rec) (hp : p.Payer = some payer) (he : p.EndPayer = some endPayer) :
    file.paymentPerson.Validate env p
      = (payer :: p.Payees ++ endPayer :: p.States).findSome? env.Validate := by
  simp only [file.paymentPerson.Validate, hp, he, validateEach_eq_findSome, List.cons_append,
    List.findSome?_cons, List.findSome?_append]
  cases env.Validate payer with
  | some e => rfl
  | none =>
    simp only [Option.or]
    cases List.findSome? env.Validate p.Payees with
    | some e => rfl
    | none =>
      simp only
      cases env.Validate endPayer with
      | some e => rfl
      | none => rfl

/-- C17: `paymentPerson.Validate` returns `ErrInvalidFile` if the payer or the end payer
is missing, whatever the records hold; otherwise it returns the first non-nil error of
the records' `Validate` in the order payer, payees in list order, end payer, states in
list order, and it returns nil if and only if every record validates. -/
theorem person_validate_order {Rec : Type} (env : file.Records Rec)
    (p : file.paymentPerson Rec) :
    ((p.Payer = none ∨ p.EndPayer = none) →
        file.paymentPerson.Validate env p = some Err.ErrInvalidFile)
    ∧ (∀ payer endPayer, p.Payer = some payer → p.EndPayer = some endPayer →
        file.paymentPerson.Validate env p
          = (payer :: p.Payees ++ endPayer :: p.States).findSome? env.Validate
        ∧ (∀ (before after : List Rec) (r : Rec) (err : Err),
            payer :: p.Payees ++ endPayer :: p.States = before ++ r :: after →
            (∀ x ∈ before, env.Validate x = none) → env.Validate r = some err →
            file.paymentPerson.Validate env p = some err)
        ∧ (file.paymentPerson.Validate env p = none
            ↔ ∀ r ∈ payer :: p.Payees ++ endPayer :: p.States, env.Validate r = none)) := by
  constructor
  · intro h
    rcases h with h | h
    · simp only [file.paymentPerson.Validate, h]
    · cases hp : p.Payer <;> simp only [file.paymentPerson.Validate, h, hp]
  · intro payer endPayer hp he
    have heq := person_validate_eq env p payer endPayer hp he
    refine ⟨heq, ?_, ?_⟩
    · intro before after r err hsplit hbefore hr
      rw [heq, hsplit]
      clear hsplit heq
      induction before with
      | nil => simp [List.findSome?, hr]
      | cons x rest ih =>
        have hx : env.Validate x = none := hbefore x (List.mem_cons_self _ _)
        simp only [List.cons_append, List.findSome?, hx]
        exact ih (fun y hy => hbefore y (List.mem_cons_of_mem _ hy))
    · rw [heq]
      exact List.findSome?_eq_none_iff

/-! ## Field validation: telephone numbers and years -/

/-- C12 (as amended): for every `TelephoneNumber` field whose length is less than 10 and
whose data is not blank, `isValidType` skips the digit check and rejects the data,
whatever it holds, with the invalid-value error of the field. -/
theorem phone_short_rejected (fieldName : String) (elm : SpecField) (data : Bytes)
    (ht : elm.Typ = FieldType.TelephoneNumber)
    (hlen : data.length = elm.Length) (hshort : elm.Length < utils.minPhoneNumberLength)
    (hnb : utils.isBlank data = false) :
    utils.isValidType fieldName elm data = some (Err.ValidValue fieldName) := by
  have hlt : data.length < utils.minPhoneNumberLength := by rw [hlen]; exact hshort
  simp only [utils.isValidType, hnb, Bool.false_eq_true, and_false, if_false, ht, hlt, if_true]

/-- C12 witness: a seven-digit number in a seven-position telephone field. -/
theorem phone_short_rejected_witness :
    utils.isBlank (lit "5551234") = false
    ∧ utils.isValidType "ContactTelephoneNumber" ⟨0, 7, .TelephoneNumber, .other 0⟩
        (lit "5551234") = some (Err.ValidValue "ContactTelephoneNumber") :=
  ⟨by decide, phone_short_rejected "ContactTelephoneNumber" ⟨0, 7, .TelephoneNumber, .other 0⟩
    (lit "5551234") rfl (by decide) (by decide) (by decide)⟩

/-- C12 counterexample: seven digits in a seven-position telephone field are not
accepted. -/
theorem phone_short_rejected_counterexample :
    ¬ (∀ (fieldName : String) (elm : SpecField) (data : Bytes),
        elm.Typ = FieldType.TelephoneNumber → data.length = elm.Length → elm.Length < 10 →
        utils.isBlank data = false → utils.isValidType fieldName elm data = none) := by
  intro h
  have h1 := h "ContactTelephoneNumber" ⟨0, 7, .TelephoneNumber, .other 0⟩ (lit "5551234")
    rfl (by decide) (by decide) (by decide)
  revert h1
  decide

theorem yearRegexMatch_four (a b c d : Nat) :
    utils.yearRegexMatch [a, b, c, d] = utils.yearAtHead [a, b, c, d] := by
  simp [utils.yearRegexMatch, List.tails, utils.yearAtHead]

theorem isValidType_year (fieldName : String) (elm : SpecField) (data : Bytes)
    (ht : elm.Typ = FieldType.DateYear) (hnb : utils.isBlank data = false) :
    utils.isValidType fieldName elm data
      = if utils.yearRegexMatch data then none else some Err.ErrValidDate := by
  simp only [utils.isValidType, hnb, Bool.false_eq_true, and_false, if_false, ht,
    utils.isDateYear]
  cases utils.yearRegexMatch data <;> rfl

/-- C20: for every `DateYear` field of length 4 with non-blank data, validation followed
by decoding succeeds if and only if the data is `19` or `20` followed by two decimal
digits, and then the decoded integer is that year, so every decoded year lies in
1900..2099; any other data fails validation with the invalid-date error. -/
theorem year_field_decodes (fieldName : String) (elm : SpecField) (data : Bytes) (n0 : Int)
    (ht : elm.Typ = FieldType.DateYear) (hl4 : elm.Length = 4)
    (hlen : data.length = elm.Length) (hnb : utils.isBlank data = false) :
    (∀ n : Int,
      (utils.isValidType fieldName elm data = none
          ∧ utils.parseValue elm (.int n0) data = .done (.int n, none))
        ↔ ∃ c d, strconv.isDigit c = true ∧ strconv.isDigit d = true
            ∧ ((data = [49, 57, c, d] ∧ n = 1900 + 10 * ((c : Int) - 48) + ((d : Int) - 48))
              ∨ (data = [50, 48, c, d] ∧ n = 2000 + 10 * ((c : Int) - 48) + ((d : Int) - 48))))
    ∧ (∀ n : Int, utils.isValidType fieldName elm data = none →
        utils.parseValue elm (.int n0) data = .done (.int n, none) → 1900 ≤ n ∧ n ≤ 2099)
    ∧ ((¬ ∃ c d, strconv.isDigit c = true ∧ strconv.isDigit d = true
            ∧ (data = [49, 57, c, d] ∨ data = [50, 48, c, d])) →
        utils.isValidType fieldName elm data = some Err.ErrValidDate) := by
  have hd4 : data.length = 4 := by rw [hlen, hl4]
  obtain ⟨a, b, c, d, hdata⟩ : ∃ a b c d, data = [a, b, c, d] := by
    match data, hd4 with
    | [a, b, c, d], _ => exact ⟨a, b, c, d, rfl⟩
  subst hdata
  have hvalid := isValidType_year fieldName elm [a, b, c, d] ht hnb
  rw [yearRegexMatch_four] at hvalid
  have hpat : utils.yearAtHead [a, b, c, d] = true ↔
      (strconv.isDigit c = true ∧ strconv.isDigit d = true
        ∧ ((a = 49 ∧ b = 57) ∨ (a = 50 ∧ b = 48))) := by
    simp only [utils.yearAtHead, Bool.and_eq_true, Bool.or_eq_true, beq_iff_eq]
    tauto
  have hparse : ∀ (c d : Nat), strconv.isDigit c = true → strconv.isDigit d = true →
      ∀ (a b : Nat), (a = 49 ∧ b = 57) ∨ (a = 50 ∧ b = 48) →
      utils.parseValue elm (.int n0) [a, b, c, d]
        = .done (.int (strconv.decVal 0 [a, b, c, d] : Int), none)
      ∧ strconv.decVal 0 [a, b, c, d] = (a - 48) * 1000 + (b - 48) * 100 + (c - 48) * 10 + (d - 48) := by
    intro c d hc hd a b hab
    have hc' := (isDigit_iff c).mp hc
    have hd' := (isDigit_iff d).mp hd
    have hval : strconv.decVal 0 [a, b, c, d]
        = (a - 48) * 1000 + (b - 48) * 100 + (c - 48) * 10 + (d - 48) := by
      simp only [strconv.decVal, List.foldl_cons, List.foldl_nil]
      omega
    have hdig : ∀ x ∈ [a, b, c, d], strconv.isDigit x = true := by
      intro x hx
      simp only [List.mem_cons, List.mem_singleton, List.not_mem_nil, or_false] at hx
      rcases hx with hx | hx | hx | hx
      · subst hx; rw [isDigit_iff]; omega
      · subst hx; rw [isDigit_iff]; omega
      · subst hx; exact hc
      · subst hx; exact hd
    have hpi := parseInt_digits a [b, c, d] hdig (by rw [hval]; omega)
    exact ⟨by simp only [utils.parseValue, ht, hpi], hval⟩
  have hmain : ∀ n : Int,
      (utils.isValidType fieldName elm [a, b, c, d] = none
          ∧ utils.parseValue elm (.int n0) [a, b, c, d] = .done (.int n, none))
        ↔ ∃ c' d', strconv.isDigit c' = true ∧ strconv.isDigit d' = true
            ∧ (([a, b, c, d] = [49, 57, c', d']
                ∧ n = 1900 + 10 * ((c' : Int) - 48) + ((d' : Int) - 48))
              ∨ ([a, b, c, d] = [50, 48, c', d']
                ∧ n = 2000 + 10 * ((c' : Int) - 48) + ((d' : Int) - 48))) := by
    intro n
    constructor
    · rintro ⟨hv, hp⟩
      rw [hvalid] at hv
      have hy : utils.yearAtHead [a, b, c, d] = true := by
        cases hy : utils.yearAtHead [a, b, c, d] with
        | true => rfl
        | false => rw [hy] at hv; simp at hv
      obtain ⟨hc, hd, hab⟩ := hpat.mp hy
      obtain ⟨hp2, hval⟩ := hparse c d hc hd a b hab
      rw [hp2] at hp
      have hn : n = (strconv.decVal 0 [a, b, c, d] : Int) := by
        have := (Prod.mk.inj (utils.Outcome.done.inj hp)).1
        exact (Value.int.inj this).symm
      have hc' := (isDigit_iff c).mp hc
      have hd' := (isDigit_iff d).mp hd
      refine ⟨c, d, hc, hd, ?_⟩
      rcases hab with ⟨ha, hb⟩ | ⟨ha, hb⟩
      · left
        subst ha hb
        refine ⟨rfl, ?_⟩
        rw [hn, hval]
        omega
      · right
        subst ha hb
        refine ⟨rfl, ?_⟩
        rw [hn, hval]
        omega
    · rintro ⟨c', d', hc, hd, h | h⟩
      · obtain ⟨heq, hn⟩ := h
        simp only [List.cons.injEq, and_true] at heq
        obtain ⟨ha, hb, hcc, hdd⟩ := heq
        subst ha hb hcc hdd
        obtain ⟨hp2, hval⟩ := hparse c d hc hd 49 57 (Or.inl ⟨rfl, rfl⟩)
        have hy := hpat.mpr ⟨hc, hd, Or.inl ⟨rfl, rfl⟩⟩
        have hc' := (isDigit_iff c).mp hc
        have hd' := (isDigit_iff d).mp hd
        refine ⟨by rw [hvalid, hy]; rfl, ?_⟩
        rw [hp2, hval, hn]
        congr 3
        omega
      · obtain ⟨heq, hn⟩ := h
        simp only [List.cons.injEq, and_true] at heq
        obtain ⟨ha, hb, hcc, hdd⟩ := heq
        subst ha hb hcc hdd
        obtain ⟨hp2, hval⟩ := hparse c d hc hd 50 48 (Or.inr ⟨rfl, rfl⟩)
        have hy := hpat.mpr ⟨hc, hd, Or.inr ⟨rfl, rfl⟩⟩
        have hc' := (isDigit_iff c).mp hc
        have hd' := (isDigit_iff d).mp hd
        refine ⟨by rw [hvalid, hy]; rfl, ?_⟩
        rw [hp2, hval, hn]
        congr 3
        omega
  refine ⟨hmain, ?_, ?_⟩
  · intro n hv hp
    obtain ⟨c', d', hc, hd, h | h⟩ := (hmain n).mp ⟨hv, hp⟩
    · have hc' := (isDigit_iff c').mp hc
      have hd' := (isDigit_iff d').mp hd
      omega
    · have hc' := (isDigit_iff c').mp hc
      have hd' := (isDigit_iff d').mp hd
      omega
  · intro hno
    rw [hvalid]
    cases hy : utils.yearAtHead [a, b, c, d] with
    | false => rfl
    | true =>
      obtain ⟨hc, hd, hab⟩ := hpat.mp hy
      exfalso
      apply hno
      refine ⟨c, d, hc, hd, ?_⟩
      rcases hab with ⟨ha, hb⟩ | ⟨ha, hb⟩
      · left; rw [ha, hb]
      · right; rw [ha, hb]

/-- C20 witness: the year 2019 in a four-position year field. -/
theorem year_field_decodes_witness :
    utils.isValidType "PaymentYear" ⟨1, 4, .DateYear, .Required⟩ (lit "2019") = none
    ∧ utils.parseValue ⟨1, 4, .DateYear, .Required⟩ (.int 0) (lit "2019")
        = .done (.int 2019, none) :=
  ((year_field_decodes "PaymentYear" ⟨1, 4, .DateYear, .Required⟩ (lit "2019") 0 rfl rfl
    (by decide) (by decide)).1 2019).mpr
    ⟨49, 57, by decide, by decide, Or.inr ⟨by decide, by decide⟩⟩

/-! ## Decoding integer fields -/

theorem parseInt_ok_tail (c : Nat) (rest : Bytes) (n : Int)
    (h : strconv.ParseInt (c :: rest) = .ok n) : ∀ x ∈ rest, strconv.isDigit x = true := by
  simp only [strconv.ParseInt] at h
  cases hp : strconv.ParseUint (if (c == 43) = true ∨ (c == 45) = true then rest else c :: rest) with
  | error e => rw [hp] at h; exact absurd h (by simp)
  | ok un =>
    by_cases hs : (c == 43) = true ∨ (c == 45) = true
    · rw [if_pos hs] at hp
      cases rest with
      | nil => intro x hx; simp at hx
      | cons y ys =>
        simp only [strconv.ParseUint] at hp
        exact (parseUintFrom_ok _ _ _ hp).1
    · rw [if_neg hs] at hp
      simp only [strconv.ParseUint] at hp
      intro x hx
      exact (parseUintFrom_ok _ _ _ hp).1 x (List.mem_cons_of_mem _ hx)

theorem parseInt_trailing_blank (ds : Bytes) (k : Nat) (hds : ds ≠ []) (hk : 0 < k) :
    ∃ e, strconv.ParseInt (ds ++ List.replicate k 32) = .error e := by
  cases hp : strconv.ParseInt (ds ++ List.replicate k 32) with
  | error e => exact ⟨e, rfl⟩
  | ok n =>
    exfalso
    obtain ⟨c, rest, hcr⟩ : ∃ c rest, ds = c :: rest := by
      cases ds with
      | nil => exact absurd rfl hds
      | cons c rest => exact ⟨c, rest, rfl⟩
    subst hcr
    obtain ⟨j, hj⟩ : ∃ j, k = j + 1 := ⟨k - 1, by omega⟩
    subst hj
    rw [List.cons_append] at hp
    have h32 := parseInt_ok_tail c _ n hp 32
      (List.mem_append_right _ (by simp))
    simp [strconv.isDigit] at h32

/-- C13 (what the code does on the claim's data): for an integer-typed field
(`ZeroNumeric` or `DateYear`) whose data is one or more decimal digits followed by one or
more trailing blanks, validation of a `ZeroNumeric` field accepts the data (and so does
validation of a `DateYear` field when the digits contain a year), but decoding passes the
untrimmed text to `strconv.ParseInt`: it returns that error and the field is not set. -/
theorem int_field_trailing_blanks (fieldName : String) (elm : SpecField) (field : Value)
    (ds : Bytes) (k : Nat)
    (ht : elm.Typ = FieldType.ZeroNumeric ∨ elm.Typ = FieldType.DateYear)
    (hds : ds ≠ []) (hdig : ∀ c ∈ ds, strconv.isDigit c = true) (hk : 0 < k) :
    (elm.Typ = FieldType.ZeroNumeric →
        utils.isValidType fieldName elm (ds ++ List.replicate k 32) = none)
    ∧ (elm.Typ = FieldType.DateYear → utils.yearRegexMatch (ds ++ List.replicate k 32) = true →
        utils.isValidType fieldName elm (ds ++ List.replicate k 32) = none)
    ∧ ∃ e, utils.parseValue elm field (ds ++ List.replicate k 32) = .done (field, some e) := by
  have hnb : utils.isBlank (ds ++ List.replicate k 32) = false := by
    cases hb : utils.isBlank (ds ++ List.replicate k 32) with
    | false => rfl
    | true =>
      rw [isBlank_iff] at hb
      obtain ⟨c, hc⟩ := List.exists_mem_of_ne_nil ds hds
      have h1 := hb c (List.mem_append_left _ hc)
      have h2 := (isDigit_iff c).mp (hdig c hc)
      omega
  refine ⟨?_, ?_, ?_⟩
  · intro hz
    have hlast : ds.getLast? ≠ some 32 := by
      rw [List.getLast?_eq_getLast _ hds]
      intro h
      have h1 := (isDigit_iff _).mp (hdig _ (List.getLast_mem hds))
      have h2 := Option.some.inj h
      omega
    have htrim := trimRight_of_last ds hlast k
    have hnum : utils.numericRegexMatch ds = true := by
      simp only [utils.numericRegexMatch, Bool.and_eq_true, Bool.not_eq_true',
        List.isEmpty_eq_false, List.all_eq_true]
      exact ⟨hds, hdig⟩
    simp only [utils.isValidType, hnb, Bool.false_eq_true, and_false, if_false, hz,
      utils.isNumeric, htrim, hnum, Bool.not_true]
  · intro hy hmatch
    rw [isValidType_year fieldName elm _ hy hnb, hmatch]
    rfl
  · obtain ⟨e, he⟩ := parseInt_trailing_blank ds k hds hk
    refine ⟨e, ?_⟩
    rcases ht with ht | ht <;> simp only [utils.parseValue, ht, he]

/-- C13 witness: the digits `12` and three blanks in a five-position `ZeroNumeric` field. -/
theorem int_field_trailing_blanks_witness :
    utils.isValidType "NumberPayees" ⟨1, 5, .ZeroNumeric, .Required⟩
        (lit "12" ++ List.replicate 3 32) = none
    ∧ utils.parseValue ⟨1, 5, .ZeroNumeric, .Required⟩ (.int 0) (lit "12" ++ List.replicate 3 32)
        = .done (.int 0, some Err.strconvBadDigits) :=
  ⟨(int_field_trailing_blanks "NumberPayees" ⟨1, 5, .ZeroNumeric, .Required⟩ (.int 0)
      (lit "12") 3 (Or.inl rfl) (by decide) (by decide) (by decide)).1 rfl,
    by decide⟩

theorem parseValue_blank_int (elm : SpecField) (n : Int) (v : Value) (data : Bytes)
    (hb : utils.isBlank data = true) :
    utils.parseValue elm (.int n) data ≠ .done (v, none) := by
  intro h
  cases ht : elm.Typ <;> simp only [utils.parseValue, ht, reduceCtorEq] at h
  · cases hp : strconv.ParseInt data with
    | error e =>
      rw [hp] at h
      exact absurd (Prod.mk.inj (utils.Outcome.done.inj h)).2 (by simp)
    | ok m => exact parseInt_blank data m hb hp
  · cases hp : strconv.ParseInt data with
    | error e =>
      rw [hp] at h
      exact absurd (Prod.mk.inj (utils.Outcome.done.inj h)).2 (by simp)
    | ok m => exact parseInt_blank data m hb hp
  · exact absurd (Prod.mk.inj (utils.Outcome.done.inj h)).2 (by simp)

/-- C14 (what the code does on the claim's records): whatever the layout, a 1099-OID
sub-record whose `StateIncomeTaxWithheld` or `LocalIncomeTaxWithheld` positions are all
blank is not accepted by `Sub1099OID.Parse`. When the entry is not required the blank
positions do pass validation, but the int field cannot be decoded from them: `Parse`
returns an error (or panics under a layout that types the entry as text). -/
theorem sub1099oid_blank_amount (upper : Nat → Bool) (cfg : subrecords.Config) (r : subrecords.Sub1099OID)
    (buf : Bytes) (fieldName : String) (elm : SpecField)
    (hname : fieldName = "StateIncomeTaxWithheld" ∨ fieldName = "LocalIncomeTaxWithheld")
    (hlook : cfg.Sub1099OIDLayout.lookup fieldName = some elm)
    (hblank : utils.isBlank (utils.span buf elm) = true) :
    (elm.Required ≠ Requirement.Required →
        utils.isValidType fieldName elm (utils.span buf elm) = none)
    ∧ ∀ r1, subrecords.Sub1099OID.Parse upper cfg r buf ≠ .done (r1, none) := by
  constructor
  · intro hreq
    simp only [utils.isValidType, hblank, and_true, hreq, if_false, if_true]
  · intro r1 h
    simp only [subrecords.Sub1099OID.Parse] at h
    split at h
    · exact absurd (Prod.mk.inj (utils.Outcome.done.inj h)).2 (by simp)
    · cases hp : utils.ParseValue upper r.fields cfg.Sub1099OIDLayout buf with
      | panic => rw [hp] at h; exact absurd h (by simp)
      | done res =>
        obtain ⟨fs, err⟩ := res
        rw [hp] at h
        have herr : err = none := (Prod.mk.inj (utils.Outcome.done.inj h)).2
        subst herr
        have hexp : ∀ f ∈ r.fields, utils.isExported upper f.1 = true := by
          intro f hf
          simp only [subrecords.Sub1099OID.fields, List.mem_cons, List.mem_singleton,
            List.not_mem_nil, or_false] at hf
          rcases hf with hf | hf | hf | hf | hf | hf | hf <;> subst hf <;> rfl
        have hinv := (parseValue_inv cfg.Sub1099OIDLayout buf r.fields fs hexp hp fieldName).2
        rcases hname with hn | hn
        · subst hn
          obtain ⟨elm1, v, hl1, _, _, hpv, _⟩ := hinv (.int r.StateIncomeTaxWithheld) rfl
          rw [hlook] at hl1
          have := Option.some.inj hl1
          subst this
          exact parseValue_blank_int elm _ v _ hblank hpv
        · subst hn
          obtain ⟨elm1, v, hl1, _, _, hpv, _⟩ := hinv (.int r.LocalIncomeTaxWithheld) rfl
          rw [hlook] at hl1
          have := Option.some.inj hl1
          subst this
          exact parseValue_blank_int elm _ v _ hblank hpv

set_option maxRecDepth 100000 in
/-- C14 witness: the sample record with its state income tax positions left blank; `Parse`
returns the error of `strconv.ParseInt`. -/
theorem sub1099oid_blank_amount_witness :
    subrecords.Sub1099OID.Parse sample.upper sample.oidConfig sample.oidEmpty sample.oidAsciiNoStateTax
        = .done ({ sample.oidEmpty with Description := lit "NYSE XYZ 12/2019", FATCA := lit "1" },
            some Err.strconvBadDigits)
    ∧ ∀ r1, subrecords.Sub1099OID.Parse sample.upper sample.oidConfig sample.oidEmpty
        sample.oidAsciiNoStateTax ≠ .done (r1, none) :=
  ⟨by decide, (sub1099oid_blank_amount sample.upper sample.oidConfig sample.oidEmpty
    sample.oidAsciiNoStateTax "StateIncomeTaxWithheld" ⟨179, 12, .ZeroNumeric, .other 0⟩
    (Or.inl rfl) (by decide) (by decide)).2⟩

/-! ## The forms `ToString` writes -/

theorem itoa_length_le (n L : Nat) (hL : 1 ≤ L) (hn : n < 10 ^ L) :
    (strconv.itoa n).length ≤ L := by
  rcases Nat.eq_zero_or_pos n with h0 | hpos
  · subst h0
    simpa [itoa_zero] using hL
  · rw [itoa_pos n hpos, List.length_map, List.length_reverse]
    by_contra hgt
    have hlen : L + 1 ≤ (Nat.digits 10 n).length := by omega
    have h1 := Nat.base_pow_length_digits_le 10 n (by decide) (by omega)
    have h2 : 10 ^ (L + 1) ≤ 10 ^ (Nat.digits 10 n).length :=
      Nat.pow_le_pow_right (by decide) hlen
    have h3 : 10 ^ (L + 1) = 10 * 10 ^ L := by rw [Nat.pow_succ, Nat.mul_comm]
    omega

theorem toString_left (elm : SpecField) (s : Bytes)
    (hexp : elm.Required ≠ Requirement.Expandable) (hwid : fmt.widthParses elm.Length = true)
    (ht : elm.Typ = FieldType.Alphanumeric ∨ elm.Typ = FieldType.Numeric
      ∨ elm.Typ = FieldType.Email ∨ elm.Typ = FieldType.TelephoneNumber)
    (hs : ∀ c ∈ s, c < 128) :
    utils.ToString elm (some (.str s)) = s ++ List.replicate (elm.Length - s.length) 32 := by
  rcases ht with ht | ht | ht | ht <;>
    simp only [utils.ToString, if_neg hexp, ht, fmt.sprintfS, hwid, Bool.not_true,
      Bool.false_eq_true, if_false, fmt.pad, if_true, runeCount_ascii s hs]

theorem toString_right (elm : SpecField) (s : Bytes)
    (hexp : elm.Required ≠ Requirement.Expandable) (hwid : fmt.widthParses elm.Length = true)
    (ht : elm.Typ = FieldType.AlphanumericRightAlign) (hs : ∀ c ∈ s, c < 128) :
    utils.ToString elm (some (.str s)) = List.replicate (elm.Length - s.length) 32 ++ s := by
  simp only [utils.ToString, if_neg hexp, ht, fmt.sprintfS, hwid, Bool.not_true,
    Bool.false_eq_true, if_false, fmt.pad, runeCount_ascii s hs]

theorem toString_filler (elm : SpecField) (hexp : elm.Required ≠ Requirement.Expandable) :
    utils.ToString elm none
      = List.replicate elm.Length (if elm.Typ = FieldType.ZeroNumeric then 48 else 32) := by
  simp only [utils.ToString, if_neg hexp, utils.fillString, strings.Repeat,
    config.ZeroString, config.BlankString]
  split <;> rfl

/-- C15 (as amended): for every field that is not `Expandable`, of a length `L` that is a
width `fmt` reads, and every value that fits (a string of at most `L` ASCII characters,
or an integer `n` with `0 <= n < 10^L` where `L >= 1`), `utils.ToString` returns exactly
`L` characters: for left-justified text the value followed only by blanks, for
right-aligned text blanks followed by the value, for `ZeroNumeric` leading zeros followed
by the decimal digits of `n`, and for a layout entry with no stored field `L` blanks, or
`L` zeros when the entry is typed `ZeroNumeric`. An `Expandable` entry is written as the
empty string, whatever its type, its length and the value stored. -/
theorem toString_forms (elm : SpecField) :
    (elm.Required = Requirement.Expandable →
        ∀ data : Option Value, utils.ToString elm data = [])
    ∧ (elm.Required ≠ Requirement.Expandable → fmt.widthParses elm.Length = true →
      (∀ s : Bytes, s.length ≤ elm.Length → (∀ c ∈ s, c < 128) →
        (elm.Typ = FieldType.Alphanumeric ∨ elm.Typ = FieldType.Numeric
          ∨ elm.Typ = FieldType.Email ∨ elm.Typ = FieldType.TelephoneNumber) →
        utils.ToString elm (some (.str s)) = s ++ List.replicate (elm.Length - s.length) 32
        ∧ (utils.ToString elm (some (.str s))).length = elm.Length)
      ∧ (∀ s : Bytes, s.length ≤ elm.Length → (∀ c ∈ s, c < 128) →
        elm.Typ = FieldType.AlphanumericRightAlign →
        utils.ToString elm (some (.str s)) = List.replicate (elm.Length - s.length) 32 ++ s
        ∧ (utils.ToString elm (some (.str s))).length = elm.Length)
      ∧ (∀ n : Nat, n < 10 ^ elm.Length → 1 ≤ elm.Length → elm.Typ = FieldType.ZeroNumeric →
        utils.ToString elm (some (.int (n : Int)))
          = List.replicate (elm.Length - (strconv.itoa n).length) 48 ++ strconv.itoa n
        ∧ (utils.ToString elm (some (.int (n : Int)))).length = elm.Length)
      ∧ (utils.ToString elm none
          = List.replicate elm.Length (if elm.Typ = FieldType.ZeroNumeric then 48 else 32)
        ∧ (utils.ToString elm none).length = elm.Length)) := by
  refine ⟨?_, ?_⟩
  · intro hex data
    simp only [utils.ToString, hex, if_true]
  intro hexp hwid
  refine ⟨?_, ?_, ?_, ?_⟩
  · intro s hlen hs ht
    have h := toString_left elm s hexp hwid ht hs
    refine ⟨h, ?_⟩
    rw [h, List.length_append, List.length_replicate]
    omega
  · intro s hlen hs ht
    have h := toString_right elm s hexp hwid ht hs
    refine ⟨h, ?_⟩
    rw [h, List.length_append, List.length_replicate]
    omega
  · intro n hn hL ht
    have hlen := itoa_length_le n elm.Length hL hn
    have h := toString_zero elm (n : Int) hexp hwid ht (Int.natCast_nonneg n)
      (by rw [Int.natAbs_ofNat]; exact hlen)
    rw [Int.natAbs_ofNat] at h
    refine ⟨h, ?_⟩
    rw [h, List.length_append, List.length_replicate]
    omega
  · have h := toString_filler elm hexp
    refine ⟨h, ?_⟩
    rw [h, List.length_replicate]

/-- C15 witness: the description of the sample record in its 39 positions. -/
theorem toString_forms_witness :
    utils.ToString ⟨3, 39, .Alphanumeric, .Required⟩ (some (.str (lit "NYSE XYZ 12/2019")))
      = lit "NYSE XYZ 12/2019" ++ List.replicate (39 - (lit "NYSE XYZ 12/2019").length) 32
    ∧ (utils.ToString ⟨3, 39, .Alphanumeric, .Required⟩
        (some (.str (lit "NYSE XYZ 12/2019")))).length = 39 :=
  ((toString_forms ⟨3, 39, .Alphanumeric, .Required⟩).2 (by decide) (by decide)).1
    (lit "NYSE XYZ 12/2019") (by decide) (by decide) (Or.inl rfl)

/-- C15 counterexample: an `Expandable` entry of length 3 is written as the empty string,
and an entry typed `ZeroNumeric` with no stored field is written as three zeros, not
three blanks. -/
theorem toString_forms_counterexample :
    utils.ToString ⟨0, 3, .Alphanumeric, .Expandable⟩ (some (.str (lit "AB"))) = []
    ∧ utils.ToString ⟨0, 3, .ZeroNumeric, .other 1⟩ none = [48, 48, 48]
    ∧ utils.ToString ⟨0, 3, .ZeroNumeric, .other 1⟩ none ≠ List.replicate 3 32 := by
  decide

/-! ## Required fields -/

theorem validate_split (fields before after : utils.Fields) (f : String × Value)
    (methods : utils.Methods) (spec : Layout)
    (hsplit : fields = before ++ f :: after)
    (hreq : utils.requiredAndZero spec f = true) :
    utils.Validate fields methods spec
      = (before.findSome? (utils.fieldFailure methods spec)).or
          (some (Err.FieldRequired f.1)) := by
  have heq : utils.Validate fields methods spec
      = fields.findSome? (utils.fieldFailure methods spec) :=
    validateFrom_eq_findSome methods spec fields
  have hf : utils.fieldFailure methods spec f = some (Err.FieldRequired f.1) := by
    simp only [utils.fieldFailure, hreq, if_true]
  rw [heq, hsplit, List.findSome?_append, List.findSome?_cons, hf]

/-- C11 (as amended): for every layout entry marked `Required`, a record whose value for
that field is blank (zero or empty) fails `Validate`. The error is `FieldRequired(name)`
for the first such field in declaration order, unless the custom validator of a field
declared before it fails, in which case it is that validator's error; no later field's
error is returned in its place. -/
theorem validate_required_blank (fields before after : utils.Fields) (f : String × Value)
    (methods : utils.Methods) (spec : Layout)
    (hsplit : fields = before ++ f :: after)
    (hreq : utils.requiredAndZero spec f = true)
    (hfirst : ∀ g ∈ before, utils.requiredAndZero spec g = false) :
    utils.Validate fields methods spec ≠ none
    ∧ ((∀ g ∈ before, utils.customFailure methods g = none) →
        utils.Validate fields methods spec = some (Err.FieldRequired f.1))
    ∧ (∀ err, utils.Validate fields methods spec = some err →
        err = Err.FieldRequired f.1
          ∨ ∃ g ∈ before, utils.customFailure methods g = some err) := by
  have hv := validate_split fields before after f methods spec hsplit hreq
  have hbefore : ∀ g ∈ before,
      utils.fieldFailure methods spec g = utils.customFailure methods g := by
    intro g hg
    simp only [utils.fieldFailure, hfirst g hg, Bool.false_eq_true, if_false]
  refine ⟨?_, ?_, ?_⟩
  · rw [hv]
    cases before.findSome? (utils.fieldFailure methods spec) <;> simp
  · intro hnone
    have : before.findSome? (utils.fieldFailure methods spec) = none := by
      rw [List.findSome?_eq_none_iff]
      intro g hg
      rw [hbefore g hg]
      exact hnone g hg
    rw [hv, this]
    rfl
  · intro err herr
    rw [hv] at herr
    cases hb : before.findSome? (utils.fieldFailure methods spec) with
    | none =>
      rw [hb] at herr
      left
      exact (Option.some.inj herr).symm
    | some e =>
      rw [hb] at herr
      have he : e = err := Option.some.inj herr
      subst he
      obtain ⟨g, hg, hge⟩ := List.exists_of_findSome?_eq_some hb
      right
      exact ⟨g, hg, by rw [← hbefore g hg]; exact hge⟩

/-- C11 witness: a freshly constructed `Sub1099OID` fails with the error of its first
required field, the description. -/
theorem validate_required_blank_witness :
    subrecords.Sub1099OID.Validate sample.oidConfig sample.oidEmpty
      = some (Err.FieldRequired "Description") :=
  (validate_required_blank sample.oidEmpty.fields [("SecondTinNotice", .str [])]
    [("FATCA", .str []), ("SpecialDataEntries", .str []), ("StateIncomeTaxWithheld", .int 0),
      ("LocalIncomeTaxWithheld", .int 0), ("CombinedFSCode", .int 0)]
    ("Description", .str [])
    (subrecords.Sub1099OID.methods sample.oidConfig sample.oidEmpty) sample.oidLayout
    rfl (by decide) (by decide)).2.1 (by decide)

/-- C11 counterexample: under a layout that marks the state code as required, a record
with a blank state code and an invalid FATCA indicator fails with the error of the
FATCA validator, which is declared before the state code, and not with
`FieldRequired` of the state code. -/
theorem validate_required_blank_counterexample :
    utils.requiredAndZero
        (sample.oidLayout.map (fun e =>
          if e.1 = "CombinedFSCode" then (e.1, { e.2 with Required := Requirement.Required })
          else e))
        ("CombinedFSCode", .int 0) = true
    ∧ subrecords.Sub1099OID.Validate
        { sample.oidConfig with
          Sub1099OIDLayout := sample.oidLayout.map (fun e =>
            if e.1 = "CombinedFSCode" then (e.1, { e.2 with Required := Requirement.Required })
            else e) }
        { sample.oidGood with FATCA := lit "X", CombinedFSCode := 0 }
      = some (Err.ValidValue "fatca filing requirement indicator") := by
  decide

/-! ## `ParseValue` stops at the first field that fails -/

theorem parseValue_append {upper : Nat → Bool} (layout : Layout) (a : Bytes) (rest : utils.Fields)
    (pre : utils.Fields) : ∀ (pre1 : utils.Fields),
    utils.ParseValue upper pre layout a = .done (pre1, none) →
    utils.ParseValue upper (pre ++ rest) layout a
      = match utils.ParseValue upper rest layout a with
        | .done (rest1, err) => .done (pre1 ++ rest1, err)
        | .panic => .panic := by
  induction pre with
  | nil =>
    intro pre1 h
    simp only [utils.ParseValue, utils.Outcome.done.injEq, Prod.mk.injEq, and_true] at h
    subst h
    simp only [List.nil_append]
    cases utils.ParseValue upper rest layout a with
    | panic => rfl
    | done res => rfl
  | cons f tail ih =>
    intro pre1 h
    obtain ⟨n0, v0⟩ := f
    rw [List.cons_append, utils.ParseValue]
    rw [utils.ParseValue] at h
    by_cases hex : utils.isExported upper n0 = true
    · simp only [hex, Bool.not_true, Bool.false_eq_true, if_false] at h ⊢
      cases hl : layout.lookup n0 with
      | none =>
        rw [hl] at h
        exact absurd (Prod.mk.inj (utils.Outcome.done.inj h)).2 (by simp)
      | some elm =>
        rw [hl] at h
        simp only at h ⊢
        by_cases hshort : a.length < elm.Start + elm.Length
        · rw [if_pos hshort] at h
          exact absurd (Prod.mk.inj (utils.Outcome.done.inj h)).2 (by simp)
        · rw [if_neg hshort] at h ⊢
          cases hv : utils.isValidType n0 elm (List.take elm.Length (List.drop elm.Start a)) with
          | some e =>
            rw [hv] at h
            exact absurd (Prod.mk.inj (utils.Outcome.done.inj h)).2 (by simp)
          | none =>
            rw [hv] at h
            simp only at h ⊢
            cases hp : utils.parseValue elm v0 (List.take elm.Length (List.drop elm.Start a)) with
            | panic => rw [hp] at h; exact absurd h (by simp)
            | done res =>
              obtain ⟨v1, err⟩ := res
              rw [hp] at h
              cases err with
              | some e => exact absurd (Prod.mk.inj (utils.Outcome.done.inj h)).2 (by simp)
              | none =>
                simp only at h ⊢
                cases hr : utils.ParseValue upper tail layout a with
                | panic => rw [hr] at h; exact absurd h (by simp)
                | done res1 =>
                  obtain ⟨tail1, err1⟩ := res1
                  rw [hr] at h
                  simp only [utils.Outcome.done.injEq, Prod.mk.injEq] at h
                  obtain ⟨hf1, herr⟩ := h
                  subst hf1 herr
                  rw [ih tail1 hr]
                  cases utils.ParseValue upper rest layout a with
                  | panic => rfl
                  | done res2 => rfl
    · have hex' : utils.isExported upper n0 = false := by
        cases hx : utils.isExported upper n0 with
        | false => rfl
        | true => exact absurd hx hex
      simp only [hex', Bool.not_false, if_true] at h ⊢
      cases hr : utils.ParseValue upper tail layout a with
      | panic => rw [hr] at h; exact absurd h (by simp)
      | done res1 =>
        obtain ⟨tail1, err1⟩ := res1
        rw [hr] at h
        simp only [utils.Outcome.done.injEq, Prod.mk.injEq] at h
        obtain ⟨hf1, herr⟩ := h
        subst hf1 herr
        rw [ih tail1 hr]
        cases utils.ParseValue upper rest layout a with
        | panic => rfl
        | done res2 => rfl

theorem isValidType_name_free (fieldName other : String) (elm : SpecField) (data : Bytes)
    (e : Err) (hbad : utils.isValidType fieldName elm data = some e)
    (hkind : e = Err.ErrNumeric ∨ e = Err.ErrNonAlphanumeric ∨ e = Err.ErrValidDate
      ∨ e = Err.ErrEmail) :
    utils.isValidType other elm data = some e := by
  have hne1 : ∀ s : String, e ≠ Err.FieldRequired s := by
    intro s h; rcases hkind with h1 | h1 | h1 | h1 <;> rw [h1] at h <;> exact absurd h (by simp)
  have hne2 : ∀ s : String, e ≠ Err.ValidValue s := by
    intro s h; rcases hkind with h1 | h1 | h1 | h1 <;> rw [h1] at h <;> exact absurd h (by simp)
  simp only [utils.isValidType] at hbad ⊢
  by_cases h1 : elm.Required = Requirement.Required ∧ utils.isBlank data = true
  · rw [if_pos h1] at hbad
    exact absurd (Option.some.inj hbad).symm (hne1 _)
  · rw [if_neg h1] at hbad ⊢
    by_cases h2 : utils.isBlank data = true
    · rw [if_pos h2] at hbad
      exact absurd hbad (by simp)
    · rw [if_neg h2] at hbad ⊢
      cases ht : elm.Typ <;> simp only [ht] at hbad ⊢ <;>
        first
        | exact hbad
        | exact absurd (Option.some.inj hbad).symm (hne2 _)
        | (split at hbad
           · exact absurd (Option.some.inj hbad).symm (hne2 _)
           · rename_i hlen
             rw [if_neg hlen]
             exact hbad)

/-- C18 (as amended): whenever `utils.ParseValue` fails because a field's text does not
match its declared type (not numeric, non-alphanumeric, invalid year, invalid email), it
stops at the first such field in order: the fields before it are decoded, it and the
fields after it are left as they were, and that field's error is returned. The error is
one of the fixed values `ErrNumeric`, `ErrNonAlphanumeric`, `ErrValidDate`, `ErrEmail`; it
is the same whatever the field is called and so does not identify the field's name. -/
theorem parseValue_first_mismatch (upper : Nat → Bool) (layout : Layout) (a : Bytes)
    (before after before1 : utils.Fields) (fieldName : String) (v0 : Value)
    (elm : SpecField) (e : Err)
    (hbefore : utils.ParseValue upper before layout a = .done (before1, none))
    (hexp : utils.isExported upper fieldName = true)
    (hlook : layout.lookup fieldName = some elm)
    (hlen : elm.Start + elm.Length ≤ a.length)
    (hbad : utils.isValidType fieldName elm (utils.span a elm) = some e)
    (hkind : e = Err.ErrNumeric ∨ e = Err.ErrNonAlphanumeric ∨ e = Err.ErrValidDate
      ∨ e = Err.ErrEmail) :
    utils.ParseValue upper (before ++ (fieldName, v0) :: after) layout a
        = .done (before1 ++ (fieldName, v0) :: after, some e)
    ∧ ∀ other : String, utils.isValidType other elm (utils.span a elm) = some e := by
  constructor
  · rw [parseValue_append layout a _ before before1 hbefore]
    have hspan : List.take elm.Length (List.drop elm.Start a) = utils.span a elm := rfl
    have hstep : utils.ParseValue upper ((fieldName, v0) :: after) layout a
        = .done ((fieldName, v0) :: after, some e) := by
      rw [utils.ParseValue]
      simp only [hexp, Bool.not_true, Bool.false_eq_true, if_false, hlook, hspan, hbad]
      rw [if_neg (by omega)]
    rw [hstep]
  · intro other
    exact isValidType_name_free fieldName other elm _ e hbad hkind

set_option maxRecDepth 100000 in
set_option maxHeartbeats 1000000 in
/-- C18 witness: the sample record with a lower-case text in its special data entries;
the two fields before it are decoded and the error is `ErrNonAlphanumeric`. -/
theorem parseValue_first_mismatch_witness :
    utils.ParseValue sample.upper
        ([("SecondTinNotice", .str []), ("Description", .str [])]
          ++ ("SpecialDataEntries", .str []) :: [("CombinedFSCode", .int 0)])
        sample.oidLayout sample.oidAsciiLowerSpecial
      = .done ([("SecondTinNotice", .str []), ("Description", .str (lit "NYSE XYZ 12/2019"))]
          ++ ("SpecialDataEntries", .str []) :: [("CombinedFSCode", .int 0)],
          some Err.ErrNonAlphanumeric) :=
  (parseValue_first_mismatch sample.upper sample.oidLayout sample.oidAsciiLowerSpecial
    [("SecondTinNotice", .str []), ("Description", .str [])] [("CombinedFSCode", .int 0)]
    [("SecondTinNotice", .str []), ("Description", .str (lit "NYSE XYZ 12/2019"))]
    "SpecialDataEntries" (.str []) ⟨119, 60, .Alphanumeric, .other 0⟩ Err.ErrNonAlphanumeric
    (by decide) (by decide) (by decide) (by decide) (by decide) (Or.inr (Or.inl rfl))).1

set_option maxRecDepth 100000 in
set_option maxHeartbeats 1000000 in
/-- C18 counterexample: a record whose description is in lower case and a record whose
special data entries are in lower case fail at different fields with the same error,
which names neither field. -/
theorem parseValue_first_mismatch_counterexample :
    subrecords.Sub1099OID.Parse sample.upper sample.oidConfig sample.oidEmpty
        (subrecords.Sub1099OID.Ascii sample.oidConfig sample.oidLower)
      = .done (sample.oidEmpty, some Err.ErrNonAlphanumeric)
    ∧ subrecords.Sub1099OID.Parse sample.upper sample.oidConfig sample.oidEmpty sample.oidAsciiLowerSpecial
      = .done ({ sample.oidEmpty with Description := lit "NYSE XYZ 12/2019", FATCA := lit "1" },
          some Err.ErrNonAlphanumeric) := by
  decide

/-! ## The cursor of `paymentPerson.Parse` -/

/-- Each turn of a record loop appends one record and moves the cursor by one record
length; a return from inside the loop is at the start of the record that failed. -/
theorem parseLoop_cursor {Rec : Type} (env : file.Records Rec) (buf spare : Bytes)
    (tag : Nat) (new : Rec) (fuel : Nat) : ∀ (pos : Nat) (records : List Rec),
    match file.parseLoop env buf tag new fuel pos records with
    | .next pos1 records1 =>
      ∃ k, records1.length = records.length + k ∧ pos1 = pos + k * env.RecordLength
    | .ret pos1 records1 e =>
      ∃ k, records1.length = records.length + k ∧ pos1 = pos + k * env.RecordLength
        ∧ (e = Err.ErrInvalidAscii
          ∨ (env.Parse new (file.slice (buf ++ spare) pos1 (pos1 + env.RecordLength))).2
              = some e)
    | .panic _ => True := by
  induction fuel with
  | zero => intro pos records; simp only [file.parseLoop]
  | succ n ih =>
    intro pos records
    rw [file.parseLoop]
    cases hg : buf.get? pos with
    | none => simp only
    | some c =>
      simp only
      by_cases hc : c ≠ tag
      · rw [if_pos hc]
        exact ⟨0, by simp, by simp⟩
      · rw [if_neg hc]
        by_cases hshort : buf.length < pos + env.RecordLength
        · rw [if_pos hshort]
          exact ⟨0, by simp, by simp, Or.inl rfl⟩
        · rw [if_neg hshort]
          cases hp : env.Parse new (file.slice buf pos (pos + env.RecordLength)) with
          | mk r err =>
            cases err with
            | some e =>
              simp only
              exact ⟨0, by simp, by simp,
                Or.inr (by rw [slice_append_left buf spare _ _ (by omega), hp])⟩
            | none =>
              simp only
              have hrec := ih (pos + env.RecordLength) (records ++ [r])
              cases hl : file.parseLoop env buf tag new n (pos + env.RecordLength)
                  (records ++ [r]) with
              | panic rs => simp only
              | next pos1 rs =>
                rw [hl] at hrec
                obtain ⟨k, hk1, hk2⟩ := hrec
                refine ⟨k + 1, ?_, ?_⟩
                · rw [hk1, List.length_append, List.length_singleton]; omega
                · rw [hk2, Nat.add_mul, Nat.one_mul]; omega
              | ret pos1 rs e =>
                rw [hl] at hrec
                obtain ⟨k, hk1, hk2, hk3⟩ := hrec
                refine ⟨k + 1, ?_, ?_, hk3⟩
                · rw [hk1, List.length_append, List.length_singleton]; omega
                · rw [hk2, Nat.add_mul, Nat.one_mul]; omega

theorem parseStates_cursor {Rec : Type} (env : file.Records Rec) (p p1 : file.paymentPerson Rec)
    (buf spare : Bytes) (pos : Nat) (cursor : Int) (err : Option Err)
    (h : file.paymentPerson.parseStates env p buf pos = (p1, .done (cursor, err))) :
    cursor = ((pos + file.statesDecoded env buf pos * env.RecordLength : Nat) : Int)
    ∧ p1.States.length = file.statesDecoded env buf pos
    ∧ p1.Payees = p.Payees
    ∧ (∀ e, err = some e → e = Err.ErrInvalidAscii
        ∨ ∃ r, (env.Parse r (file.slice (buf ++ spare)
            (pos + file.statesDecoded env buf pos * env.RecordLength)
            (pos + file.statesDecoded env buf pos * env.RecordLength
              + env.RecordLength))).2 = some e) := by
  have hloop := parseLoop_cursor env buf spare 75 env.NewKRecord (buf.length + 1) pos []
  simp only [file.paymentPerson.parseStates] at h
  simp only [file.statesDecoded]
  cases hl : file.parseLoop env buf 75 env.NewKRecord (buf.length + 1) pos [] with
  | panic rs =>
    rw [hl] at h
    exact absurd (Prod.mk.inj h).2 (by simp)
  | next pos1 rs =>
    rw [hl] at h hloop
    simp only [Prod.mk.injEq, utils.Outcome.done.injEq] at h
    obtain ⟨hp1, hcur, herr⟩ := h
    obtain ⟨k, hk1, hk2⟩ := hloop
    simp only [List.length_nil, Nat.zero_add] at hk1
    subst hp1 herr
    simp only
    refine ⟨?_, trivial, trivial, ?_⟩
    · rw [← hcur, hk2, hk1]
    · intro e he
      exact absurd he (by simp)
  | ret pos1 rs e1 =>
    rw [hl] at h hloop
    simp only [Prod.mk.injEq, utils.Outcome.done.injEq] at h
    obtain ⟨hp1, hcur, herr⟩ := h
    obtain ⟨k, hk1, hk2, hk3⟩ := hloop
    simp only [List.length_nil, Nat.zero_add] at hk1
    subst hp1 herr
    simp only
    refine ⟨?_, trivial, trivial, ?_⟩
    · rw [← hcur, hk2, hk1]
    · intro e he
      have : e1 = e := Option.some.inj he
      subst this
      rw [hk1, ← hk2]
      rcases hk3 with h3 | h3
      · exact Or.inl h3
      · exact Or.inr ⟨env.NewKRecord, h3⟩

/-- C19: for every buffer, whatever the spare capacity of its array, on which
`paymentPerson.Parse` returns and the payer it decoded is an `ARecord`, the returned
cursor equals `RecordLength` times the number of records decoded before returning. On
success that is the size of the group's records (the payer, the payees, the end payer if
one was read, and the states); on failure the cursor is the start offset of the record at
which `Parse` stopped, and the error is `ErrInvalidAscii` of a short buffer or the error
that decoding the record at that offset returned, also when the end payer was read from
the spare capacity behind a short buffer. -/
theorem person_parse_cursor {Rec : Type} (env : file.Records Rec)
    (p p1 : file.paymentPerson Rec) (buf spare : Bytes) (cursor : Int) (err : Option Err)
    (h : file.paymentPerson.Parse env p buf spare = (p1, .done (cursor, err)))
    (hpayer : ∀ payer, env.Parse (file.orNew p.Payer env.NewARecord)
        (file.slice buf 0 env.RecordLength) = (payer, none) →
      ∃ code, env.asARecord payer = some code) :
    cursor = ((env.RecordLength * file.paymentPerson.decoded env p buf spare : Nat) : Int)
    ∧ (err = none → ∃ c, c ≤ 1
        ∧ file.paymentPerson.decoded env p buf spare
            = 1 + p1.Payees.length + c + p1.States.length)
    ∧ (∀ e, err = some e → e = Err.ErrInvalidAscii
        ∨ ∃ r, (env.Parse r (file.slice (buf ++ spare)
            (env.RecordLength * file.paymentPerson.decoded env p buf spare)
            (env.RecordLength * file.paymentPerson.decoded env p buf spare
              + env.RecordLength))).2 = some e) := by
  simp only [file.paymentPerson.Parse] at h
  simp only [file.paymentPerson.decoded]
  cases hg : buf.get? 0 with
  | none =>
    rw [hg] at h
    exact absurd (Prod.mk.inj h).2 (by simp)
  | some c0 =>
    rw [hg] at h
    simp only at h ⊢
    by_cases hopen : c0 ≠ 65 ∨ buf.length < env.RecordLength
    · rw [if_pos hopen] at h ⊢
      simp only [Prod.mk.injEq, utils.Outcome.done.injEq] at h
      obtain ⟨_, hcur, herr⟩ := h
      subst hcur herr
      refine ⟨by simp, by intro h0; exact absurd h0 (by simp), ?_⟩
      intro e he
      exact Or.inl (Option.some.inj he).symm
    · rw [if_neg hopen] at h ⊢
      cases hpa : env.Parse (file.orNew p.Payer env.NewARecord)
          (file.slice buf 0 env.RecordLength) with
      | mk payer perr =>
        rw [hpa] at h
        cases perr with
        | some e0 =>
          simp only [Prod.mk.injEq, utils.Outcome.done.injEq] at h ⊢
          obtain ⟨_, hcur, herr⟩ := h
          subst hcur herr
          refine ⟨by simp, by intro h0; exact absurd h0 (by simp), ?_⟩
          intro e he
          have : e0 = e := Option.some.inj he
          subst this
          right
          refine ⟨file.orNew p.Payer env.NewARecord, ?_⟩
          simp only [Nat.mul_zero, Nat.zero_add]
          rw [slice_append_left buf spare _ _ (by omega), hpa]
        | none =>
          obtain ⟨code, hcode⟩ := hpayer payer hpa
          simp only [hcode] at h ⊢
          have hloopB := parseLoop_cursor env buf spare 66
            (env.NewBRecord (env.TypeOfReturns code)) (buf.length + 1) env.RecordLength []
          cases hB : file.parseLoop env buf 66 (env.NewBRecord (env.TypeOfReturns code))
              (buf.length + 1) env.RecordLength [] with
          | panic rs =>
            rw [hB] at h
            exact absurd (Prod.mk.inj h).2 (by simp)
          | ret pos rs e1 =>
            rw [hB] at h hloopB
            simp only [Prod.mk.injEq, utils.Outcome.done.injEq] at h ⊢
            obtain ⟨_, hcur, herr⟩ := h
            obtain ⟨k, hk1, hk2, hk3⟩ := hloopB
            simp only [List.length_nil, Nat.zero_add] at hk1
            have hpos : pos = env.RecordLength * (1 + rs.length) := by
              rw [hk2, hk1, Nat.mul_add, Nat.mul_one, Nat.mul_comm]
            subst herr
            refine ⟨by rw [← hcur, hpos], by intro h0; exact absurd h0 (by simp), ?_⟩
            intro e he
            have : e1 = e := Option.some.inj he
            subst this
            rw [← hpos]
            rcases hk3 with h3 | h3
            · exact Or.inl h3
            · exact Or.inr ⟨_, h3⟩
          | next pos rs =>
            rw [hB] at h hloopB
            obtain ⟨k, hk1, hk2⟩ := hloopB
            simp only [List.length_nil, Nat.zero_add] at hk1
            have hpos : pos = env.RecordLength * (1 + rs.length) := by
              rw [hk2, hk1, Nat.mul_add, Nat.mul_one, Nat.mul_comm]
            simp only at h ⊢
            cases hgc : buf.get? pos with
            | none =>
              rw [hgc] at h
              exact absurd (Prod.mk.inj h).2 (by simp)
            | some c =>
              rw [hgc] at h
              simp only at h ⊢
              by_cases hC : c = 67 ∨ buf.length < pos + env.RecordLength
              · rw [if_pos hC] at h ⊢
                by_cases hshort : buf.length + spare.length < pos + env.RecordLength
                · rw [if_pos hshort] at h
                  exact absurd (Prod.mk.inj h).2 (by simp)
                · rw [if_neg hshort] at h ⊢
                  cases hpc : env.Parse (file.orNew p.EndPayer env.NewCRecord)
                      (file.slice (buf ++ spare) pos (pos + env.RecordLength)) with
                  | mk r cerr =>
                    rw [hpc] at h
                    cases cerr with
                    | some e1 =>
                      simp only [Prod.mk.injEq, utils.Outcome.done.injEq] at h ⊢
                      obtain ⟨_, hcur, herr⟩ := h
                      subst herr
                      refine ⟨by rw [← hcur, hpos],
                        by intro h0; exact absurd h0 (by simp), ?_⟩
                      intro e he
                      have : e1 = e := Option.some.inj he
                      subst this
                      rw [← hpos]
                      exact Or.inr ⟨_, by rw [hpc]⟩
                    | none =>
                      simp only at h ⊢
                      obtain ⟨hs1, hs2, hs3, hs4⟩ :=
                        parseStates_cursor env _ p1 buf spare (pos + env.RecordLength) cursor
                          err h
                      simp only at hs3
                      have hd : env.RecordLength * (1 + rs.length + 1
                          + file.statesDecoded env buf (pos + env.RecordLength))
                          = pos + env.RecordLength
                            + file.statesDecoded env buf (pos + env.RecordLength)
                              * env.RecordLength := by
                        rw [hpos]
                        simp only [Nat.mul_add, Nat.mul_one, Nat.mul_comm]
                      refine ⟨by rw [hs1, hd], ?_, ?_⟩
                      · intro _
                        exact ⟨1, Nat.le_refl 1, by rw [hs3, hs2]⟩
                      · intro e he
                        rw [hd]
                        exact hs4 e he
              · rw [if_neg hC] at h ⊢
                obtain ⟨hs1, hs2, hs3, hs4⟩ :=
                  parseStates_cursor env _ p1 buf spare pos cursor err h
                simp only at hs3
                have hd : env.RecordLength * (1 + rs.length + file.statesDecoded env buf pos)
                    = pos + file.statesDecoded env buf pos * env.RecordLength := by
                  rw [hpos]
                  simp only [Nat.mul_add, Nat.mul_one, Nat.mul_comm]
                refine ⟨by rw [hs1, hd], ?_, ?_⟩
                · intro _
                  exact ⟨0, Nat.zero_le 1, by rw [hs3, hs2, Nat.add_zero]⟩
                · intro e he
                  rw [hd]
                  exact hs4 e he

/-- A complete group followed by a byte that is not `K`: `Parse` reads the payer, the
payees, the end payer and the states and returns the cursor after the last state. -/
theorem person_parse_group {Rec : Type} (env : file.Records Rec)
    (p : file.paymentPerson Rec) (a c : Bytes) (bs ks : List Bytes)
    (payer endPayer : Rec) (code : Bytes) (x : Nat) (tail spare : Bytes)
    (ha : a.length = env.RecordLength ∧ a.head? = some 65)
    (hpa : env.Parse (file.orNew p.Payer env.NewARecord) a = (payer, none))
    (hcode : env.asARecord payer = some code)
    (hbs : ∀ ch ∈ bs, ch.length = env.RecordLength ∧ ch.head? = some 66
      ∧ (env.Parse (env.NewBRecord (env.TypeOfReturns code)) ch).2 = none)
    (hc : c.length = env.RecordLength ∧ c.head? = some 67)
    (hpc : env.Parse (file.orNew p.EndPayer env.NewCRecord) c = (endPayer, none))
    (hks : ∀ ch ∈ ks, ch.length = env.RecordLength ∧ ch.head? = some 75
      ∧ (env.Parse env.NewKRecord ch).2 = none)
    (hx : x ≠ 75) :
    file.paymentPerson.Parse env p (a ++ bs.flatten ++ c ++ ks.flatten ++ x :: tail) spare
      = ({ Payer := some payer
           Payees := bs.map (fun ch => (env.Parse (env.NewBRecord (env.TypeOfReturns code)) ch).1)
           EndPayer := some endPayer
           States := ks.map (fun ch => (env.Parse env.NewKRecord ch).1) },
         .done (((env.RecordLength + bs.length * env.RecordLength + env.RecordLength
            + ks.length * env.RecordLength : Nat) : Int), none)) := by
  obtain ⟨halen, hahead⟩ := ha
  obtain ⟨hclen, hchead⟩ := hc
  obtain ⟨a0, atail, hat⟩ : ∃ a0 atail, a = a0 :: atail := by
    cases a with
    | nil => simp at hahead
    | cons y ys => exact ⟨y, ys, rfl⟩
  have ha0 : a0 = 65 := by rw [hat] at hahead; simpa using hahead
  obtain ⟨c0, ctail, hct⟩ : ∃ c0 ctail, c = c0 :: ctail := by
    cases c with
    | nil => simp at hchead
    | cons y ys => exact ⟨y, ys, rfl⟩
  have hc0 : c0 = 67 := by rw [hct] at hchead; simpa using hchead
  have hblen := flatten_length_of_chunks bs env.RecordLength (fun ch h => (hbs ch h).1)
  have hklen := flatten_length_of_chunks ks env.RecordLength (fun ch h => (hks ch h).1)
  have hrl : 0 < env.RecordLength := by rw [← halen, hat]; simp
  have hbn : bs.length ≤ bs.length * env.RecordLength := Nat.le_mul_of_pos_right _ hrl
  have hkn : ks.length ≤ ks.length * env.RecordLength := Nat.le_mul_of_pos_right _ hrl
  generalize hbuf : a ++ bs.flatten ++ c ++ ks.flatten ++ x :: tail = buf
  have hsize : buf.length = env.RecordLength + bs.length * env.RecordLength
      + env.RecordLength + ks.length * env.RecordLength + (tail.length + 1) := by
    rw [← hbuf]
    simp only [List.length_append, List.length_cons, halen, hclen, hblen, hklen]
  have hget0 : buf.get? 0 = some 65 := by
    rw [← hbuf, hat, ha0]; rfl
  have hslice0 : file.slice buf 0 env.RecordLength = a := by
    have : buf = [] ++ a ++ (bs.flatten ++ c ++ ks.flatten ++ x :: tail) := by
      rw [← hbuf]; simp only [List.nil_append, List.append_assoc]
    have h2 := slice_after [] a (bs.flatten ++ c ++ ks.flatten ++ x :: tail)
    rw [← this, halen] at h2
    simpa using h2
  have hloopB := parseLoop_run_next env 66 (env.NewBRecord (env.TypeOfReturns code)) buf a bs
    c0 (ctail ++ ks.flatten ++ x :: tail) env.RecordLength (buf.length + 1) []
    (by rw [← hbuf, hct]; simp only [List.append_assoc, List.cons_append])
    halen.symm (by rw [hc0]; decide) hbs (by omega)
  have hgetC : buf.get? (env.RecordLength + bs.length * env.RecordLength) = some 67 := by
    have : buf = (a ++ bs.flatten) ++ c0 :: (ctail ++ ks.flatten ++ x :: tail) := by
      rw [← hbuf, hct]; simp only [List.append_assoc, List.cons_append]
    have h2 := get?_after (a ++ bs.flatten) c0 (ctail ++ ks.flatten ++ x :: tail)
    rw [← this, List.length_append, halen, hblen, hc0] at h2
    exact h2
  have hsliceC : file.slice (buf ++ spare) (env.RecordLength + bs.length * env.RecordLength)
      (env.RecordLength + bs.length * env.RecordLength + env.RecordLength) = c := by
    have : buf = (a ++ bs.flatten) ++ c ++ (ks.flatten ++ x :: tail) := by
      rw [← hbuf]; simp only [List.append_assoc]
    have h2 := slice_after (a ++ bs.flatten) c (ks.flatten ++ x :: tail)
    rw [← this, List.length_append, halen, hblen, hclen] at h2
    rw [slice_append_left buf spare _ _ (by omega)]
    exact h2
  have hloopK := parseLoop_run_next env 75 env.NewKRecord buf (a ++ bs.flatten ++ c) ks
    x tail (env.RecordLength + bs.length * env.RecordLength + env.RecordLength)
    (buf.length + 1) [] hbuf.symm
    (by simp only [List.length_append, halen, hblen, hclen]) hx hks (by omega)
  simp only [List.nil_append] at hloopB hloopK
  simp only [file.paymentPerson.Parse, hget0, hslice0, hpa, hcode, hloopB, hgetC, hsliceC, hpc,
    file.paymentPerson.parseStates, hloopK]
  rw [if_neg (by omega), if_pos (Or.inl trivial), if_neg (by omega)]

/-- A short tail behind the payer and the payees, in an array with spare capacity for one
record: the slice expression of the end payer reads on into the spare capacity, and when
decoding those bytes fails `Parse` returns the offset of the tail and that error. -/
theorem person_parse_spare_end_payer {Rec : Type} (env : file.Records Rec)
    (p : file.paymentPerson Rec) (a : Bytes) (bs : List Bytes) (payer r : Rec) (code : Bytes)
    (x : Nat) (tail spare : Bytes) (e : Err)
    (ha : a.length = env.RecordLength ∧ a.head? = some 65)
    (hpa : env.Parse (file.orNew p.Payer env.NewARecord) a = (payer, none))
    (hcode : env.asARecord payer = some code)
    (hbs : ∀ ch ∈ bs, ch.length = env.RecordLength ∧ ch.head? = some 66
      ∧ (env.Parse (env.NewBRecord (env.TypeOfReturns code)) ch).2 = none)
    (hx : x ≠ 66)
    (hshort : (x :: tail).length < env.RecordLength)
    (hcap : env.RecordLength ≤ (x :: tail).length + spare.length)
    (hpc : env.Parse (file.orNew p.EndPayer env.NewCRecord)
        ((x :: tail ++ spare).take env.RecordLength) = (r, some e)) :
    file.paymentPerson.Parse env p (a ++ bs.flatten ++ x :: tail) spare
      = ({ Payer := some payer
           Payees := bs.map (fun ch => (env.Parse (env.NewBRecord (env.TypeOfReturns code)) ch).1)
           EndPayer := some r
           States := p.States },
         .done (((env.RecordLength + bs.length * env.RecordLength : Nat) : Int), some e)) := by
  obtain ⟨halen, hahead⟩ := ha
  obtain ⟨a0, atail, hat⟩ : ∃ a0 atail, a = a0 :: atail := by
    cases a with
    | nil => simp at hahead
    | cons y ys => exact ⟨y, ys, rfl⟩
  have ha0 : a0 = 65 := by rw [hat] at hahead; simpa using hahead
  have hblen := flatten_length_of_chunks bs env.RecordLength (fun ch h => (hbs ch h).1)
  have hrl : 0 < env.RecordLength := by rw [← halen, hat]; simp
  have hbn : bs.length ≤ bs.length * env.RecordLength := Nat.le_mul_of_pos_right _ hrl
  have hsliceX : file.slice (a ++ bs.flatten ++ x :: tail ++ spare)
      (env.RecordLength + bs.length * env.RecordLength)
      (env.RecordLength + bs.length * env.RecordLength + env.RecordLength)
      = (x :: tail ++ spare).take env.RecordLength := by
    have h2 := slice_from (a ++ bs.flatten) (x :: tail ++ spare) env.RecordLength
    rw [List.length_append, halen, hblen] at h2
    rw [← h2]
    simp only [List.append_assoc]
  generalize hbuf : a ++ bs.flatten ++ x :: tail = buf at hsliceX
  have hsize : buf.length = env.RecordLength + bs.length * env.RecordLength
      + (x :: tail).length := by
    rw [← hbuf]
    simp only [List.length_append, halen, hblen]
  have hget0 : buf.get? 0 = some 65 := by
    rw [← hbuf, hat, ha0]; rfl
  have hslice0 : file.slice buf 0 env.RecordLength = a := by
    have : buf = [] ++ a ++ (bs.flatten ++ x :: tail) := by
      rw [← hbuf]; simp only [List.nil_append, List.append_assoc]
    have h2 := slice_after [] a (bs.flatten ++ x :: tail)
    rw [← this, halen] at h2
    simpa using h2
  have hloopB := parseLoop_run_next env 66 (env.NewBRecord (env.TypeOfReturns code)) buf a bs
    x tail env.RecordLength (buf.length + 1) [] hbuf.symm halen.symm hx hbs (by omega)
  have hgetX : buf.get? (env.RecordLength + bs.length * env.RecordLength) = some x := by
    have h2 := get?_after (a ++ bs.flatten) x tail
    rw [hbuf, List.length_append, halen, hblen] at h2
    exact h2
  simp only [List.nil_append] at hloopB
  have hcond : x = 67 ∨ buf.length
      < env.RecordLength + bs.length * env.RecordLength + env.RecordLength :=
    Or.inr (by omega)
  simp only [file.paymentPerson.Parse, hget0, hslice0, hpa, hcode, hloopB, hgetX, hsliceX, hpc]
  rw [if_neg (by omega), if_pos hcond, if_neg (by omega)]

set_option maxRecDepth 100000 in
/-- C19 witness: on the sample stream `A B C K F` the group of four records is read and
the cursor is 3000, four times the record length. On an `A` record followed by the single
byte `C`, in an array whose spare capacity holds 749 stale bytes, the end payer is read
from the spare capacity and rejected, and the cursor is 750, one record length. -/
theorem person_parse_cursor_witness :
    (3000 : Int) = ((sample.records.RecordLength
        * file.paymentPerson.decoded sample.records sample.person sample.stream [] : Nat)
          : Int)
    ∧ (750 : Int) = ((sample.strict.RecordLength
        * file.paymentPerson.decoded sample.strict sample.person
            (sample.image 65 ++ [].flatten ++ 67 :: []) (List.replicate 749 200) : Nat)
          : Int) :=
  ⟨(person_parse_cursor sample.records sample.person
    { Payer := some (sample.image 65), Payees := [sample.image 66],
      EndPayer := some (sample.image 67), States := [sample.image 75] }
    sample.stream [] 3000 none
    (person_parse_group sample.records sample.person (sample.image 65) (sample.image 67)
      [sample.image 66] [sample.image 75] (sample.image 65) (sample.image 67) [32, 32] 70
      (List.replicate 749 32) []
      (by decide) (by decide) (by decide) (by decide) (by decide) (by decide) (by decide)
      (by decide))
    (fun _ _ => ⟨_, rfl⟩)).1,
   (person_parse_cursor sample.strict sample.person
    { Payer := some (sample.image 65), Payees := [], EndPayer := some [], States := [] }
    (sample.image 65 ++ [].flatten ++ 67 :: []) (List.replicate 749 200) 750
    (some Err.ErrNonAlphanumeric)
    (person_parse_spare_end_payer sample.strict sample.person (sample.image 65) []
      (sample.image 65) [] [32, 32] 67 [] (List.replicate 749 200) Err.ErrNonAlphanumeric
      (by decide) (by decide) (by decide) (by decide) (by decide) (by decide) (by decide)
      (by decide))
    (fun _ _ => ⟨_, rfl⟩)).1⟩

/-! ## The byte at the cursor after a successful `paymentPerson.Parse` -/

/-- A record loop falls through only on a byte that is in the buffer and is not the tag
the loop looks for. -/
theorem parseLoop_next_byte {Rec : Type} (env : file.Records Rec) (buf : Bytes) (tag : Nat)
    (new : Rec) (fuel : Nat) : ∀ (pos : Nat) (records : List Rec) (pos1 : Nat)
    (records1 : List Rec),
    file.parseLoop env buf tag new fuel pos records = .next pos1 records1 →
    ∃ c, buf.get? pos1 = some c ∧ c ≠ tag := by
  induction fuel with
  | zero =>
    intro pos records pos1 records1 h
    simp only [file.parseLoop] at h
    exact absurd h (by simp)
  | succ n ih =>
    intro pos records pos1 records1 h
    rw [file.parseLoop] at h
    cases hg : buf.get? pos with
    | none =>
      rw [hg] at h
      exact absurd h (by simp)
    | some c =>
      rw [hg] at h
      simp only at h
      by_cases hc : c ≠ tag
      · rw [if_pos hc] at h
        have hpos : pos = pos1 := by injection h
        subst hpos
        exact ⟨c, hg, hc⟩
      · rw [if_neg hc] at h
        by_cases hshort : buf.length < pos + env.RecordLength
        · rw [if_pos hshort] at h
          exact absurd h (by simp)
        · rw [if_neg hshort] at h
          cases hp : env.Parse new (file.slice buf pos (pos + env.RecordLength)) with
          | mk r err =>
            rw [hp] at h
            cases err with
            | some e => exact absurd h (by simp)
            | none => exact ih _ _ _ _ h

/-- When the end of `Parse` returns without error, the cursor is the offset of a byte of
the buffer that is not `K`. -/
theorem parseStates_next_byte {Rec : Type} (env : file.Records Rec)
    (p p1 : file.paymentPerson Rec) (buf : Bytes) (pos : Nat) (cursor : Int)
    (h : file.paymentPerson.parseStates env p buf pos = (p1, .done (cursor, none))) :
    ∃ n : Nat, cursor = (n : Int) ∧ ∃ c, buf.get? n = some c ∧ c ≠ 75 := by
  simp only [file.paymentPerson.parseStates] at h
  cases hl : file.parseLoop env buf 75 env.NewKRecord (buf.length + 1) pos [] with
  | panic rs =>
    rw [hl] at h
    exact absurd (Prod.mk.inj h).2 (by simp)
  | ret pos1 rs e1 =>
    rw [hl] at h
    simp only [Prod.mk.injEq, utils.Outcome.done.injEq] at h
    exact absurd h.2.2 (by simp)
  | next pos1 rs =>
    rw [hl] at h
    simp only [Prod.mk.injEq, utils.Outcome.done.injEq] at h
    exact ⟨pos1, h.2.1.symm, parseLoop_next_byte env buf 75 env.NewKRecord _ _ _ _ _ hl⟩

/-- C21: whenever `paymentPerson.Parse` returns a nil error, the returned cursor is
strictly less than the buffer length and the byte at the cursor is not `K`; so `Parse`
never succeeds with the cursor at the end of the buffer, whatever the spare capacity of
the buffer's array. -/
theorem person_parse_success_cursor {Rec : Type} (env : file.Records Rec)
    (p p1 : file.paymentPerson Rec) (buf spare : Bytes) (cursor : Int)
    (h : file.paymentPerson.Parse env p buf spare = (p1, .done (cursor, none))) :
    ∃ n : Nat, cursor = (n : Int) ∧ n < buf.length
      ∧ (∃ c, buf.get? n = some c ∧ c ≠ 75)
      ∧ cursor ≠ (buf.length : Int) := by
  have hkey : ∃ n : Nat, cursor = (n : Int) ∧ ∃ c, buf.get? n = some c ∧ c ≠ 75 := by
    simp only [file.paymentPerson.Parse] at h
    cases hg : buf.get? 0 with
    | none =>
      rw [hg] at h
      exact absurd (Prod.mk.inj h).2 (by simp)
    | some c0 =>
      rw [hg] at h
      simp only at h
      by_cases hopen : c0 ≠ 65 ∨ buf.length < env.RecordLength
      · rw [if_pos hopen] at h
        simp only [Prod.mk.injEq, utils.Outcome.done.injEq] at h
        exact absurd h.2.2 (by simp)
      · rw [if_neg hopen] at h
        cases hpa : env.Parse (file.orNew p.Payer env.NewARecord)
            (file.slice buf 0 env.RecordLength) with
        | mk payer perr =>
          rw [hpa] at h
          cases perr with
          | some e0 =>
            simp only [Prod.mk.injEq, utils.Outcome.done.injEq] at h
            exact absurd h.2.2 (by simp)
          | none =>
            simp only at h
            cases hcode : env.asARecord payer with
            | none =>
              rw [hcode] at h
              simp only [Prod.mk.injEq, utils.Outcome.done.injEq] at h
              exact absurd h.2.2 (by simp)
            | some code =>
              rw [hcode] at h
              simp only at h
              cases hB : file.parseLoop env buf 66 (env.NewBRecord (env.TypeOfReturns code))
                  (buf.length + 1) env.RecordLength [] with
              | panic rs =>
                rw [hB] at h
                exact absurd (Prod.mk.inj h).2 (by simp)
              | ret pos rs e1 =>
                rw [hB] at h
                simp only [Prod.mk.injEq, utils.Outcome.done.injEq] at h
                exact absurd h.2.2 (by simp)
              | next pos rs =>
                rw [hB] at h
                simp only at h
                cases hgc : buf.get? pos with
                | none =>
                  rw [hgc] at h
                  exact absurd (Prod.mk.inj h).2 (by simp)
                | some c =>
                  rw [hgc] at h
                  simp only at h
                  by_cases hC : c = 67 ∨ buf.length < pos + env.RecordLength
                  · rw [if_pos hC] at h
                    by_cases hshort : buf.length + spare.length < pos + env.RecordLength
                    · rw [if_pos hshort] at h
                      exact absurd (Prod.mk.inj h).2 (by simp)
                    · rw [if_neg hshort] at h
                      cases hpc : env.Parse (file.orNew p.EndPayer env.NewCRecord)
                          (file.slice (buf ++ spare) pos (pos + env.RecordLength)) with
                      | mk r cerr =>
                        rw [hpc] at h
                        cases cerr with
                        | some e1 =>
                          simp only [Prod.mk.injEq, utils.Outcome.done.injEq] at h
                          exact absurd h.2.2 (by simp)
                        | none =>
                          simp only at h
                          exact parseStates_next_byte env _ p1 buf _ cursor h
                  · rw [if_neg hC] at h
                    exact parseStates_next_byte env _ p1 buf _ cursor h
  obtain ⟨n, hn, c, hc, hck⟩ := hkey
  have hlt : n < buf.length := by
    rcases Nat.lt_or_ge n buf.length with hlt | hge
    · exact hlt
    · rw [List.get?_eq_none.mpr hge] at hc
      exact absurd hc (by simp)
  refine ⟨n, hn, hlt, ⟨c, hc, hck⟩, ?_⟩
  rw [hn]
  intro heq
  have : n = buf.length := Int.ofNat.inj heq
  omega

set_option maxRecDepth 100000 in
/-- C21 witness: on the sample stream `A B C K F` the call succeeds with the cursor at
3000, where the `F` record starts, and 750 bytes of the buffer are left. -/
theorem person_parse_success_cursor_witness :
    ∃ n : Nat, (3000 : Int) = (n : Int) ∧ n < sample.stream.length
      ∧ (∃ c, sample.stream.get? n = some c ∧ c ≠ 75)
      ∧ (3000 : Int) ≠ (sample.stream.length : Int) :=
  person_parse_success_cursor sample.records sample.person
    { Payer := some (sample.image 65), Payees := [sample.image 66],
      EndPayer := some (sample.image 67), States := [sample.image 75] }
    sample.stream [] 3000
    (person_parse_group sample.records sample.person (sample.image 65) (sample.image 67)
      [sample.image 66] [sample.image 75] (sample.image 65) (sample.image 67) [32, 32] 70
      (List.replicate 749 32) []
      (by decide) (by decide) (by decide) (by decide) (by decide) (by decide) (by decide)
      (by decide))

/-! ## Round trip of a group -/

theorem map_decode_encode {Rec : Type} (env : file.Records Rec) (new : Rec) (l : List Rec)
    (h : ∀ r ∈ l, env.Parse new (env.Ascii r) = (r, none)) :
    (l.map env.Ascii).map (fun ch => (env.Parse new ch).1) = l := by
  rw [List.map_map]
  conv_rhs => rw [← List.map_id l]
  apply List.map_congr_left
  intro r hr
  simp only [Function.comp_apply, h r hr, id_eq]

/-- C22: group round trip. For every `paymentPerson` with an `ARecord` payer, payees that
decode as the kind selected by the payer's return type, an end payer and states, where
each record encodes to exactly `RecordLength` bytes that begin with its own tag and
decodes from them, on a fresh record, back to itself, and for every suffix that begins
with a byte that is not `K`: `Ascii` returns, and `Parse` of its bytes followed by the
suffix, on a fresh `paymentPerson`, returns the length of the encoding as cursor, a nil
error, and the group itself, whatever the spare capacity of the buffer's array. -/
theorem person_group_round_trip {Rec : Type} (env : file.Records Rec)
    (p : file.paymentPerson Rec) (payer endPayer : Rec) (code : Bytes) (x : Nat)
    (tail spare : Bytes)
    (hp : p.Payer = some payer) (he : p.EndPayer = some endPayer)
    (hcode : env.asARecord payer = some code)
    (hA : (env.Ascii payer).length = env.RecordLength ∧ (env.Ascii payer).head? = some 65
      ∧ env.Parse env.NewARecord (env.Ascii payer) = (payer, none))
    (hB : ∀ b ∈ p.Payees, (env.Ascii b).length = env.RecordLength
      ∧ (env.Ascii b).head? = some 66
      ∧ env.Parse (env.NewBRecord (env.TypeOfReturns code)) (env.Ascii b) = (b, none))
    (hC : (env.Ascii endPayer).length = env.RecordLength
      ∧ (env.Ascii endPayer).head? = some 67
      ∧ env.Parse env.NewCRecord (env.Ascii endPayer) = (endPayer, none))
    (hK : ∀ k ∈ p.States, (env.Ascii k).length = env.RecordLength
      ∧ (env.Ascii k).head? = some 75
      ∧ env.Parse env.NewKRecord (env.Ascii k) = (k, none))
    (hx : x ≠ 75) :
    ∃ out, file.paymentPerson.Ascii env p = .done out
      ∧ file.paymentPerson.Parse env
          { Payer := none, Payees := [], EndPayer := none, States := [] } (out ++ x :: tail)
          spare
        = (p, .done ((out.length : Int), none)) := by
  refine ⟨env.Ascii payer ++ (p.Payees.map env.Ascii).flatten ++ env.Ascii endPayer
    ++ (p.States.map env.Ascii).flatten, ?_, ?_⟩
  · simp only [file.paymentPerson.Ascii, hp, he, foldl_append_flatten]
  · have hbs : ∀ ch ∈ p.Payees.map env.Ascii, ch.length = env.RecordLength
        ∧ ch.head? = some 66
        ∧ (env.Parse (env.NewBRecord (env.TypeOfReturns code)) ch).2 = none := by
      intro ch hch
      obtain ⟨b, hb, rfl⟩ := List.mem_map.mp hch
      exact ⟨(hB b hb).1, (hB b hb).2.1, by rw [(hB b hb).2.2]⟩
    have hks : ∀ ch ∈ p.States.map env.Ascii, ch.length = env.RecordLength
        ∧ ch.head? = some 75 ∧ (env.Parse env.NewKRecord ch).2 = none := by
      intro ch hch
      obtain ⟨k, hk, rfl⟩ := List.mem_map.mp hch
      exact ⟨(hK k hk).1, (hK k hk).2.1, by rw [(hK k hk).2.2]⟩
    have hgroup := person_parse_group env
      { Payer := none, Payees := [], EndPayer := none, States := [] }
      (env.Ascii payer) (env.Ascii endPayer) (p.Payees.map env.Ascii)
      (p.States.map env.Ascii) payer endPayer code x tail spare
      ⟨hA.1, hA.2.1⟩ hA.2.2 hcode hbs ⟨hC.1, hC.2.1⟩ hC.2.2 hks hx
    rw [hgroup,
      map_decode_encode env _ p.Payees (fun b hb => (hB b hb).2.2),
      map_decode_encode env _ p.States (fun k hk => (hK k hk).2.2)]
    have hblen := flatten_length_of_chunks (p.Payees.map env.Ascii) env.RecordLength
      (fun ch h => (hbs ch h).1)
    have hklen := flatten_length_of_chunks (p.States.map env.Ascii) env.RecordLength
      (fun ch h => (hks ch h).1)
    have hlen : (env.Ascii payer ++ (p.Payees.map env.Ascii).flatten ++ env.Ascii endPayer
        ++ (p.States.map env.Ascii).flatten).length
        = env.RecordLength + (p.Payees.map env.Ascii).length * env.RecordLength
          + env.RecordLength + (p.States.map env.Ascii).length * env.RecordLength := by
      simp only [List.length_append, hA.1, hC.1, hblen, hklen]
    rw [hlen]
    cases p with
    | mk pPayer pPayees pEndPayer pStates =>
      simp only at hp he
      subst hp he
      rfl

set_option maxRecDepth 100000 in
/-- C22 witness: the sample group of five records, followed by an `F` record. -/
theorem person_group_round_trip_witness :
    ∃ out, file.paymentPerson.Ascii sample.records sample.group = .done out
      ∧ file.paymentPerson.Parse sample.records
          { Payer := none, Payees := [], EndPayer := none, States := [] }
          (out ++ 70 :: List.replicate 749 32) []
        = (sample.group, .done ((out.length : Int), none)) :=
  person_group_round_trip sample.records sample.group (sample.image 65) (sample.image 67)
    [32, 32] 70 (List.replicate 749 32) [] rfl rfl rfl
    (by decide) (by decide) (by decide) (by decide) (by decide)

/-! ## A required integer field that holds zero -/

theorem isBlank_zeros (k : Nat) (hk : 1 ≤ k) :
    utils.isBlank (strings.Repeat config.ZeroString k) = false := by
  cases hb : utils.isBlank (strings.Repeat config.ZeroString k) with
  | false => rfl
  | true =>
    have h48 := (isBlank_iff _).mp hb 48
      (by
        simp only [strings.Repeat, config.ZeroString, List.mem_replicate]
        exact ⟨by omega, trivial⟩)
    exact absurd h48 (by decide)

theorem isNumeric_zeros (k : Nat) (hk : 1 ≤ k) :
    utils.isNumeric (strings.Repeat config.ZeroString k) = none := by
  obtain ⟨j, rfl⟩ : ∃ j, k = j + 1 := ⟨k - 1, by omega⟩
  have htrim : strings.TrimRight (List.replicate (j + 1) 48) = List.replicate (j + 1) 48 := by
    have h := trimRight_of_last (List.replicate (j + 1) 48)
      (by rw [List.replicate_succ', List.getLast?_concat]; simp) 0
    simpa using h
  have hall : (List.replicate (j + 1) 48).all strconv.isDigit = true := by
    rw [List.all_eq_true]
    intro x hx
    rw [(List.mem_replicate.mp hx).2]
    rfl
  have hne : (List.replicate (j + 1) 48).isEmpty = false := by
    rw [List.replicate_succ]; rfl
  simp only [utils.isNumeric, strings.Repeat, config.ZeroString, htrim,
    utils.numericRegexMatch, hall, hne, Bool.not_false, Bool.and_self, Bool.not_true,
    Bool.false_eq_true, if_false]

theorem parseInt_zeros (k : Nat) (hk : 1 ≤ k) :
    strconv.ParseInt (strings.Repeat config.ZeroString k) = .ok 0 := by
  obtain ⟨j, rfl⟩ : ∃ j, k = j + 1 := ⟨k - 1, by omega⟩
  have hval : strconv.decVal 0 (48 :: List.replicate j 48) = 0 := by
    have h := decVal_zeros (j + 1) []
    rw [List.append_nil, List.replicate_succ] at h
    rw [h]
    rfl
  have h := parseInt_digits 48 (List.replicate j 48)
    (by
      intro x hx
      rcases List.mem_cons.mp hx with h0 | h0
      · rw [h0]; rfl
      · rw [(List.mem_replicate.mp h0).2]; rfl)
    (by rw [hval]; decide)
  rw [hval] at h
  simp only [strings.Repeat, config.ZeroString, List.replicate_succ]
  rw [h]
  rfl

/-- C23 (as amended): decoding and `Validate` disagree on a required integer field that
holds zero. For every `Required` `ZeroNumeric` field of length `L >= 1`, the text of `L`
zeros is not blank, passes `isValidType`, and `parseValue` sets an int field to 0 from it
without error; yet `Validate` fails on every record that holds this 0 in the field: it
returns `FieldRequired` of the field unless a field declared before it fails, in which
case it returns the failure of that earlier field. So every record that `ParseValue`
accepts with zeros in the positions of such a field fails `Validate`. -/
theorem required_zero_decodes_not_validates (upper : Nat → Bool) (fieldName : String) (elm : SpecField)
    (n0 : Int)
    (htyp : elm.Typ = FieldType.ZeroNumeric)
    (hreq : elm.Required = Requirement.Required)
    (hlen : 1 ≤ elm.Length) :
    utils.isBlank (strings.Repeat config.ZeroString elm.Length) = false
    ∧ utils.isValidType fieldName elm (strings.Repeat config.ZeroString elm.Length) = none
    ∧ utils.parseValue elm (.int n0) (strings.Repeat config.ZeroString elm.Length)
        = .done (.int 0, none)
    ∧ (∀ (methods : utils.Methods) (spec : Layout) (before after : utils.Fields),
        spec.lookup fieldName = some elm →
        utils.Validate (before ++ (fieldName, .int 0) :: after) methods spec ≠ none
        ∧ ((∀ g ∈ before, utils.fieldFailure methods spec g = none) →
            utils.Validate (before ++ (fieldName, .int 0) :: after) methods spec
              = some (Err.FieldRequired fieldName))
        ∧ (∀ err, utils.Validate (before ++ (fieldName, .int 0) :: after) methods spec
              = some err →
            err = Err.FieldRequired fieldName
              ∨ ∃ g ∈ before, utils.fieldFailure methods spec g = some err))
    ∧ (∀ (methods : utils.Methods) (spec : Layout) (record : Bytes)
        (fields fields1 : utils.Fields),
        (∀ f ∈ fields, utils.isExported upper f.1 = true) →
        spec.lookup fieldName = some elm →
        fields.lookup fieldName = some (.int n0) →
        utils.span record elm = strings.Repeat config.ZeroString elm.Length →
        utils.ParseValue upper fields spec record = .done (fields1, none) →
        fields1.lookup fieldName = some (.int 0)
        ∧ utils.Validate fields1 methods spec ≠ none) := by
  have hblank := isBlank_zeros elm.Length hlen
  have hvalid : utils.isValidType fieldName elm
      (strings.Repeat config.ZeroString elm.Length) = none := by
    simp only [utils.isValidType, hblank, Bool.false_eq_true, and_false, if_false, htyp,
      isNumeric_zeros elm.Length hlen]
  have hparse : utils.parseValue elm (.int n0) (strings.Repeat config.ZeroString elm.Length)
      = .done (.int 0, none) := by
    simp only [utils.parseValue, htyp, parseInt_zeros elm.Length hlen]
  have hzero : ∀ spec : Layout, spec.lookup fieldName = some elm →
      utils.requiredAndZero spec (fieldName, .int 0) = true := by
    intro spec hlook
    simp only [utils.requiredAndZero, hlook, hreq, decide_True, Bool.true_and]
    rfl
  refine ⟨hblank, hvalid, hparse, ?_, ?_⟩
  · intro methods spec before after hlook
    have hv := validate_split (before ++ (fieldName, .int 0) :: after) before after
      (fieldName, .int 0) methods spec rfl (hzero spec hlook)
    refine ⟨?_, ?_, ?_⟩
    · rw [hv]
      cases before.findSome? (utils.fieldFailure methods spec) <;> simp
    · intro hpass
      have hnone : before.findSome? (utils.fieldFailure methods spec) = none :=
        List.findSome?_eq_none_iff.mpr hpass
      rw [hv, hnone]
      rfl
    · intro err herr
      rw [hv] at herr
      cases hb : before.findSome? (utils.fieldFailure methods spec) with
      | none =>
        rw [hb] at herr
        exact Or.inl (Option.some.inj herr).symm
      | some e =>
        rw [hb] at herr
        have he : e = err := Option.some.inj herr
        subst he
        obtain ⟨g, hg, hge⟩ := List.exists_of_findSome?_eq_some hb
        exact Or.inr ⟨g, hg, hge⟩
  · intro methods spec record fields fields1 hexp hlook hfield hspan hpv
    obtain ⟨elm1, v, hl1, _, _, hp1, hf1⟩ :=
      (parseValue_inv spec record fields fields1 hexp hpv fieldName).2 (.int n0) hfield
    rw [hlook] at hl1
    have helm : elm = elm1 := Option.some.inj hl1
    subst helm
    rw [hspan, hparse] at hp1
    have hv : Value.int 0 = v := by
      simp only [utils.Outcome.done.injEq, Prod.mk.injEq, and_true] at hp1
      exact hp1
    subst hv
    refine ⟨hf1, ?_⟩
    intro hnone
    have hmem := lookup_mem fields1 fieldName (.int 0) hf1
    have hfail := (validate_none_iff fields1 methods spec).mp hnone _ hmem
    simp only [utils.fieldFailure, hzero spec hlook, if_true] at hfail
    exact absurd hfail (by simp)

/-- C23 witness: the text of a `C` record with a zero-filled first control total is
decoded without error, and `Validate` on the decoded record returns `FieldRequired` of
the control total. -/
theorem required_zero_decodes_not_validates_witness :
    utils.ParseValue sample.upper sample.endPayerFields sample.endPayerLayout sample.endPayerAscii
      = .done ([("RecordType", .str (lit "C")), ("NumberPayees", .int 1),
          ("ControlTotal1", .int 0)], none)
    ∧ utils.Validate ([("RecordType", .str (lit "C")), ("NumberPayees", .int 1)]
          ++ ("ControlTotal1", .int 0) :: []) (fun _ => none) sample.endPayerLayout
        = some (Err.FieldRequired "ControlTotal1") :=
  ⟨by decide,
    ((required_zero_decodes_not_validates sample.upper "ControlTotal1" ⟨15, 18, .ZeroNumeric, .Required⟩ 0
        rfl rfl (by decide)).2.2.2.1 (fun _ => none) sample.endPayerLayout
      [("RecordType", .str (lit "C")), ("NumberPayees", .int 1)] [] (by decide)).2.1
      (by decide)⟩

/-- C23 counterexample: the text of a `C` record that covers no payee and has a zero-filled
first control total. Both fields are required; the zeros of the control total are not
blank, pass `isValidType` and decode to 0, the record is decoded without error, and
`Validate` on it returns `FieldRequired` of the number of payees, the earlier field, and
not of the control total. -/
theorem required_zero_decodes_not_validates_counterexample :
    utils.isBlank (List.replicate 18 48) = false
    ∧ utils.isValidType "ControlTotal1" ⟨15, 18, .ZeroNumeric, .Required⟩
        (List.replicate 18 48) = none
    ∧ utils.parseValue ⟨15, 18, .ZeroNumeric, .Required⟩ (.int 0) (List.replicate 18 48)
        = .done (.int 0, none)
    ∧ utils.ParseValue sample.upper sample.endPayerFields sample.endPayerLayout
        (lit "C" ++ lit "00000000" ++ List.replicate 6 32 ++ List.replicate 18 48)
        = .done ([("RecordType", .str (lit "C")), ("NumberPayees", .int 0),
            ("ControlTotal1", .int 0)], none)
    ∧ utils.Validate [("RecordType", .str (lit "C")), ("NumberPayees", .int 0),
          ("ControlTotal1", .int 0)] (fun _ => none) sample.endPayerLayout
        = some (Err.FieldRequired "NumberPayees")
    ∧ utils.Validate [("RecordType", .str (lit "C")), ("NumberPayees", .int 0),
          ("ControlTotal1", .int 0)] (fun _ => none) sample.endPayerLayout
        ≠ some (Err.FieldRequired "ControlTotal1") := by
  decide

end Irs
